import Mathlib

/-!
# Verification of the hiven.py client core

A shallow embedding of the cache store, the event dispatch engine and the
connect-time credential check of the `openhivenpy` package, together with
theorems settling the specification claims about them.

Conventions of the embedding:

* JSON-decoded Python data is modelled by `PVal`; Python `dict`s become
  association lists (`List (String × PVal)` for payload records, which in
  JSON always carry string keys; id-keyed cache partitions are
  `List (PVal × Dict)` since they are keyed by whatever value the payload's
  id field holds).
* Python exceptions become the `Exc` type; a function body that can raise
  while mutating the cache runs in the monad `M α := Store → Store × Except Exc α`,
  so mutations performed before a raise persist, exactly as for the real
  `ClientCache` (a Python object mutated in place).
* `copy.deepcopy` on plain values is the identity at this level: the value
  model has no sharing.  Sharing and in-place mutation are modelled
  separately by the heap embedding in the `Heap` section, which is used for
  the claims about defensive copies and caller-payload preservation.
-/

set_option autoImplicit false

namespace Hiven

/-- JSON-like values as decoded from the wire: the payloads handed to the
cache, their fields, and the values stored in cache records.  Dictionaries
are association lists with string keys, in insertion order, mirroring
Python dicts. -/
inductive PVal where
  | vnull
  | vbool (b : Bool)
  | vint  (n : Int)
  | vstr  (s : String)
  | vlist (xs : List PVal)
  | vdict (fields : List (String × PVal))
deriving Repr

mutual

/-- Decidable equality for `PVal` (the nested inductive defeats `deriving`). -/
def PVal.decEq : (a b : PVal) → Decidable (a = b)
  | .vnull, .vnull => isTrue rfl
  | .vbool b₁, .vbool b₂ =>
    match Bool.decEq b₁ b₂ with
    | isTrue h => isTrue (by rw [h])
    | isFalse h => isFalse (by intro hc; cases hc; exact h rfl)
  | .vint n₁, .vint n₂ =>
    match Int.decEq n₁ n₂ with
    | isTrue h => isTrue (by rw [h])
    | isFalse h => isFalse (by intro hc; cases hc; exact h rfl)
  | .vstr s₁, .vstr s₂ =>
    match String.decEq s₁ s₂ with
    | isTrue h => isTrue (by rw [h])
    | isFalse h => isFalse (by intro hc; cases hc; exact h rfl)
  | .vlist xs, .vlist ys =>
    match PVal.decEqList xs ys with
    | isTrue h => isTrue (by rw [h])
    | isFalse h => isFalse (by intro hc; cases hc; exact h rfl)
  | .vdict xs, .vdict ys =>
    match PVal.decEqFields xs ys with
    | isTrue h => isTrue (by rw [h])
    | isFalse h => isFalse (by intro hc; cases hc; exact h rfl)
  | .vnull, .vbool _ => isFalse (by intro h; cases h)
  | .vnull, .vint _ => isFalse (by intro h; cases h)
  | .vnull, .vstr _ => isFalse (by intro h; cases h)
  | .vnull, .vlist _ => isFalse (by intro h; cases h)
  | .vnull, .vdict _ => isFalse (by intro h; cases h)
  | .vbool _, .vnull => isFalse (by intro h; cases h)
  | .vbool _, .vint _ => isFalse (by intro h; cases h)
  | .vbool _, .vstr _ => isFalse (by intro h; cases h)
  | .vbool _, .vlist _ => isFalse (by intro h; cases h)
  | .vbool _, .vdict _ => isFalse (by intro h; cases h)
  | .vint _, .vnull => isFalse (by intro h; cases h)
  | .vint _, .vbool _ => isFalse (by intro h; cases h)
  | .vint _, .vstr _ => isFalse (by intro h; cases h)
  | .vint _, .vlist _ => isFalse (by intro h; cases h)
  | .vint _, .vdict _ => isFalse (by intro h; cases h)
  | .vstr _, .vnull => isFalse (by intro h; cases h)
  | .vstr _, .vbool _ => isFalse (by intro h; cases h)
  | .vstr _, .vint _ => isFalse (by intro h; cases h)
  | .vstr _, .vlist _ => isFalse (by intro h; cases h)
  | .vstr _, .vdict _ => isFalse (by intro h; cases h)
  | .vlist _, .vnull => isFalse (by intro h; cases h)
  | .vlist _, .vbool _ => isFalse (by intro h; cases h)
  | .vlist _, .vint _ => isFalse (by intro h; cases h)
  | .vlist _, .vstr _ => isFalse (by intro h; cases h)
  | .vlist _, .vdict _ => isFalse (by intro h; cases h)
  | .vdict _, .vnull => isFalse (by intro h; cases h)
  | .vdict _, .vbool _ => isFalse (by intro h; cases h)
  | .vdict _, .vint _ => isFalse (by intro h; cases h)
  | .vdict _, .vstr _ => isFalse (by intro h; cases h)
  | .vdict _, .vlist _ => isFalse (by intro h; cases h)

/-- Decidable equality for lists of `PVal`. -/
def PVal.decEqList : (xs ys : List PVal) → Decidable (xs = ys)
  | [], [] => isTrue rfl
  | [], _ :: _ => isFalse (by intro h; cases h)
  | _ :: _, [] => isFalse (by intro h; cases h)
  | x :: xs, y :: ys =>
    match PVal.decEq x y, PVal.decEqList xs ys with
    | isTrue h₁, isTrue h₂ => isTrue (by rw [h₁, h₂])
    | isFalse h₁, _ => isFalse (by intro hc; cases hc; exact h₁ rfl)
    | _, isFalse h₂ => isFalse (by intro hc; cases hc; exact h₂ rfl)

/-- Decidable equality for field lists of `PVal`-dicts. -/
def PVal.decEqFields : (xs ys : List (String × PVal)) → Decidable (xs = ys)
  | [], [] => isTrue rfl
  | [], _ :: _ => isFalse (by intro h; cases h)
  | _ :: _, [] => isFalse (by intro h; cases h)
  | (k₁, v₁) :: xs, (k₂, v₂) :: ys =>
    match String.decEq k₁ k₂, PVal.decEq v₁ v₂, PVal.decEqFields xs ys with
    | isTrue h₀, isTrue h₁, isTrue h₂ => isTrue (by rw [h₀, h₁, h₂])
    | isFalse h₀, _, _ => isFalse (by intro hc; cases hc; exact h₀ rfl)
    | _, isFalse h₁, _ => isFalse (by intro hc; cases hc; exact h₁ rfl)
    | _, _, isFalse h₂ => isFalse (by intro hc; cases hc; exact h₂ rfl)

end

instance : DecidableEq PVal := PVal.decEq

/-- A Python dict holding record fields (string keys). -/
abbrev Dict := List (String × PVal)

/-- An id-keyed cache partition: Python dict keyed by the payload's id value. -/
abbrev Part := List (PVal × Dict)

/-- `d.get(k)`: first binding of `k`, if any. -/
def aget {κ τ : Type} [DecidableEq κ] : List (κ × τ) → κ → Option τ
  | [], _ => none
  | p :: t, k => if p.1 = k then some p.2 else aget t k

/-- `d[k] = v`: replace the binding of `k` in place, else append it,
mirroring Python dict assignment (insertion order preserved). -/
def aset {κ τ : Type} [DecidableEq κ] : List (κ × τ) → κ → τ → List (κ × τ)
  | [], k, v => [(k, v)]
  | p :: t, k, v => if p.1 = k then (k, v) :: t else p :: aset t k v

/-- `d.update(e)`: assign every binding of `e` into `d`, first to last. -/
def aupdate {κ τ : Type} [DecidableEq κ] (d e : List (κ × τ)) : List (κ × τ) :=
  e.foldl (fun acc p => aset acc p.1 p.2) d

/-- `d.pop(k)`: remove the binding of `k` (the dict that remains). -/
def aremove {κ τ : Type} [DecidableEq κ] : List (κ × τ) → κ → List (κ × τ)
  | [], _ => []
  | p :: t, k => if p.1 = k then t else p :: aremove t k

/-- The key list of an association list, in order. -/
def keysOf {κ τ : Type} (l : List (κ × τ)) : List κ := l.map Prod.fst

/-- Keys are pairwise distinct — true of every real Python dict. -/
def NodupKey {κ τ : Type} (l : List (κ × τ)) : Prop := (keysOf l).Nodup

instance {κ τ : Type} [DecidableEq κ] (l : List (κ × τ)) : Decidable (NodupKey l) := by
  unfold NodupKey; infer_instance

/-- Python truthiness of an (optionally absent) value:
`None`, `False`, `0`, `""`, `[]` and `` {} `` are falsy. -/
def truthy : Option PVal → Bool
  | none => false
  | some .vnull => false
  | some (.vbool b) => b
  | some (.vint n) => decide (n ≠ 0)
  | some (.vstr s) => decide (s ≠ "")
  | some (.vlist xs) => decide (xs ≠ [])
  | some (.vdict fs) => decide (fs ≠ [])

/-- `int(x)`: Python int conversion of the values that can appear in a
payload; `none` models the raising cases (`TypeError`/`ValueError`). -/
def pyInt : PVal → Option Int
  | .vint n => some n
  | .vbool b => some (if b then 1 else 0)
  | .vstr s => s.trim.toInt?
  | _ => none

@[simp] theorem keysOf_nil {κ τ : Type} : keysOf ([] : List (κ × τ)) = [] := rfl

@[simp] theorem keysOf_cons {κ τ : Type} (p : κ × τ) (t : List (κ × τ)) :
    keysOf (p :: t) = p.1 :: keysOf t := rfl

section AssocLemmas

variable {κ τ : Type} [DecidableEq κ]

@[simp] theorem aget_nil (k : κ) : aget ([] : List (κ × τ)) k = none := rfl

theorem aget_cons (p : κ × τ) (t : List (κ × τ)) (k : κ) :
    aget (p :: t) k = if p.1 = k then some p.2 else aget t k := rfl

theorem aget_eq_none_of_not_mem {l : List (κ × τ)} {k : κ} (h : k ∉ keysOf l) :
    aget l k = none := by
  induction l with
  | nil => rfl
  | cons p t ih =>
    simp only [keysOf_cons, List.mem_cons] at h
    push_neg at h
    simp [aget_cons, Ne.symm h.1, ih h.2]

theorem mem_keys_of_aget_eq_some {l : List (κ × τ)} {k : κ} {v : τ}
    (h : aget l k = some v) : k ∈ keysOf l := by
  by_contra hk
  rw [aget_eq_none_of_not_mem hk] at h
  exact Option.noConfusion h

@[simp] theorem aget_aset_self (l : List (κ × τ)) (k : κ) (v : τ) :
    aget (aset l k v) k = some v := by
  induction l with
  | nil => simp [aset, aget]
  | cons p t ih =>
    by_cases h : p.1 = k
    · simp [aset, h, aget]
    · simp [aset, h, aget_cons, ih]

theorem aget_aset_ne (l : List (κ × τ)) (k k' : κ) (v : τ) (h : k' ≠ k) :
    aget (aset l k v) k' = aget l k' := by
  induction l with
  | nil => simp [aset, aget_cons, Ne.symm h]
  | cons p t ih =>
    by_cases hp : p.1 = k
    · have hs : aset (p :: t) k v = (k, v) :: t := by simp [aset, hp]
      rw [hs]
      show (if k = k' then some v else aget t k') = aget (p :: t) k'
      rw [if_neg (Ne.symm h), aget_cons, hp, if_neg (Ne.symm h)]
    · have hs : aset (p :: t) k v = p :: aset t k v := by simp [aset, hp]
      rw [hs, aget_cons, aget_cons, ih]

theorem keysOf_aset_of_mem {l : List (κ × τ)} {k : κ} (v : τ)
    (h : k ∈ keysOf l) : keysOf (aset l k v) = keysOf l := by
  induction l with
  | nil => cases h
  | cons p t ih =>
    by_cases hp : p.1 = k
    · simp [aset, hp]
    · simp only [keysOf_cons, List.mem_cons] at h
      rcases h with h | h
      · exact absurd h.symm hp
      · simp [aset, hp, ih h]

theorem keysOf_aset_of_not_mem {l : List (κ × τ)} {k : κ} (v : τ)
    (h : k ∉ keysOf l) : keysOf (aset l k v) = keysOf l ++ [k] := by
  induction l with
  | nil => simp [aset]
  | cons p t ih =>
    simp only [keysOf_cons, List.mem_cons] at h
    push_neg at h
    simp [aset, Ne.symm h.1, ih h.2]

theorem mem_keysOf_aset (l : List (κ × τ)) (k k' : κ) (v : τ) :
    k' ∈ keysOf (aset l k v) ↔ k' ∈ keysOf l ∨ k' = k := by
  by_cases h : k ∈ keysOf l
  · rw [keysOf_aset_of_mem v h]
    constructor
    · exact fun hm => Or.inl hm
    · rintro (hm | rfl) <;> [exact hm; exact h]
  · rw [keysOf_aset_of_not_mem v h]; simp

theorem nodupKey_aset {l : List (κ × τ)} (k : κ) (v : τ) (h : NodupKey l) :
    NodupKey (aset l k v) := by
  by_cases hm : k ∈ keysOf l
  · unfold NodupKey; rw [keysOf_aset_of_mem v hm]; exact h
  · unfold NodupKey; rw [keysOf_aset_of_not_mem v hm]
    simpa [List.nodup_append] using ⟨h, hm⟩

theorem aset_of_aget_eq_some {l : List (κ × τ)} {k : κ} {v : τ}
    (h : aget l k = some v) : aset l k v = l := by
  induction l with
  | nil => cases h
  | cons p t ih =>
    rw [aget_cons] at h
    by_cases hp : p.1 = k
    · simp only [hp, if_pos rfl] at h
      cases h
      have : (k, p.2) = p := by rw [← hp]
      simp [aset, hp, this]
    · simp only [hp, if_neg hp] at h
      simp [aset, hp, ih h]

end AssocLemmas

theorem aget_append {κ τ : Type} [DecidableEq κ] (l₁ l₂ : List (κ × τ)) (k : κ) :
    aget (l₁ ++ l₂) k = match aget l₁ k with
      | some v => some v
      | none => aget l₂ k := by
  induction l₁ with
  | nil => simp [aget]
  | cons p t ih =>
    by_cases hp : p.1 = k
    · simp [aget_cons, hp]
    · simp [aget_cons, hp, ih]

section ChainLemmas

variable {κ τ : Type} [DecidableEq κ]

theorem aget_none_iff_not_mem {l : List (κ × τ)} {k : κ} :
    aget l k = none ↔ k ∉ keysOf l := by
  induction l with
  | nil => simp
  | cons p t ih =>
    rw [aget_cons, keysOf_cons]
    by_cases hp : p.1 = k
    · subst hp
      simp
    · rw [if_neg hp, ih]
      simp only [List.mem_cons]
      constructor
      · intro h hc
        rcases hc with hc | hc
        · exact hp hc.symm
        · exact h hc
      · intro h hc
        exact h (Or.inr hc)

@[simp] theorem aupdate_nil (d : List (κ × τ)) : aupdate d [] = d := rfl

theorem aupdate_cons (d : List (κ × τ)) (p : κ × τ) (e : List (κ × τ)) :
    aupdate d (p :: e) = aupdate (aset d p.1 p.2) e := rfl

theorem aupdate_append (d e₁ e₂ : List (κ × τ)) :
    aupdate d (e₁ ++ e₂) = aupdate (aupdate d e₁) e₂ :=
  List.foldl_append _ _ _ _

theorem aupdate_concat (d e : List (κ × τ)) (p : κ × τ) :
    aupdate d (e ++ [p]) = aset (aupdate d e) p.1 p.2 := by
  rw [aupdate_append]; rfl

theorem aget_aupdate_of_not_mem {e : List (κ × τ)} {k : κ}
    (h : k ∉ keysOf e) (d : List (κ × τ)) :
    aget (aupdate d e) k = aget d k := by
  induction e generalizing d with
  | nil => rfl
  | cons p t ih =>
    simp only [keysOf_cons, List.mem_cons] at h
    push_neg at h
    rw [aupdate_cons, ih h.2, aget_aset_ne _ _ _ _ h.1]

theorem aget_aupdate_of_last {e : List (κ × τ)} {k : κ} {v : τ}
    (h : aget e.reverse k = some v) (d : List (κ × τ)) :
    aget (aupdate d e) k = some v := by
  induction e using List.reverseRecOn generalizing d with
  | nil => cases h
  | append_singleton t p ih =>
    rw [List.reverse_append, List.reverse_singleton, List.singleton_append,
      aget_cons] at h
    rw [aupdate_concat]
    by_cases hp : p.1 = k
    · rw [if_pos hp] at h
      cases h
      rw [hp, aget_aset_self]
    · rw [if_neg hp] at h
      rw [aget_aset_ne _ _ _ _ (fun hc => hp hc.symm)]
      exact ih h d

theorem aget_aupdate_of_nolast {e : List (κ × τ)} {k : κ}
    (h : aget e.reverse k = none) (d : List (κ × τ)) :
    aget (aupdate d e) k = aget d k := by
  apply aget_aupdate_of_not_mem
  intro hm
  rw [aget_none_iff_not_mem] at h
  apply h
  unfold keysOf at hm ⊢
  rw [List.map_reverse, List.mem_reverse]
  exact hm

theorem mem_keysOf_aupdate (d e : List (κ × τ)) (k : κ) :
    k ∈ keysOf (aupdate d e) ↔ k ∈ keysOf d ∨ k ∈ keysOf e := by
  induction e generalizing d with
  | nil => simp
  | cons p t ih =>
    rw [aupdate_cons, ih, mem_keysOf_aset]
    simp only [keysOf_cons, List.mem_cons]
    tauto

theorem keysOf_aupdate_of_subset {d e : List (κ × τ)}
    (h : ∀ p ∈ e, p.1 ∈ keysOf d) : keysOf (aupdate d e) = keysOf d := by
  induction e generalizing d with
  | nil => rfl
  | cons p t ih =>
    rw [aupdate_cons]
    have hm : p.1 ∈ keysOf d := h p (List.mem_cons_self p t)
    have hk : keysOf (aset d p.1 p.2) = keysOf d := keysOf_aset_of_mem p.2 hm
    rw [ih, hk]
    intro q hq
    rw [hk]
    exact h q (List.mem_cons_of_mem p hq)

theorem nodupKey_aupdate {d : List (κ × τ)} (e : List (κ × τ)) (h : NodupKey d) :
    NodupKey (aupdate d e) := by
  induction e generalizing d with
  | nil => exact h
  | cons p t ih => exact ih (nodupKey_aset p.1 p.2 h)

theorem eq_of_keysOf_eq_of_aget_eq {d₁ d₂ : List (κ × τ)}
    (hk : keysOf d₁ = keysOf d₂) (hn : NodupKey d₁)
    (ha : ∀ k, aget d₁ k = aget d₂ k) : d₁ = d₂ := by
  induction d₁ generalizing d₂ with
  | nil => cases d₂ with
    | nil => rfl
    | cons q u => cases hk
  | cons p t ih =>
    cases d₂ with
    | nil => cases hk
    | cons q u =>
      simp only [keysOf_cons, List.cons.injEq] at hk
      obtain ⟨hpq, hku⟩ := hk
      have hn' : NodupKey t := (List.nodup_cons.mp hn).2
      have hpnt : p.1 ∉ keysOf t := (List.nodup_cons.mp hn).1
      have hpnu : p.1 ∉ keysOf u := fun hm => hpnt (by rw [hku]; exact hm)
      have hval : p.2 = q.2 := by
        have h1 := ha p.1
        rw [aget_cons, if_pos rfl, aget_cons, if_pos hpq.symm] at h1
        exact Option.some.inj h1
      have htu : t = u := by
        apply ih hku hn'
        intro k
        by_cases hkp : k = p.1
        · subst hkp
          rw [aget_eq_none_of_not_mem hpnt, aget_eq_none_of_not_mem hpnu]
        · have h2 := ha k
          rw [aget_cons, if_neg (fun hc => hkp hc.symm), aget_cons,
            if_neg (fun hc => hkp (hpq ▸ hc.symm))] at h2
          exact h2
      cases p; cases q
      simp only at hpq hval
      rw [hpq, hval, htu]

/-- Re-applying a dict update that the dict has already absorbed is a no-op:
after `d.update(e)`, a second `.update(e)` leaves the dict unchanged. -/
theorem aupdate_aupdate_self {d : List (κ × τ)} (e : List (κ × τ))
    (hn : NodupKey d) : aupdate (aupdate d e) e = aupdate d e := by
  apply eq_of_keysOf_eq_of_aget_eq
  · apply keysOf_aupdate_of_subset
    intro p hp
    rw [mem_keysOf_aupdate]
    exact Or.inr (List.mem_map_of_mem Prod.fst hp)
  · exact nodupKey_aupdate e (nodupKey_aupdate e hn)
  · intro k
    cases hr : aget e.reverse k with
    | some v => rw [aget_aupdate_of_last hr, aget_aupdate_of_last hr]
    | none => rw [aget_aupdate_of_nolast hr]

/-- `aset` into a dict that already holds exactly that binding is a no-op. -/
theorem aset_absorb {d : List (κ × τ)} {k : κ} {v : τ}
    (h : aget d k = some v) : aset d k v = d :=
  aset_of_aget_eq_some h

end ChainLemmas

end Hiven

namespace Hiven

/-!
## Exceptions and the cache monad

`Exc` collects the Python exception kinds the embedded code can raise.
`cacheUpdateFailed` models the `InitializationError("Failed to update the
cache due to an exception occurring") from e` wrapper that every
`add_or_update_*` method's `except Exception` handler applies — the spec's
`CacheUpdateFailed`, with the originating cause preserved.
-/

inductive Exc where
  | keyError (k : String)
  | valueError (msg : String)
  | typeError (msg : String)
  | attributeError (msg : String)
  | invalidPassedData (msg : String)
  | cacheUpdateFailed (cause : Exc)
  | runtimeError (msg : String)
  | unknownEvent
  | invalidToken (msg : String)
deriving DecidableEq, Repr

/-- The error `check_if_initialised` raises while `client_user` is absent:
`ValueError("Data Updates require a initialised Hiven Client!")` — the
spec's distinct `NotInitialized` error.  It is raised before the method
bodies' `try` block, so it is never wrapped in `cacheUpdateFailed`. -/
def notInitialisedExc : Exc :=
  .valueError "Data Updates require a initialised Hiven Client!"

/-- The `ClientCache` contents: one field per key of
`_create_default_dict`, with the `rooms` sub-dict flattened into its three
leaf partitions. -/
structure Store where
  token : PVal
  log_websocket : Bool
  client_user : Dict
  houses : Part
  users : Part
  rooms_private_single : Part
  rooms_private_group : Part
  rooms_house : Part
  entities : Part
  relationships : Part
  house_memberships : PVal
  house_ids : PVal
  settings : PVal
  read_state : PVal
deriving DecidableEq, Repr

/-- `_create_default_dict`: the empty cache created with the client. -/
def default_store (log_ws : Bool) : Store :=
  { token := .vstr "undefined"
    log_websocket := log_ws
    client_user := []
    houses := []
    users := []
    rooms_private_single := []
    rooms_private_group := []
    rooms_house := []
    entities := []
    relationships := []
    house_memberships := .vdict []
    house_ids := .vlist []
    settings := .vdict []
    read_state := .vdict [] }

/-- The cache mutation monad: Python methods on the `ClientCache` object
mutate it in place, and a raised exception leaves the mutations already
performed — so a computation yields both the (possibly mutated) store and
either a value or the exception. -/
def M (α : Type) : Type := Store → Store × Except Exc α

def M.pure {α : Type} (a : α) : M α := fun s => (s, .ok a)

def M.bind {α β : Type} (m : M α) (f : α → M β) : M β := fun s =>
  match m s with
  | (s', .ok a) => f a s'
  | (s', .error e) => (s', .error e)

instance : Monad M where
  pure := M.pure
  bind := M.bind

def mthrow {α : Type} (e : Exc) : M α := fun s => (s, .error e)

def getStore : M Store := fun s => (s, .ok s)

def modStore (f : Store → Store) : M Unit := fun s => (f s, .ok ())

/-- Lift a pure (validator) result into the cache monad. -/
def liftE {α : Type} (r : Except Exc α) : M α := fun s => (s, r)

/-- The `try: ... except Exception as e: log_traceback(...); raise
InitializationError(...) from e` pattern shared by every
`add_or_update_*` method: failures are wrapped, mutations persist. -/
def tryWrap {α : Type} (m : M α) : M α := fun s =>
  match m s with
  | (s', .ok a) => (s', .ok a)
  | (s', .error e) => (s', .error (.cacheUpdateFailed e))

@[simp] theorem bind_apply {α β : Type} (m : M α) (f : α → M β) (s : Store) :
    (m >>= f) s = match m s with
      | (s', .ok a) => f a s'
      | (s', .error e) => (s', .error e) := rfl

@[simp] theorem pure_apply {α : Type} (a : α) (s : Store) :
    (Pure.pure a : M α) s = (s, .ok a) := rfl

@[simp] theorem mthrow_apply {α : Type} (e : Exc) (s : Store) :
    (mthrow e : M α) s = (s, .error e) := rfl

@[simp] theorem getStore_apply (s : Store) : getStore s = (s, .ok s) := rfl

@[simp] theorem modStore_apply (f : Store → Store) (s : Store) :
    modStore f s = (f s, .ok ()) := rfl

@[simp] theorem liftE_apply {α : Type} (r : Except Exc α) (s : Store) :
    liftE r s = (s, r) := rfl

@[simp] theorem tryWrap_apply {α : Type} (m : M α) (s : Store) :
    tryWrap m s = match m s with
      | (s', .ok a) => (s', .ok a)
      | (s', .error e) => (s', .error (.cacheUpdateFailed e)) := rfl

/-- `d[k]`: Python subscription on a dict — `KeyError` when absent. -/
def pyIndex (d : Dict) (k : String) : Except Exc PVal :=
  match aget d k with
  | some v => .ok v
  | none => .error (.keyError k)

/-- Iterating a payload field as a list. -/
def asListE : PVal → Except Exc (List PVal)
  | .vlist xs => .ok xs
  | _ => .error (.typeError "expected a list")

/-- Using a payload field as a dict. -/
def asDictE : PVal → Except Exc Dict
  | .vdict fs => .ok fs
  | _ => .error (.typeError "expected a dict")

end Hiven

namespace Hiven

/-!
## Entity normalizers (`format_obj_data`)

`Entity.format_obj_data` is embedded from `src/openhivenpy/types/entity.py`.
The other per-kind normalizers (`User`, `House`, `TextRoom`, `PrivateRoom`,
`PrivateGroupRoom`, `Relationship`) live in modules absent from the
repository snapshot, so they are modelled from the spec (§4.2): pure
validators that check the kind's required fields, flatten embedded objects
to their ids, and otherwise return the payload unchanged.
-/

def isStrV : PVal → Bool
  | .vstr _ => true
  | _ => false

def isIntV : PVal → Bool
  | .vint _ => true
  | _ => false

namespace User

/-- `types.User.format_obj_data`.  Modelled from the spec:
`src/openhivenpy/types/user.py` is missing from the snapshot.  §4.2
prescribes a pure per-kind validator; the user record is validated to carry
its string `id` and is otherwise passed through unchanged. -/
def format_obj_data (d : Dict) : Except Exc Dict :=
  if isStrV ((aget d "id").getD .vnull) then .ok d
  else .error (.invalidPassedData "User")

end User

namespace TextRoom

/-- `types.TextRoom.format_obj_data`.  Modelled from the spec: the room
module is missing from the snapshot.  A room record must carry its string
`id` and its `house_id` reference (§4.2, §8); it is otherwise passed
through unchanged. -/
def format_obj_data (d : Dict) : Except Exc Dict :=
  if isStrV ((aget d "id").getD .vnull) && truthy (aget d "house_id") then .ok d
  else .error (.invalidPassedData "TextRoom")

end TextRoom

namespace PrivateRoom

/-- `types.PrivateRoom.format_obj_data`.  Modelled from the spec: the
module is missing from the snapshot.  Validates the string `id`; the call
site in `add_or_update_private_room` discards the result and stores its
own copy, so only success or failure matters there. -/
def format_obj_data (d : Dict) : Except Exc Dict :=
  if isStrV ((aget d "id").getD .vnull) then .ok d
  else .error (.invalidPassedData "PrivateRoom")

end PrivateRoom

namespace PrivateGroupRoom

/-- `types.PrivateGroupRoom.format_obj_data`.  Modelled from the spec, as
for `PrivateRoom.format_obj_data`. -/
def format_obj_data (d : Dict) : Except Exc Dict :=
  if isStrV ((aget d "id").getD .vnull) then .ok d
  else .error (.invalidPassedData "PrivateGroupRoom")

end PrivateGroupRoom

namespace Relationship

/-- `types.Relationship.format_obj_data`.  Modelled from the spec: the
snapshot's `relationship.py` is the older divergent version (`form_object`),
and §9 directs to the `format_obj_data` contract.  Validates the integer
`type` discriminant and flattens an embedded `user` object to its id
(§4.2 reference flattening). -/
def format_obj_data (d : Dict) : Except Exc Dict :=
  if isIntV ((aget d "type").getD .vnull) then
    .ok (match aget d "user" with
      | some (.vdict ufs) => aset d "user" ((aget ufs "id").getD .vnull)
      | _ => d)
  else .error (.invalidPassedData "Relationship")

end Relationship

namespace Entity

/-- The property keys admitted by `Entity.json_schema`
(`additionalProperties: false`). -/
def allowedKeys : List String :=
  ["id", "name", "type", "resource_pointers", "house_id", "house", "position"]

/-- The `required` list of `Entity.json_schema`. -/
def requiredKeys : List String :=
  ["id", "name", "position", "resource_pointers", "house_id"]

/-- Per-property type check of `Entity.json_schema`. -/
def propOk (k : String) (v : PVal) : Bool :=
  if k = "id" then isStrV v
  else if k = "name" then isStrV v
  else if k = "type" then isIntV v
  else if k = "resource_pointers" then
    match v with
    | .vdict _ => true
    | .vlist _ => true
    | .vnull => true
    | _ => false
  else if k = "house_id" then isStrV v
  else if k = "house" then
    match v with
    | .vdict _ => true
    | .vstr _ => true
    | .vnull => true
    | _ => false
  else if k = "position" then isIntV v
  else false

/-- `Entity.json_validator` (fastjsonschema compiled from
`Entity.json_schema`): the required keys must be present, every present
key must be an allowed property of the right shape, and the absent
`type` property receives its schema default `1`. -/
def validate (d : Dict) : Except Exc Dict :=
  if requiredKeys.all (fun k => decide (k ∈ keysOf d))
      && d.all (fun p => propOk p.1 p.2) then
    .ok (if "type" ∈ keysOf d then d else aset d "type" (.vint 1))
  else .error (.invalidPassedData "Entity")

/-- `types.Entity.format_obj_data` from `src/openhivenpy/types/entity.py`:
when `house_id` is falsy and `house` truthy, pop `house` and replace it by
the embedded object's id (failing with `InvalidPassedDataError` when no id
can be extracted); then mirror `house_id` into `house` and validate.
The `isinstance(house, HivenTypeObject)` branch cannot arise for a
JSON-decoded payload and maps to the `house_id = None` failure. -/
def format_obj_data (d0 : Dict) : Except Exc Dict := do
  let d1 ←
    if !truthy (aget d0 "house_id") && truthy (aget d0 "house") then do
      let house := (aget d0 "house").getD .vnull
      let popped := aremove d0 "house"
      let house_id : Option PVal :=
        match house with
        | .vdict fs =>
          match aget fs "id" with
          | some .vnull => none
          | o => o
        | _ => none
      match house_id with
      | none => throw (.invalidPassedData "The passed house is not in the correct format!")
      | some hid => Pure.pure (aset popped "house_id" hid)
    else Pure.pure d0
  let d2 := aset d1 "house" ((aget d1 "house_id").getD .vnull)
  validate d2

end Entity

namespace House

/-- Build the normalized `members` mapping: each member record keyed by its
embedded user's string id, later members overriding earlier ones. -/
def buildMembers (acc : List (String × PVal)) : List PVal → Except Exc (List (String × PVal))
  | [] => .ok acc
  | m :: rest =>
    match m with
    | .vdict fs =>
      match aget fs "user" with
      | some (.vdict ufs) =>
        match aget ufs "id" with
        | some (.vstr uid) => buildMembers (aset acc uid (.vdict fs)) rest
        | _ => .error (.invalidPassedData "House member")
      | _ => .error (.invalidPassedData "House member")
    | _ => .error (.invalidPassedData "House member")

/-- Extract the id of each embedded object of a list (§4.2 reference
flattening: a parent record stores only ids). -/
def idsOf : List PVal → Except Exc (List PVal)
  | [] => .ok []
  | x :: rest =>
    match x with
    | .vdict fs =>
      match aget fs "id" with
      | some i => do
        let t ← idsOf rest
        .ok (i :: t)
      | none => .error (.invalidPassedData "House sub-entity")
    | _ => .error (.invalidPassedData "House sub-entity")

/-- `types.House.format_obj_data`.  Modelled from the spec: house.py is
missing from the snapshot.  §4.2/§3: validate the string `id` and the
`name`, flatten `rooms` and `entities` to lists of ids, and turn `members`
into a mapping keyed by each member's user id (the caller then looks up
`client_member` in that mapping by the authenticated identity's id). -/
def format_obj_data (d : Dict) : Except Exc Dict := do
  if !(isStrV ((aget d "id").getD .vnull) && truthy (aget d "name")) then
    throw (.invalidPassedData "House")
  let rooms ← asListE ((aget d "rooms").getD .vnull)
  let members ← asListE ((aget d "members").getD .vnull)
  let entities ← asListE ((aget d "entities").getD .vnull)
  let roomIds ← idsOf rooms
  let entityIds ← idsOf entities
  let mdict ← buildMembers [] members
  .ok (aset (aset (aset d "rooms" (.vlist roomIds))
        "entities" (.vlist entityIds)) "members" (.vdict mdict))

end House

end Hiven

namespace Hiven

/-!
## Cache store operations (`src/openhivenpy/client/cache.py`)

`copy.deepcopy` of the payload is the identity on pure values, so it does
not appear below; the heap embedding later models it explicitly.
-/

/-- `ClientCache.check_if_initialised`: truthiness of `self.get('client_user')`
(an empty dict is falsy); raises the distinct not-initialised `ValueError`
otherwise.  Runs before each upsert's `try` block. -/
def check_if_initialised : M Unit := fun s =>
  if s.client_user = [] then (s, .error notInitialisedExc) else (s, .ok ())

@[simp] theorem check_if_initialised_apply (s : Store) :
    check_if_initialised s =
      if s.client_user = [] then (s, .error notInitialisedExc) else (s, .ok ()) := rfl

/-- The shared partition write:
`if part.get(id_) is None: part[id_] = data else: part[id_].update(data)`. -/
def partMerge (part : Part) (id_ : PVal) (data : Dict) : Part :=
  match aget part id_ with
  | none => aset part id_ data
  | some old => aset part id_ (aupdate old data)

/-- `ClientCache.update_client_user`: validate, merge into the singleton
`client_user` record, and mirror into the `users` partition. -/
def update_client_user (item_data : Dict) : M Dict := do
  let client_user ← liftE (User.format_obj_data item_data)
  modStore (fun s => { s with client_user := aupdate s.client_user client_user })
  let did ← liftE (pyIndex item_data "id")
  modStore (fun s => { s with users := partMerge s.users did client_user })
  Pure.pure client_user

/-- `ClientCache.add_or_update_user`. -/
def add_or_update_user (item_data : Dict) : M Dict := do
  check_if_initialised
  tryWrap (do
    let id_ ← liftE (pyIndex item_data "id")
    let data ← liftE (User.format_obj_data item_data)
    let s ← getStore
    if id_ = (aget s.client_user "id").getD .vnull then
      let _ ← update_client_user data
      Pure.pure ()
    else
      Pure.pure ()
    modStore (fun s2 => { s2 with users := partMerge s2.users id_ data })
    Pure.pure data)

/-- `ClientCache.add_or_update_room`. -/
def add_or_update_room (item_data : Dict) : M Dict := do
  check_if_initialised
  tryWrap (do
    let id_ ← liftE (pyIndex item_data "id")
    let data ← liftE (TextRoom.format_obj_data item_data)
    modStore (fun s => { s with rooms_house := partMerge s.rooms_house id_ data })
    Pure.pure data)

/-- `ClientCache.add_or_update_entity`. -/
def add_or_update_entity (item_data : Dict) : M Dict := do
  check_if_initialised
  tryWrap (do
    let id_ ← liftE (pyIndex item_data "id")
    let data ← liftE (Entity.format_obj_data item_data)
    modStore (fun s => { s with entities := partMerge s.entities id_ data })
    Pure.pure data)

/-- `ClientCache.add_or_update_private_room`: the `type` discriminant
routes the record to the `single` or the `group` partition; any other
value raises the discriminant `ValueError`, which the method's handler
wraps.  The `format_obj_data` results are discarded at this call site, as
in the source. -/
def add_or_update_private_room (item_data : Dict) : M Dict := do
  check_if_initialised
  tryWrap (do
    let id_ ← liftE (pyIndex item_data "id")
    let tv ← liftE (pyIndex item_data "type")
    match pyInt tv with
    | some 1 => do
      let _ ← liftE (PrivateRoom.format_obj_data item_data)
      modStore (fun s =>
        { s with rooms_private_single := partMerge s.rooms_private_single id_ item_data })
    | some 2 => do
      let _ ← liftE (PrivateGroupRoom.format_obj_data item_data)
      modStore (fun s =>
        { s with rooms_private_group := partMerge s.rooms_private_group id_ item_data })
    | some _ => mthrow (.valueError "Data does not contain correct type-id")
    | none => mthrow (.typeError "int() conversion of the type field failed")
    Pure.pure item_data)

/-- `ClientCache.add_or_update_relationship`: keyed by `user_id`; an
embedded truthy `user` object is upserted into the users partition first. -/
def add_or_update_relationship (item_data : Dict) : M Dict := do
  check_if_initialised
  tryWrap (do
    let id_ ← liftE (pyIndex item_data "user_id")
    if truthy (aget item_data "user") then do
      let u ← liftE (asDictE ((aget item_data "user").getD .vnull))
      let _ ← add_or_update_user u
      Pure.pure ()
    else
      Pure.pure ()
    let data ← liftE (Relationship.format_obj_data item_data)
    modStore (fun s => { s with relationships := partMerge s.relationships id_ data })
    Pure.pure data)

/-- `for room in data['rooms']:` — set the room's `house_id`, normalize it
and upsert it; the returned list is the payload's rooms list as left by
the loop's in-place `house_id` assignments. -/
def houseRoomsLoop (id_ : PVal) : List PVal → M (List PVal)
  | [] => Pure.pure []
  | r :: rest => do
    let rd ← liftE (asDictE r)
    let rd2 := aset rd "house_id" id_
    let room ← liftE (TextRoom.format_obj_data rd2)
    let _ ← add_or_update_room room
    let tail ← houseRoomsLoop id_ rest
    Pure.pure (.vdict rd2 :: tail)

/-- `for member in data['members']:` — set the member's `house_id`,
normalize the embedded user and upsert it. -/
def houseMembersLoop (id_ : PVal) : List PVal → M (List PVal)
  | [] => Pure.pure []
  | m :: rest => do
    let md ← liftE (asDictE m)
    let md2 := aset md "house_id" id_
    let uv ← liftE (pyIndex md2 "user")
    let ud ← liftE (asDictE uv)
    let user ← liftE (User.format_obj_data ud)
    let _ ← add_or_update_user user
    let tail ← houseMembersLoop id_ rest
    Pure.pure (.vdict md2 :: tail)

/-- `for entity in data['entities']:` — set the entity's `house_id`,
normalize it and upsert the normalized record. -/
def houseEntitiesLoop (id_ : PVal) : List PVal → M (List PVal)
  | [] => Pure.pure []
  | e :: rest => do
    let ed ← liftE (asDictE e)
    let ed2 := aset ed "house_id" id_
    let entity ← liftE (Entity.format_obj_data ed2)
    let _ ← add_or_update_entity entity
    let tail ← houseEntitiesLoop id_ rest
    Pure.pure (.vdict ed2 :: tail)

/-- The part of `ClientCache.add_or_update_house` that follows the rooms
loop: upsert the member users and the entities, normalize the house
record, recompute the derived `client_member` field from the normalized
members mapping keyed by `self['client_user']['id']`, and merge the
record into the houses partition. -/
def house_after_rooms (item_data : Dict) (id_ : PVal) (rooms2 : List PVal) : M Dict := do
  let membersV ← liftE (pyIndex item_data "members")
  let members ← liftE (asListE membersV)
  let members2 ← houseMembersLoop id_ members
  let entsV ← liftE (pyIndex item_data "entities")
  let ents ← liftE (asListE entsV)
  let ents2 ← houseEntitiesLoop id_ ents
  let data1 := aset (aset (aset item_data "rooms" (.vlist rooms2))
    "members" (.vlist members2)) "entities" (.vlist ents2)
  let data2 ← liftE (House.format_obj_data data1)
  let s ← getStore
  let cid ← liftE (pyIndex s.client_user "id")
  let membersD ← liftE (asDictE ((aget data2 "members").getD .vnull))
  let cm ← liftE (match cid with
    | .vstr c => pyIndex membersD c
    | _ => .error (.keyError "client_member"))
  let data3 := aset data2 "client_member" cm
  modStore (fun s2 => { s2 with houses := partMerge s2.houses id_ data3 })
  Pure.pure data3

/-- `ClientCache.add_or_update_house`: upsert each room, member user and
entity of the payload into its own partition, normalize the house record,
recompute the derived `client_member` field, and merge the record into
the houses partition (the body after the rooms loop is split into
`house_after_rooms`). -/
def add_or_update_house (item_data : Dict) : M Dict := do
  check_if_initialised
  tryWrap (do
    let id_ ← liftE (pyIndex item_data "id")
    let roomsV ← liftE (pyIndex item_data "rooms")
    let rooms ← liftE (asListE roomsV)
    let rooms2 ← houseRoomsLoop id_ rooms
    house_after_rooms item_data id_ rooms2)

end Hiven

namespace Hiven

/-!
## Event dispatch engine (`src/openhivenpy/events/__init__.py`)

Listeners are given identities (`lid`); the registry maps an event name to
the ordered bucket of registered listener ids, and a side table holds each
listener's mutable state, mirroring the Python objects.  An awaitable is
modelled by its observable behavior during one invocation: it either
returns or raises (`cbFails`), and `calls` counts its invocations.
-/

/-- `EVENTS` from the source.  The source lists the names across lines
with a missing comma after the `house_entity_update` literal, so Python's
implicit adjacent-string concatenation fuses it with the following
`relationship_update` literal into one element; the embedding writes that
element as the concatenation of the two source literals. -/
def EVENTS : List String :=
  ["init", "ready", "user_update",
   "house_join", "house_remove", "house_update", "house_delete", "house_downtime",
   "room_create", "room_update", "room_delete",
   "house_member_join", "house_member_leave", "house_member_enter",
   "house_member_exit", "house_member_update",
   "house_member_chunk", "batch_house_member_update",
   "house_entity_update" ++ "relationship_update",
   "presence_update",
   "message_create", "message_update", "message_delete",
   "typing_start"]

def NON_BUFFER_EVENTS : List String := ["init", "ready"]

/-- The observable state of one `DispatchEventListener`. -/
structure SListener where
  lid : Nat
  event_name : String
  single : Bool
  dispatched : Bool
  cbFails : Bool
  calls : Nat
  args : Option PVal
deriving DecidableEq, Repr

/-- The handler's registry (`_active_listeners`) plus the listener-state
table. -/
structure EvState where
  active_listeners : List (String × List Nat)
  table : List (Nat × SListener)
deriving DecidableEq, Repr

/-- The registry of a freshly constructed handler. -/
def emptyEvState : EvState := { active_listeners := [], table := [] }

/-- `HivenEventHandler.add_listener`: append to the bucket when the
existing bucket is truthy (non-empty), else create the singleton bucket. -/
def add_listener (st : EvState) (l : SListener) : EvState :=
  match aget st.active_listeners l.event_name with
  | some (n :: ns) =>
    { st with
        active_listeners := aset st.active_listeners l.event_name ((n :: ns) ++ [l.lid])
        table := aset st.table l.lid l }
  | _ =>
    { st with
        active_listeners := aset st.active_listeners l.event_name [l.lid]
        table := aset st.table l.lid l }

/-- `list.remove(x)`: drop the first occurrence. -/
def removeFirst : List Nat → Nat → List Nat
  | [], _ => []
  | n :: t, x => if n = x then t else n :: removeFirst t x

/-- `HivenEventHandler.remove_listener`: after a truthiness check of the
bucket, `list.remove` the listener; a missing or empty bucket raises the
`KeyError`, an absent element raises `list.remove`'s `ValueError`. -/
def remove_listener (st : EvState) (l : SListener) : EvState × Except Exc Unit :=
  match aget st.active_listeners l.event_name with
  | some (n :: ns) =>
    if l.lid ∈ n :: ns then
      ({ st with
          active_listeners :=
            aset st.active_listeners l.event_name (removeFirst (n :: ns) l.lid) },
        .ok ())
    else (st, .error (.valueError "list.remove(x): x not in list"))
  | _ => (st, .error (.keyError "The listener does not exist in the cache"))

/-- `SingleDispatchEventListener.dispatch`: record the arguments, invoke
the awaitable — a raising awaitable is logged and re-raised wrapped in
`RuntimeError`, and the method ends there — and only after a successful
invocation set `_dispatched` and call `client.remove_listener(self)`. -/
def single_dispatch (st : EvState) (lid : Nat) (a : PVal) : EvState × Except Exc Unit :=
  match aget st.table lid with
  | none => (st, .error (.keyError "unknown listener"))
  | some l =>
    let l1 := { l with args := some a, calls := l.calls + 1 }
    let st1 := { st with table := aset st.table lid l1 }
    if l.cbFails then
      (st1, .error (.runtimeError "Failed to execute assigned coroutine"))
    else
      let l2 := { l1 with dispatched := true }
      let st2 := { st1 with table := aset st1.table lid l2 }
      remove_listener st2 l2

/-- `MultiDispatchEventListener.dispatch`: invoke the awaitable; a raising
awaitable is logged and re-raised wrapped in `RuntimeError`; the registry
is never touched. -/
def multi_dispatch (st : EvState) (lid : Nat) (a : PVal) : EvState × Except Exc Unit :=
  match aget st.table lid with
  | none => (st, .error (.keyError "unknown listener"))
  | some l =>
    let l1 := { l with args := some a, calls := l.calls + 1 }
    let st1 := { st with table := aset st.table lid l1 }
    if l.cbFails then
      (st1, .error (.runtimeError "Failed to execute assigned coroutine"))
    else (st1, .ok ())

/-- Python `event_name.replace('on_', '')`: delete every non-overlapping
occurrence of `on_`, scanning left to right (note: not merely a prefix
strip). -/
def stripOnList : List Char → List Char
  | [] => []
  | [c] => [c]
  | [c₁, c₂] => [c₁, c₂]
  | c₁ :: c₂ :: c₃ :: rest =>
    if c₁ = 'o' ∧ c₂ = 'n' ∧ c₃ = '_' then stripOnList rest
    else c₁ :: stripOnList (c₂ :: c₃ :: rest)

/-- `str.replace('on_', '')` on a string. -/
def pyStripOn (s : String) : String := String.mk (stripOnList s.data)

/-- `HivenEventHandler.add_single_listener` (the registration step of
`wait_for`): strip `on_`, validate the name against the available events
(`UnknownEventError` otherwise), ensure the bucket exists, and register a
fresh `SingleDispatchEventListener`. -/
def add_single_listener (st : EvState) (event_name : String) (lid : Nat) (cbFails : Bool) :
    EvState × Except Exc SListener :=
  let en := pyStripOn event_name
  if en ∈ EVENTS then
    let st1 :=
      if (aget st.active_listeners en).isNone then
        { st with active_listeners := aset st.active_listeners en [] }
      else st
    let l : SListener :=
      { lid := lid, event_name := en, single := true, dispatched := false
        cbFails := cbFails, calls := 0, args := none }
    (add_listener st1 l, .ok l)
  else (st, .error .unknownEvent)

/-- `HivenEventHandler.add_multi_listener` (also reached through the
`event` decorator): the same name check and registration for a
`MultiDispatchEventListener`. -/
def add_multi_listener (st : EvState) (event_name : String) (lid : Nat) (cbFails : Bool) :
    EvState × Except Exc SListener :=
  let en := pyStripOn event_name
  if en ∈ EVENTS then
    let st1 :=
      if (aget st.active_listeners en).isNone then
        { st with active_listeners := aset st.active_listeners en [] }
      else st
    let l : SListener :=
      { lid := lid, event_name := en, single := false, dispatched := false
        cbFails := cbFails, calls := 0, args := none }
    (add_listener st1 l, .ok l)
  else (st, .error .unknownEvent)

end Hiven

namespace Hiven

/-!
## Gateway credential pre-check (`HivenClient.connect`)
-/

/-- The credential check at the top of `HivenClient.connect`, performed
before `await self.connection.connect(...)` — i.e. before any network
attempt: a `None` or empty token raises
`InvalidTokenError("Empty Token was passed!")`, and a token whose length
is in neither of the two accepted fixed lengths raises
`InvalidTokenError("Invalid Token was passed!")`.  The two lengths are
`USER_TOKEN_LEN` and `BOT_TOKEN_LEN`, read from the environment
(`load_env_vars`; the settings module is missing from the snapshot, and
the spec fixes them only as the two accepted fixed lengths distinguishing
the two account kinds), so they are parameters here.  An `.ok ()` result
means control reached the network call. -/
def connect_token_check (userTokenLen botTokenLen : Nat) (token : Option String) :
    Except Exc Unit :=
  match token with
  | none => .error (.invalidToken "Empty Token was passed!")
  | some t =>
    if t = "" then .error (.invalidToken "Empty Token was passed!")
    else if t.length = userTokenLen ∨ t.length = botTokenLen then .ok ()
    else .error (.invalidToken "Invalid Token was passed!")

end Hiven

namespace Hiven

/-!
## Claim theorems
-/

instance {ε α : Type} [DecidableEq ε] [DecidableEq α] : DecidableEq (Except ε α)
  | .ok x, .ok y =>
    match decEq x y with
    | isTrue h => isTrue (by rw [h])
    | isFalse h => isFalse (by intro hc; cases hc; exact h rfl)
  | .error e, .error f =>
    match decEq e f with
    | isTrue h => isTrue (by rw [h])
    | isFalse h => isFalse (by intro hc; cases hc; exact h rfl)
  | .ok _, .error _ => isFalse (by intro h; cases h)
  | .error _, .ok _ => isFalse (by intro h; cases h)

/-- The registry holding exactly one one-shot listener (id 0) for the
`ready` event whose callback raises when invoked. -/
def raisingOneShotState : EvState := (add_single_listener emptyEvState "ready" 0 true).1

/-- C1: contrary to the claim, a one-shot listener whose callback raises
during dispatch is *not* deregistered: `SingleDispatchEventListener.dispatch`
re-raises the wrapped `RuntimeError` from its `except` block, so the
`self._dispatched = True` and `self.client.remove_listener(self)` lines
are skipped — the listener stays in the registry with its flag unset and
a later dispatch of the same event invokes its callback a second time. -/
theorem one_shot_raising_listener_stays_registered :
    (single_dispatch raisingOneShotState 0 .vnull).2 =
      .error (.runtimeError "Failed to execute assigned coroutine") ∧
    aget (single_dispatch raisingOneShotState 0 .vnull).1.active_listeners "ready" = some [0] ∧
    Option.map SListener.dispatched
      (aget (single_dispatch raisingOneShotState 0 .vnull).1.table 0) = some false ∧
    Option.map SListener.calls
      (aget (single_dispatch
        (single_dispatch raisingOneShotState 0 .vnull).1 0 .vnull).1.table 0) = some 2 := by
  decide

/-- C2: the fixed event set of the source misses a comma, so Python's
implicit string concatenation fuses `house_entity_update` and
`relationship_update` into one bogus name: neither spec event name is
registrable (both persistent registration and the one-shot `wait_for`
check fail with `UnknownEventError`), while the fused name is accepted. -/
theorem events_list_misses_relationship_update :
    "relationship_update" ∉ EVENTS ∧
    "house_entity_update" ∉ EVENTS ∧
    "house_entity_updaterelationship_update" ∈ EVENTS ∧
    (add_multi_listener emptyEvState "relationship_update" 0 false).2 = .error .unknownEvent ∧
    (add_single_listener emptyEvState "relationship_update" 0 false).2 = .error .unknownEvent ∧
    (add_multi_listener emptyEvState "house_entity_update" 0 false).2 = .error .unknownEvent ∧
    (add_single_listener emptyEvState "house_entity_updaterelationship_update" 0 false).2 =
      .ok { lid := 0, event_name := "house_entity_updaterelationship_update", single := true
            dispatched := false, cbFails := false, calls := 0, args := none } := by
  decide

/-- C3: while `client_user` is absent (the falsy empty dict), every upsert
operation fails with the distinct not-initialised `ValueError` raised by
`check_if_initialised` before the method's `try` block, and the whole
store — hence every partition — is left unchanged. -/
theorem pre_init_guard (s : Store) (p : Dict) (h : s.client_user = []) :
    add_or_update_user p s = (s, .error notInitialisedExc) ∧
    add_or_update_house p s = (s, .error notInitialisedExc) ∧
    add_or_update_room p s = (s, .error notInitialisedExc) ∧
    add_or_update_entity p s = (s, .error notInitialisedExc) ∧
    add_or_update_private_room p s = (s, .error notInitialisedExc) ∧
    add_or_update_relationship p s = (s, .error notInitialisedExc) := by
  unfold add_or_update_user add_or_update_house add_or_update_room
    add_or_update_entity add_or_update_private_room add_or_update_relationship
  simp [h]

theorem pre_init_guard_witness :
    (default_store false).client_user = [] ∧
    add_or_update_user [] (default_store false) =
      (default_store false, .error notInitialisedExc) :=
  ⟨rfl, (pre_init_guard (default_store false) [] rfl).1⟩

end Hiven

namespace Hiven

/-- C4: for an initialised store and a private-room payload carrying an
`id` (a string, so that the discarded `format_obj_data` validations pass)
and a `type` field, an `int(type)` of `1` merges the record into the
`rooms.private.single` partition only, `2` into `rooms.private.group`
only, and any other integer raises the discriminant `ValueError` — which
the method's handler wraps, as §4.1 prescribes for upsert failures — and
leaves the whole store, in particular both private-room partitions,
unchanged. -/
theorem private_room_discriminant_routing (s : Store) (p : Dict) (idv tv : PVal)
    (hcu : s.client_user ≠ []) (hid : aget p "id" = some idv)
    (hty : aget p "type" = some tv) (hids : isStrV idv = true) :
    (pyInt tv = some 1 →
      add_or_update_private_room p s =
        ({ s with rooms_private_single := partMerge s.rooms_private_single idv p }, .ok p)) ∧
    (pyInt tv = some 2 →
      add_or_update_private_room p s =
        ({ s with rooms_private_group := partMerge s.rooms_private_group idv p }, .ok p)) ∧
    (∀ n : Int, pyInt tv = some n → n ≠ 1 → n ≠ 2 →
      add_or_update_private_room p s =
        (s, .error (.cacheUpdateFailed (.valueError "Data does not contain correct type-id")))) := by
  have hfmt1 : PrivateRoom.format_obj_data p = .ok p := by
    unfold PrivateRoom.format_obj_data
    rw [hid]
    simp [hids]
  have hfmt2 : PrivateGroupRoom.format_obj_data p = .ok p := by
    unfold PrivateGroupRoom.format_obj_data
    rw [hid]
    simp [hids]
  refine ⟨?_, ?_, ?_⟩
  · intro h1
    unfold add_or_update_private_room
    simp [hcu, pyIndex, hid, hty, h1, hfmt1]
  · intro h2
    unfold add_or_update_private_room
    simp [hcu, pyIndex, hid, hty, h2, hfmt2]
  · intro n hn h1 h2
    unfold add_or_update_private_room
    simp only [bind_apply, check_if_initialised_apply, if_neg hcu, tryWrap_apply,
      liftE_apply, pyIndex, hid, hty, hn]
    split <;> simp_all

theorem private_room_discriminant_routing_witness :
    ({ default_store false with client_user := [("id", .vstr "1")] } : Store).client_user ≠ [] ∧
    add_or_update_private_room
        [("id", .vstr "P1"), ("type", .vint 3)]
        { default_store false with client_user := [("id", .vstr "1")] } =
      ({ default_store false with client_user := [("id", .vstr "1")] },
        .error (.cacheUpdateFailed (.valueError "Data does not contain correct type-id"))) := by
  constructor
  · decide
  · exact (private_room_discriminant_routing
      { default_store false with client_user := [("id", .vstr "1")] }
      [("id", .vstr "P1"), ("type", .vint 3)] (.vstr "P1") (.vint 3)
      (by decide) (by decide) (by decide) (by decide)).2.2 3 (by decide) (by decide) (by decide)

/-- C8: the credential pre-check of `connect`/`run`, performed before the
network call: a `None` or empty token and a token whose length is neither
of the two accepted fixed lengths are rejected with `InvalidTokenError`,
while a token whose length is one of the two (necessarily non-empty, the
lengths being positive) passes the check without an `InvalidTokenError`
and control reaches the network call. -/
theorem connect_token_precheck (uLen bLen : Nat) (hu : 0 < uLen) (hb : 0 < bLen) :
    (connect_token_check uLen bLen none =
      .error (.invalidToken "Empty Token was passed!")) ∧
    (connect_token_check uLen bLen (some "") =
      .error (.invalidToken "Empty Token was passed!")) ∧
    (∀ t : String, t.length ≠ uLen → t.length ≠ bLen →
      ∃ msg, connect_token_check uLen bLen (some t) = .error (.invalidToken msg)) ∧
    (∀ t : String, t.length = uLen ∨ t.length = bLen →
      connect_token_check uLen bLen (some t) = .ok ()) := by
  refine ⟨rfl, ?_, ?_, ?_⟩
  · simp [connect_token_check]
  · intro t h1 h2
    unfold connect_token_check
    by_cases he : t = ""
    · exact ⟨"Empty Token was passed!", by simp [he]⟩
    · exact ⟨"Invalid Token was passed!", by simp [he, h1, h2]⟩
  · intro t hlen
    have he : t ≠ "" := by
      intro hc
      subst hc
      rcases hlen with h | h
      · rw [← h] at hu
        exact absurd hu (by decide)
      · rw [← h] at hb
        exact absurd hb (by decide)
    unfold connect_token_check
    simp [he, hlen]

theorem connect_token_precheck_witness :
    (0 < 128 ∧ 0 < 132) ∧
    connect_token_check 128 132 (some (String.mk (List.replicate 128 'a'))) = .ok () :=
  ⟨⟨by decide, by decide⟩,
    (connect_token_precheck 128 132 (by decide) (by decide)).2.2.2
      (String.mk (List.replicate 128 'a')) (Or.inl (by simp [String.length]))⟩

end Hiven

namespace Hiven

/-!
## Run and frame lemmas for the cache monad
-/

theorem bind_ok_iff {α β : Type} {m : M α} {f : α → M β} {s s' : Store} {b : β} :
    (m >>= f) s = (s', .ok b) ↔ ∃ s₁ a, m s = (s₁, .ok a) ∧ f a s₁ = (s', .ok b) := by
  constructor
  · intro h
    rw [bind_apply] at h
    rcases hm : m s with ⟨s₁, r⟩
    rw [hm] at h
    cases r with
    | ok a => exact ⟨s₁, a, rfl, h⟩
    | error e => simp at h
  · rintro ⟨s₁, a, h1, h2⟩
    rw [bind_apply, h1]
    exact h2

theorem bind_error_iff {α β : Type} {m : M α} {f : α → M β} {s s' : Store} {e : Exc} :
    (m >>= f) s = (s', .error e) ↔
      m s = (s', .error e) ∨ ∃ s₁ a, m s = (s₁, .ok a) ∧ f a s₁ = (s', .error e) := by
  constructor
  · intro h
    rw [bind_apply] at h
    rcases hm : m s with ⟨s₁, r⟩
    rw [hm] at h
    cases r with
    | ok a => exact Or.inr ⟨s₁, a, rfl, h⟩
    | error e' =>
      simp only [Prod.mk.injEq, Except.error.injEq] at h
      exact Or.inl (by rw [h.1, h.2])
  · rintro (h | ⟨s₁, a, h1, h2⟩)
    · rw [bind_apply, h]
    · rw [bind_apply, h1]
      exact h2

theorem tryWrap_ok_iff {α : Type} {m : M α} {s s' : Store} {a : α} :
    tryWrap m s = (s', .ok a) ↔ m s = (s', .ok a) := by
  rw [tryWrap_apply]
  rcases hm : m s with ⟨s₁, r⟩
  cases r <;> simp

theorem tryWrap_error_iff {α : Type} {m : M α} {s s' : Store} {e : Exc} :
    tryWrap m s = (s', .error e) ↔
      ∃ e₀, e = .cacheUpdateFailed e₀ ∧ m s = (s', .error e₀) := by
  rw [tryWrap_apply]
  rcases hm : m s with ⟨s₁, r⟩
  cases r with
  | ok a =>
    simp only [Prod.mk.injEq]
    constructor
    · rintro ⟨_, h⟩
      cases h
    · rintro ⟨e₀, _, h⟩
      simp at h
  | error e₁ =>
    simp only [Prod.mk.injEq, Except.error.injEq]
    constructor
    · rintro ⟨h1, h2⟩
      exact ⟨e₁, h2.symm, h1, rfl⟩
    · rintro ⟨e₀, he, h1, h2⟩
      exact ⟨h1, by rw [he, h2]⟩

theorem liftE_ok_iff {α : Type} {r : Except Exc α} {s s' : Store} {a : α} :
    liftE r s = (s', .ok a) ↔ s' = s ∧ r = .ok a := by
  rw [liftE_apply]
  constructor
  · intro h
    injection h with h1 h2
    exact ⟨h1.symm, h2⟩
  · rintro ⟨rfl, rfl⟩
    rfl

theorem modStore_ok_iff {f : Store → Store} {s s' : Store} {u : Unit} :
    modStore f s = (s', .ok u) ↔ s' = f s := by
  rw [modStore_apply]
  constructor
  · intro h
    injection h with h1 h2
    exact h1.symm
  · rintro rfl
    rfl

theorem getStore_ok_iff {s s₁ s' : Store} :
    getStore s = (s₁, .ok s') ↔ s₁ = s ∧ s' = s := by
  constructor
  · intro h
    injection h with h1 h2
    exact ⟨h1.symm, (Except.ok.inj h2).symm⟩
  · rintro ⟨rfl, rfl⟩
    rfl

theorem pure_ok_iff {α : Type} {a b : α} {s s' : Store} :
    (Pure.pure a : M α) s = (s', .ok b) ↔ s' = s ∧ b = a := by
  rw [pure_apply]
  constructor
  · intro h
    injection h with h1 h2
    exact ⟨h1.symm, (Except.ok.inj h2).symm⟩
  · rintro ⟨rfl, rfl⟩
    rfl

theorem check_ok_iff {s s' : Store} {u : Unit} :
    check_if_initialised s = (s', .ok u) ↔ s' = s ∧ s.client_user ≠ [] := by
  rw [check_if_initialised_apply]
  by_cases h : s.client_user = []
  · simp [h]
  · simp [h, eq_comm]

/-- If a dict has no duplicate keys, its unique binding of a key is also
the last one. -/
theorem aget_reverse_of_nodup {l : Dict} (hn : NodupKey l) (k : String) :
    aget l.reverse k = aget l k := by
  induction l with
  | nil => rfl
  | cons p t ih =>
    have hpt : p.1 ∉ keysOf t := (List.nodup_cons.mp hn).1
    have hnt : NodupKey t := (List.nodup_cons.mp hn).2
    rw [List.reverse_cons, aget_append, ih hnt]
    by_cases hp : p.1 = k
    · subst hp
      rw [aget_eq_none_of_not_mem hpt]
      simp [aget]
    · cases ht : aget t k with
      | some v => simp [aget_cons, hp, ht]
      | none => simp [aget, hp, ht]

end Hiven

namespace Hiven

/-- All store fields other than `client_user` and `users` agree: the
footprint of the user-updating operations. -/
def FrameUC (s t : Store) : Prop :=
  t.token = s.token ∧ t.log_websocket = s.log_websocket ∧ t.houses = s.houses ∧
  t.rooms_private_single = s.rooms_private_single ∧
  t.rooms_private_group = s.rooms_private_group ∧ t.rooms_house = s.rooms_house ∧
  t.entities = s.entities ∧ t.relationships = s.relationships ∧
  t.house_memberships = s.house_memberships ∧ t.house_ids = s.house_ids ∧
  t.settings = s.settings ∧ t.read_state = s.read_state

/-- All store fields other than `rooms_house` agree: the footprint of the
room-updating operations. -/
def FrameRH (s t : Store) : Prop :=
  t.token = s.token ∧ t.log_websocket = s.log_websocket ∧
  t.client_user = s.client_user ∧ t.houses = s.houses ∧ t.users = s.users ∧
  t.rooms_private_single = s.rooms_private_single ∧
  t.rooms_private_group = s.rooms_private_group ∧
  t.entities = s.entities ∧ t.relationships = s.relationships ∧
  t.house_memberships = s.house_memberships ∧ t.house_ids = s.house_ids ∧
  t.settings = s.settings ∧ t.read_state = s.read_state

/-- All store fields other than `entities` agree: the footprint of the
entity-updating operations. -/
def FrameEnt (s t : Store) : Prop :=
  t.token = s.token ∧ t.log_websocket = s.log_websocket ∧
  t.client_user = s.client_user ∧ t.houses = s.houses ∧ t.users = s.users ∧
  t.rooms_private_single = s.rooms_private_single ∧
  t.rooms_private_group = s.rooms_private_group ∧ t.rooms_house = s.rooms_house ∧
  t.relationships = s.relationships ∧
  t.house_memberships = s.house_memberships ∧ t.house_ids = s.house_ids ∧
  t.settings = s.settings ∧ t.read_state = s.read_state

theorem frameUC_refl (s : Store) : FrameUC s s := by
  exact ⟨rfl, rfl, rfl, rfl, rfl, rfl, rfl, rfl, rfl, rfl, rfl, rfl⟩

theorem frameUC_trans {s t u : Store} (h1 : FrameUC s t) (h2 : FrameUC t u) :
    FrameUC s u := by
  obtain ⟨a1, a2, a3, a4, a5, a6, a7, a8, a9, a10, a11, a12⟩ := h1
  obtain ⟨b1, b2, b3, b4, b5, b6, b7, b8, b9, b10, b11, b12⟩ := h2
  exact ⟨b1.trans a1, b2.trans a2, b3.trans a3, b4.trans a4, b5.trans a5,
    b6.trans a6, b7.trans a7, b8.trans a8, b9.trans a9, b10.trans a10,
    b11.trans a11, b12.trans a12⟩

theorem frameRH_refl (s : Store) : FrameRH s s := by
  exact ⟨rfl, rfl, rfl, rfl, rfl, rfl, rfl, rfl, rfl, rfl, rfl, rfl, rfl⟩

theorem frameRH_trans {s t u : Store} (h1 : FrameRH s t) (h2 : FrameRH t u) :
    FrameRH s u := by
  obtain ⟨a1, a2, a3, a4, a5, a6, a7, a8, a9, a10, a11, a12, a13⟩ := h1
  obtain ⟨b1, b2, b3, b4, b5, b6, b7, b8, b9, b10, b11, b12, b13⟩ := h2
  exact ⟨b1.trans a1, b2.trans a2, b3.trans a3, b4.trans a4, b5.trans a5,
    b6.trans a6, b7.trans a7, b8.trans a8, b9.trans a9, b10.trans a10,
    b11.trans a11, b12.trans a12, b13.trans a13⟩

theorem frameEnt_refl (s : Store) : FrameEnt s s := by
  exact ⟨rfl, rfl, rfl, rfl, rfl, rfl, rfl, rfl, rfl, rfl, rfl, rfl, rfl⟩

theorem frameEnt_trans {s t u : Store} (h1 : FrameEnt s t) (h2 : FrameEnt t u) :
    FrameEnt s u := by
  obtain ⟨a1, a2, a3, a4, a5, a6, a7, a8, a9, a10, a11, a12, a13⟩ := h1
  obtain ⟨b1, b2, b3, b4, b5, b6, b7, b8, b9, b10, b11, b12, b13⟩ := h2
  exact ⟨b1.trans a1, b2.trans a2, b3.trans a3, b4.trans a4, b5.trans a5,
    b6.trans a6, b7.trans a7, b8.trans a8, b9.trans a9, b10.trans a10,
    b11.trans a11, b12.trans a12, b13.trans a13⟩

/-- `update_client_user` writes only the `client_user` record and the
`users` partition, whatever its outcome. -/
theorem update_client_user_frame (d : Dict) (s : Store) :
    FrameUC s (update_client_user d s).1 := by
  unfold update_client_user
  simp only [bind_apply, liftE_apply, modStore_apply, pure_apply]
  cases User.format_obj_data d with
  | error e => exact frameUC_refl s
  | ok cu =>
    cases pyIndex d "id" with
    | error e => exact ⟨rfl, rfl, rfl, rfl, rfl, rfl, rfl, rfl, rfl, rfl, rfl, rfl⟩
    | ok did => exact ⟨rfl, rfl, rfl, rfl, rfl, rfl, rfl, rfl, rfl, rfl, rfl, rfl⟩

/-- `add_or_update_user` writes only the `client_user` record and the
`users` partition, whatever its outcome. -/
theorem add_or_update_user_frame (d : Dict) (s : Store) :
    FrameUC s (add_or_update_user d s).1 := by
  unfold add_or_update_user
  simp only [bind_apply, liftE_apply, modStore_apply, pure_apply,
    tryWrap_apply, check_if_initialised_apply, getStore_apply]
  by_cases hcu : s.client_user = []
  · simp only [if_pos hcu]
    exact frameUC_refl s
  · simp only [if_neg hcu]
    cases pyIndex d "id" with
    | error e => exact frameUC_refl s
    | ok id_ =>
      cases User.format_obj_data d with
      | error e => exact frameUC_refl s
      | ok data =>
        by_cases hc : id_ = (aget s.client_user "id").getD .vnull
        · simp only [if_pos hc, bind_apply, modStore_apply, pure_apply]
          have hf := update_client_user_frame data s
          rcases hu : update_client_user data s with ⟨s₃, r₃⟩
          rw [hu] at hf
          cases r₃ with
          | error e => exact hf
          | ok cu =>
            exact frameUC_trans hf ⟨rfl, rfl, rfl, rfl, rfl, rfl, rfl, rfl, rfl, rfl, rfl, rfl⟩
        · simp only [if_neg hc, bind_apply, modStore_apply, pure_apply]
          exact ⟨rfl, rfl, rfl, rfl, rfl, rfl, rfl, rfl, rfl, rfl, rfl, rfl⟩

/-- `add_or_update_room` writes only the `rooms.house` partition. -/
theorem add_or_update_room_frame (d : Dict) (s : Store) :
    FrameRH s (add_or_update_room d s).1 := by
  unfold add_or_update_room
  simp only [bind_apply, liftE_apply, modStore_apply, pure_apply,
    tryWrap_apply, check_if_initialised_apply]
  by_cases hcu : s.client_user = []
  · simp only [if_pos hcu]
    exact frameRH_refl s
  · simp only [if_neg hcu]
    cases pyIndex d "id" with
    | error e => exact frameRH_refl s
    | ok id_ =>
      cases TextRoom.format_obj_data d with
      | error e => exact frameRH_refl s
      | ok data =>
        exact ⟨rfl, rfl, rfl, rfl, rfl, rfl, rfl, rfl, rfl, rfl, rfl, rfl, rfl⟩

/-- `add_or_update_entity` writes only the `entities` partition. -/
theorem add_or_update_entity_frame (d : Dict) (s : Store) :
    FrameEnt s (add_or_update_entity d s).1 := by
  unfold add_or_update_entity
  simp only [bind_apply, liftE_apply, modStore_apply, pure_apply,
    tryWrap_apply, check_if_initialised_apply]
  by_cases hcu : s.client_user = []
  · simp only [if_pos hcu]
    exact frameEnt_refl s
  · simp only [if_neg hcu]
    cases pyIndex d "id" with
    | error e => exact frameEnt_refl s
    | ok id_ =>
      cases Entity.format_obj_data d with
      | error e => exact frameEnt_refl s
      | ok data =>
        exact ⟨rfl, rfl, rfl, rfl, rfl, rfl, rfl, rfl, rfl, rfl, rfl, rfl, rfl⟩

/-- The rooms loop writes only the `rooms.house` partition. -/
theorem houseRoomsLoop_frame (id_ : PVal) (rs : List PVal) (s : Store) :
    FrameRH s ((houseRoomsLoop id_ rs) s).1 := by
  induction rs generalizing s with
  | nil => exact frameRH_refl s
  | cons r rest ih =>
    unfold houseRoomsLoop
    simp only [bind_apply, liftE_apply, pure_apply]
    cases asDictE r with
    | error e => exact frameRH_refl s
    | ok rd =>
      dsimp only
      cases TextRoom.format_obj_data (aset rd "house_id" id_) with
      | error e => exact frameRH_refl s
      | ok room =>
        dsimp only
        have hf := add_or_update_room_frame room s
        rcases hr : add_or_update_room room s with ⟨s₁, r₁⟩
        rw [hr] at hf
        cases r₁ with
        | error e => exact hf
        | ok _ =>
          dsimp only
          have hlf := ih s₁
          rcases hl : houseRoomsLoop id_ rest s₁ with ⟨s₂, r₂⟩
          rw [hl] at hlf
          cases r₂ with
          | error e => exact frameRH_trans hf hlf
          | ok tail => exact frameRH_trans hf hlf

/-- The members loop writes only `client_user` and the `users`
partition. -/
theorem houseMembersLoop_frame (id_ : PVal) (ms : List PVal) (s : Store) :
    FrameUC s ((houseMembersLoop id_ ms) s).1 := by
  induction ms generalizing s with
  | nil => exact frameUC_refl s
  | cons m rest ih =>
    unfold houseMembersLoop
    simp only [bind_apply, liftE_apply, pure_apply]
    cases asDictE m with
    | error e => exact frameUC_refl s
    | ok md =>
      dsimp only
      cases pyIndex (aset md "house_id" id_) "user" with
      | error e => exact frameUC_refl s
      | ok uv =>
        dsimp only
        cases asDictE uv with
        | error e => exact frameUC_refl s
        | ok ud =>
          dsimp only
          cases User.format_obj_data ud with
          | error e => exact frameUC_refl s
          | ok user =>
            dsimp only
            have hf := add_or_update_user_frame user s
            rcases hr : add_or_update_user user s with ⟨s₁, r₁⟩
            rw [hr] at hf
            cases r₁ with
            | error e => exact hf
            | ok _ =>
              dsimp only
              have hlf := ih s₁
              rcases hl : houseMembersLoop id_ rest s₁ with ⟨s₂, r₂⟩
              rw [hl] at hlf
              cases r₂ with
              | error e => exact frameUC_trans hf hlf
              | ok tail => exact frameUC_trans hf hlf

/-- The entities loop writes only the `entities` partition. -/
theorem houseEntitiesLoop_frame (id_ : PVal) (es : List PVal) (s : Store) :
    FrameEnt s ((houseEntitiesLoop id_ es) s).1 := by
  induction es generalizing s with
  | nil => exact frameEnt_refl s
  | cons ev rest ih =>
    unfold houseEntitiesLoop
    simp only [bind_apply, liftE_apply, pure_apply]
    cases asDictE ev with
    | error e => exact frameEnt_refl s
    | ok ed =>
      dsimp only
      cases Entity.format_obj_data (aset ed "house_id" id_) with
      | error e => exact frameEnt_refl s
      | ok ent =>
        dsimp only
        have hf := add_or_update_entity_frame ent s
        rcases hr : add_or_update_entity ent s with ⟨s₁, r₁⟩
        rw [hr] at hf
        cases r₁ with
        | error e => exact hf
        | ok _ =>
          dsimp only
          have hlf := ih s₁
          rcases hl : houseEntitiesLoop id_ rest s₁ with ⟨s₂, r₂⟩
          rw [hl] at hlf
          cases r₂ with
          | error e => exact frameEnt_trans hf hlf
          | ok tail => exact frameEnt_trans hf hlf

/-- Whatever happens after the rooms loop of a house upsert — success or a
raise at any later point — the `rooms.house` partition is never written
again. -/
theorem house_after_rooms_rooms_house (p : Dict) (id_ : PVal) (rooms2 : List PVal)
    (s : Store) :
    ((house_after_rooms p id_ rooms2) s).1.rooms_house = s.rooms_house := by
  unfold house_after_rooms
  simp only [bind_apply, liftE_apply, modStore_apply, pure_apply, getStore_apply]
  cases pyIndex p "members" with
  | error e => rfl
  | ok membersV =>
    dsimp only
    cases asListE membersV with
    | error e => rfl
    | ok members =>
      dsimp only
      have hmf := (houseMembersLoop_frame id_ members s).2.2.2.2.2.1
      rcases hm : houseMembersLoop id_ members s with ⟨s₁, r₁⟩
      rw [hm] at hmf
      cases r₁ with
      | error e => exact hmf
      | ok members2 =>
        dsimp only
        cases pyIndex p "entities" with
        | error e => exact hmf
        | ok entsV =>
          dsimp only
          cases asListE entsV with
          | error e => exact hmf
          | ok ents =>
            dsimp only
            have hef := (houseEntitiesLoop_frame id_ ents s₁).2.2.2.2.2.2.2.1
            rcases hee : houseEntitiesLoop id_ ents s₁ with ⟨s₂, r₂⟩
            rw [hee] at hef
            cases r₂ with
            | error e => exact hef.trans hmf
            | ok ents2 =>
              dsimp only
              cases House.format_obj_data (aset (aset (aset p "rooms" (.vlist rooms2))
                  "members" (.vlist members2)) "entities" (.vlist ents2)) with
              | error e => exact hef.trans hmf
              | ok data2 =>
                dsimp only
                cases pyIndex s₂.client_user "id" with
                | error e => exact hef.trans hmf
                | ok cid =>
                  dsimp only
                  cases asDictE ((aget data2 "members").getD .vnull) with
                  | error e => exact hef.trans hmf
                  | ok membersD =>
                    dsimp only
                    cases hcm : (match cid with
                      | .vstr c => pyIndex membersD c
                      | _ => .error (.keyError "client_member") : Except Exc PVal) with
                    | error e => exact hef.trans hmf
                    | ok cm => exact hef.trans hmf

end Hiven

namespace Hiven

/-- C9: a house upsert is not atomic on failure.  When the payload's rooms
have all been merged (the rooms loop succeeded, reaching store `s₁`) and
the remainder of the upsert — member or entity normalization, the house's
own normalization, or the `client_member` lookup — raises,
`add_or_update_house` reports the wrapped error, yet the resulting store
keeps the merged rooms: its `rooms.house` partition is exactly the one the
rooms loop produced, not the original one. -/
theorem house_upsert_not_atomic (s s₁ s₂ : Store) (p : Dict) (hid roomsV : PVal)
    (rooms rooms2 : List PVal) (e : Exc)
    (hcu : s.client_user ≠ [])
    (hidv : aget p "id" = some hid)
    (hrv : aget p "rooms" = some roomsV)
    (hrl : asListE roomsV = .ok rooms)
    (hloop : houseRoomsLoop hid rooms s = (s₁, .ok rooms2))
    (hrest : house_after_rooms p hid rooms2 s₁ = (s₂, .error e)) :
    add_or_update_house p s = (s₂, .error (.cacheUpdateFailed e)) ∧
    s₂.rooms_house = s₁.rooms_house := by
  constructor
  · unfold add_or_update_house
    simp only [bind_apply, check_if_initialised_apply, if_neg hcu, tryWrap_apply,
      liftE_apply, pyIndex, hidv, hrv, hrl]
    rw [hloop]
    dsimp only
    rw [hrest]
  · have h := house_after_rooms_rooms_house p hid rooms2 s₁
    rw [hrest] at h
    exact h

end Hiven

namespace Hiven

/-- A concrete initialised store for the non-atomicity witness. -/
def c9Store : Store := { default_store false with client_user := [("id", .vstr "1")] }

/-- A house payload whose single room is well-formed but whose single
entity fails `Entity.format_obj_data` (no `name`, `position`,
`resource_pointers`). -/
def c9Payload : Dict :=
  [("id", .vstr "H1"), ("name", .vstr "h"),
   ("rooms", .vlist [.vdict [("id", .vstr "R1"), ("name", .vstr "general")]]),
   ("members", .vlist []),
   ("entities", .vlist [.vdict [("id", .vstr "E1")]])]

/-- The store after the rooms loop of `c9Payload`: the room is merged. -/
def c9AfterRooms : Store :=
  { c9Store with rooms_house :=
      [(.vstr "R1",
        [("id", .vstr "R1"), ("name", .vstr "general"), ("house_id", .vstr "H1")])] }

theorem house_upsert_not_atomic_witness :
    add_or_update_house c9Payload c9Store =
      (c9AfterRooms, .error (.cacheUpdateFailed (.invalidPassedData "Entity"))) ∧
    c9AfterRooms.rooms_house ≠ c9Store.rooms_house :=
  ⟨(house_upsert_not_atomic c9Store c9AfterRooms c9AfterRooms c9Payload
      (.vstr "H1")
      (.vlist [.vdict [("id", .vstr "R1"), ("name", .vstr "general")]])
      [.vdict [("id", .vstr "R1"), ("name", .vstr "general")]]
      [.vdict [("id", .vstr "R1"), ("name", .vstr "general"), ("house_id", .vstr "H1")]]
      (.invalidPassedData "Entity")
      (by decide) (by decide) (by decide) (by decide) (by decide) (by decide)).1,
    by decide⟩

end Hiven

namespace Hiven

theorem pyIndex_ok_iff {d : Dict} {k : String} {v : PVal} :
    pyIndex d k = .ok v ↔ aget d k = some v := by
  unfold pyIndex
  cases h : aget d k with
  | none => simp
  | some w => simp

theorem asDictE_ok_iff {v : PVal} {fs : Dict} :
    asDictE v = .ok fs ↔ v = .vdict fs := by
  cases v <;> simp [asDictE]

theorem asListE_ok_iff {v : PVal} {xs : List PVal} :
    asListE v = .ok xs ↔ v = .vlist xs := by
  cases v <;> simp [asListE]

@[simp] theorem exc_pure_bind {α β : Type} (a : α) (f : α → Except Exc β) :
    (Pure.pure a : Except Exc α) >>= f = f a := rfl

@[simp] theorem exc_ok_bind {α β : Type} (a : α) (f : α → Except Exc β) :
    (Except.ok a : Except Exc α) >>= f = f a := rfl

@[simp] theorem exc_error_bind {α β : Type} (e : Exc) (f : α → Except Exc β) :
    (Except.error e : Except Exc α) >>= f = (.error e : Except Exc β) := rfl

/-- Any successful `House.format_obj_data` run decomposes into the id
flattening of `rooms` and `entities` and the members mapping built from
the payload's members list, the three written onto the input record. -/
theorem house_format_ok_inv {d d2 : Dict} (h : House.format_obj_data d = .ok d2) :
    ∃ rooms members entities roomIds entityIds mdict,
      (aget d "rooms").getD .vnull = .vlist rooms ∧
      (aget d "members").getD .vnull = .vlist members ∧
      (aget d "entities").getD .vnull = .vlist entities ∧
      House.idsOf rooms = .ok roomIds ∧
      House.idsOf entities = .ok entityIds ∧
      House.buildMembers [] members = .ok mdict ∧
      d2 = aset (aset (aset d "rooms" (.vlist roomIds))
        "entities" (.vlist entityIds)) "members" (.vdict mdict) := by
  unfold House.format_obj_data at h
  by_cases hc : (isStrV ((aget d "id").getD .vnull) && truthy (aget d "name")) = true
  · rw [if_neg (by simp [hc])] at h
    simp only [exc_pure_bind] at h
    cases hr : asListE ((aget d "rooms").getD .vnull) with
    | error e => rw [hr] at h; simp only [exc_error_bind] at h; cases h
    | ok rooms =>
      rw [hr] at h
      simp only [exc_ok_bind] at h
      cases hm : asListE ((aget d "members").getD .vnull) with
      | error e => rw [hm] at h; simp only [exc_error_bind] at h; cases h
      | ok members =>
        rw [hm] at h
        simp only [exc_ok_bind] at h
        cases he : asListE ((aget d "entities").getD .vnull) with
        | error e => rw [he] at h; simp only [exc_error_bind] at h; cases h
        | ok entities =>
          rw [he] at h
          simp only [exc_ok_bind] at h
          cases hri : House.idsOf rooms with
          | error e => rw [hri] at h; simp only [exc_error_bind] at h; cases h
          | ok roomIds =>
            rw [hri] at h
            simp only [exc_ok_bind] at h
            cases hei : House.idsOf entities with
            | error e => rw [hei] at h; simp only [exc_error_bind] at h; cases h
            | ok entityIds =>
              rw [hei] at h
              simp only [exc_ok_bind] at h
              cases hbm : House.buildMembers [] members with
              | error e => rw [hbm] at h; simp only [exc_error_bind] at h; cases h
              | ok mdict =>
                rw [hbm] at h
                simp only [exc_ok_bind] at h
                refine ⟨rooms, members, entities, roomIds, entityIds, mdict,
                  asListE_ok_iff.mp hr, asListE_ok_iff.mp hm, asListE_ok_iff.mp he,
                  hri, hei, hbm, ?_⟩
                exact (Except.ok.inj h).symm
  · rw [if_pos (by simp [hc])] at h
    simp only [exc_error_bind] at h
    cases h

end Hiven

namespace Hiven

/-- Merging a record that binds `k` into a partition leaves a stored
record whose `k` binding is the merged record's. -/
theorem partMerge_aget_stored {P : Part} {id_ : PVal} {r : Dict} {k : String}
    {v : PVal} (hn : NodupKey r) (hv : aget r k = some v) :
    ∃ stored, aget (partMerge P id_ r) id_ = some stored ∧
      aget stored k = some v := by
  unfold partMerge
  cases hold : aget P id_ with
  | none => exact ⟨r, by rw [aget_aset_self], hv⟩
  | some old =>
    refine ⟨aupdate old r, by rw [aget_aset_self], ?_⟩
    apply aget_aupdate_of_last
    rw [aget_reverse_of_nodup hn, hv]

/-- C6: on every successful house upsert, the stored house record's
`client_member` field is recomputed as the normalized members mapping of
that payload (built from the payload's members list by the upsert itself)
keyed by the authenticated identity's id — and it is this value both in
the returned record and in the record stored in the houses partition,
whatever the pre-state.  Upserting the same house twice with different
member lists therefore leaves `client_member` equal to the authenticated
identity's member record of the *latest* upsert: the statement applied to
the second upsert's pre-state (the store left by the first). -/
theorem house_client_member_recompute (s s' : Store) (p r : Dict)
    (hnp : NodupKey p)
    (h : add_or_update_house p s = (s', .ok r)) :
    ∃ hid c members members2 mdict cm,
      aget p "id" = some hid ∧
      aget p "members" = some (.vlist members) ∧
      (∃ t t', houseMembersLoop hid members t = (t', .ok members2)) ∧
      House.buildMembers [] members2 = .ok mdict ∧
      aget s'.client_user "id" = some (.vstr c) ∧
      aget r "members" = some (.vdict mdict) ∧
      aget mdict c = some cm ∧
      aget r "client_member" = some cm ∧
      ∃ stored, aget s'.houses hid = some stored ∧
        aget stored "client_member" = some cm := by
  unfold add_or_update_house at h
  rw [bind_ok_iff] at h
  obtain ⟨s₀, u, hch, h⟩ := h
  rw [check_ok_iff] at hch
  obtain ⟨rfl, hcu⟩ := hch
  rw [tryWrap_ok_iff] at h
  rw [bind_ok_iff] at h
  obtain ⟨t₁, id_, hid, h⟩ := h
  rw [liftE_ok_iff] at hid
  obtain ⟨rfl, hid⟩ := hid
  rw [bind_ok_iff] at h
  obtain ⟨t₂, roomsV, hrv, h⟩ := h
  rw [liftE_ok_iff] at hrv
  obtain ⟨rfl, hrv⟩ := hrv
  rw [bind_ok_iff] at h
  obtain ⟨t₃, rooms, hrl, h⟩ := h
  rw [liftE_ok_iff] at hrl
  obtain ⟨rfl, hrl⟩ := hrl
  rw [bind_ok_iff] at h
  obtain ⟨t₄, rooms2, hloop, h⟩ := h
  unfold house_after_rooms at h
  rw [bind_ok_iff] at h
  obtain ⟨t₅, membersV, hmv, h⟩ := h
  rw [liftE_ok_iff] at hmv
  obtain ⟨rfl, hmv⟩ := hmv
  rw [bind_ok_iff] at h
  obtain ⟨t₆, members, hmlv, h⟩ := h
  rw [liftE_ok_iff] at hmlv
  obtain ⟨rfl, hmlv⟩ := hmlv
  rw [bind_ok_iff] at h
  obtain ⟨t₇, members2, hml, h⟩ := h
  rw [bind_ok_iff] at h
  obtain ⟨t₈, entsV, hev, h⟩ := h
  rw [liftE_ok_iff] at hev
  obtain ⟨rfl, hev⟩ := hev
  rw [bind_ok_iff] at h
  obtain ⟨t₉, ents, helv, h⟩ := h
  rw [liftE_ok_iff] at helv
  obtain ⟨rfl, helv⟩ := helv
  rw [bind_ok_iff] at h
  obtain ⟨t₁₀, ents2, hel, h⟩ := h
  rw [bind_ok_iff] at h
  obtain ⟨t₁₁, data2, hfmt, h⟩ := h
  rw [liftE_ok_iff] at hfmt
  obtain ⟨rfl, hfmt⟩ := hfmt
  rw [bind_ok_iff] at h
  obtain ⟨t₁₂, sv, hgs, h⟩ := h
  rw [getStore_ok_iff] at hgs
  obtain ⟨rfl, rfl⟩ := hgs
  rw [bind_ok_iff] at h
  obtain ⟨t₁₃, cid, hcid, h⟩ := h
  rw [liftE_ok_iff] at hcid
  obtain ⟨rfl, hcid⟩ := hcid
  rw [bind_ok_iff] at h
  obtain ⟨t₁₄, membersD, hmd, h⟩ := h
  rw [liftE_ok_iff] at hmd
  obtain ⟨rfl, hmd⟩ := hmd
  rw [bind_ok_iff] at h
  obtain ⟨t₁₅, cm, hcm, h⟩ := h
  rw [liftE_ok_iff] at hcm
  obtain ⟨rfl, hcm⟩ := hcm
  rw [bind_ok_iff] at h
  obtain ⟨t₁₆, u2, hmod, h⟩ := h
  rw [modStore_ok_iff] at hmod
  rw [pure_ok_iff] at h
  obtain ⟨rfl, hr⟩ := h
  -- decompose the normalized house record
  obtain ⟨frooms, fmembers, fentities, roomIds, entityIds, mdict,
    hfr, hfm, hfe, hfri, hfei, hfbm, hd2⟩ := house_format_ok_inv hfmt
  -- the members list the normalizer consumed is the loop's output list
  have hdm : aget (aset (aset (aset p "rooms" (PVal.vlist rooms2))
      "members" (PVal.vlist members2)) "entities" (PVal.vlist ents2)) "members"
      = some (PVal.vlist members2) := by
    rw [aget_aset_ne _ _ _ _ (by decide), aget_aset_self]
  rw [hdm] at hfm
  simp only [Option.getD_some] at hfm
  have hfm2 : members2 = fmembers := PVal.vlist.inj hfm
  subst hfm2
  -- the record's members mapping
  have hd2m : aget data2 "members" = some (.vdict mdict) := by
    rw [hd2, aget_aset_self]
  -- nodup-key shape of the stored record
  have hnr : NodupKey (aset data2 "client_member" cm) := by
    apply nodupKey_aset
    rw [hd2]
    apply nodupKey_aset
    apply nodupKey_aset
    apply nodupKey_aset
    apply nodupKey_aset
    apply nodupKey_aset
    apply nodupKey_aset
    exact hnp
  -- the members mapping reached the client_member lookup intact
  rw [hd2m] at hmd
  simp only [Option.getD_some, asDictE, Except.ok.injEq] at hmd
  subst hmd
  -- the client id is a string and a key of the mapping
  cases cid with
  | vstr c =>
    have hmc : aget mdict c = some cm := pyIndex_ok_iff.mp hcm
    refine ⟨id_, c, members, members2, mdict, cm,
      pyIndex_ok_iff.mp hid, ?_, ⟨_, _, hml⟩, hfbm, ?_, ?_, hmc, ?_, ?_⟩
    · rw [pyIndex_ok_iff] at hmv
      rw [asListE_ok_iff.mp hmlv] at hmv
      exact hmv
    · rw [hmod]
      exact pyIndex_ok_iff.mp hcid
    · rw [hr, aget_aset_ne _ _ _ _ (by decide), hd2m]
    · rw [hr]
      exact aget_aset_self data2 "client_member" cm
    · rw [hmod]
      exact partMerge_aget_stored hnr (aget_aset_self data2 "client_member" cm)
  | vnull => exact Except.noConfusion hcm
  | vbool b => exact Except.noConfusion hcm
  | vint n => exact Except.noConfusion hcm
  | vlist xs => exact Except.noConfusion hcm
  | vdict fs => exact Except.noConfusion hcm

end Hiven

namespace Hiven

/-- The §8 scenario store: `client_user = {id: "1"}` upserted. -/
def c6Store : Store :=
  { default_store false with client_user := [("id", .vstr "1"), ("name", .vstr "me")] }

/-- The §8 scenario house payload: one room, one member (the client), no
entities. -/
def c6Payload : Dict :=
  [("id", .vstr "H1"), ("name", .vstr "house"),
   ("rooms", .vlist [.vdict [("id", .vstr "R1"), ("name", .vstr "general")]]),
   ("members", .vlist [.vdict [("user", .vdict [("id", .vstr "1"), ("name", .vstr "me2")])]]),
   ("entities", .vlist [])]

/-- The record the scenario's house upsert stores and returns. -/
def c6Expected : Dict :=
  [("id", .vstr "H1"), ("name", .vstr "house"),
   ("rooms", .vlist [.vstr "R1"]),
   ("members", .vdict [("1", .vdict [("user", .vdict [("id", .vstr "1"), ("name", .vstr "me2")]),
      ("house_id", .vstr "H1")])]),
   ("entities", .vlist []),
   ("client_member", .vdict [("user", .vdict [("id", .vstr "1"), ("name", .vstr "me2")]),
      ("house_id", .vstr "H1")])]

theorem house_client_member_recompute_witness :
    NodupKey c6Payload ∧
    (∃ hid c members members2 mdict cm,
      aget c6Payload "id" = some hid ∧
      aget c6Payload "members" = some (.vlist members) ∧
      (∃ t t', houseMembersLoop hid members t = (t', .ok members2)) ∧
      House.buildMembers [] members2 = .ok mdict ∧
      aget (add_or_update_house c6Payload c6Store).1.client_user "id" = some (.vstr c) ∧
      aget c6Expected "members" = some (.vdict mdict) ∧
      aget mdict c = some cm ∧
      aget c6Expected "client_member" = some cm ∧
      ∃ stored, aget (add_or_update_house c6Payload c6Store).1.houses hid = some stored ∧
        aget stored "client_member" = some cm) :=
  ⟨by decide,
   house_client_member_recompute c6Store (add_or_update_house c6Payload c6Store).1
     c6Payload c6Expected (by decide) (by decide)⟩

end Hiven

namespace Hiven

/-!
## Idempotence machinery

Re-running an upsert replays the same sequence of dict writes.  The
lemmas below show that an association list (a partition, or a stored
record) that has absorbed a write sequence once is left unchanged by the
same sequence again.
-/

section MoreAssoc

variable {κ τ : Type} [DecidableEq κ]

theorem mem_of_aget_eq_some {l : List (κ × τ)} {k : κ} {v : τ}
    (h : aget l k = some v) : (k, v) ∈ l := by
  induction l with
  | nil => cases h
  | cons p t ih =>
    rw [aget_cons] at h
    by_cases hp : p.1 = k
    · rw [if_pos hp] at h
      cases h
      have hpe : (k, p.2) = p := by rw [← hp]
      exact hpe ▸ List.mem_cons_self p t
    · rw [if_neg hp] at h
      exact List.mem_cons_of_mem p (ih h)

theorem aget_of_mem_nodup {l : List (κ × τ)} {k : κ} {v : τ}
    (hn : NodupKey l) (h : (k, v) ∈ l) : aget l k = some v := by
  induction l with
  | nil => cases h
  | cons p t ih =>
    rcases List.mem_cons.mp h with h | h
    · rw [← h, aget_cons, if_pos rfl]
    · have hpk : p.1 ≠ k := by
        intro hc
        exact (List.nodup_cons.mp hn).1
          (hc ▸ List.mem_map_of_mem Prod.fst h)
      rw [aget_cons, if_neg hpk]
      exact ih (List.nodup_cons.mp hn).2 h

theorem aupdate_noop {d e : List (κ × τ)}
    (h : ∀ p ∈ e, aget d p.1 = some p.2) : aupdate d e = d := by
  induction e with
  | nil => rfl
  | cons p t ih =>
    rw [aupdate_cons, aset_absorb (h p (List.mem_cons_self p t))]
    exact ih (fun q hq => h q (List.mem_cons_of_mem p hq))

theorem aupdate_self {d : List (κ × τ)} (hn : NodupKey d) : aupdate d d = d :=
  aupdate_noop (fun p hp => aget_of_mem_nodup hn hp)

theorem keysOf_aremove_sublist (l : List (κ × τ)) (k : κ) :
    (keysOf (aremove l k)).Sublist (keysOf l) := by
  induction l with
  | nil => exact List.Sublist.refl _
  | cons p t ih =>
    by_cases hp : p.1 = k
    · simp only [aremove, if_pos hp]
      exact List.sublist_cons_self _ _
    · simp only [aremove, if_neg hp, keysOf_cons]
      exact List.Sublist.cons₂ _ ih

theorem nodupKey_aremove {l : List (κ × τ)} (k : κ) (hn : NodupKey l) :
    NodupKey (aremove l k) :=
  List.Nodup.sublist (keysOf_aremove_sublist l k) hn

/-- `aupdateList d es`: apply `d.update(e)` for each `e` in order. -/
def aupdateList (d : List (κ × τ)) (es : List (List (κ × τ))) : List (κ × τ) :=
  es.foldl aupdate d

@[simp] theorem aupdateList_nil (d : List (κ × τ)) : aupdateList d [] = d := rfl

theorem aupdateList_cons (d : List (κ × τ)) (e : List (κ × τ))
    (es : List (List (κ × τ))) :
    aupdateList d (e :: es) = aupdateList (aupdate d e) es := rfl

theorem aupdateList_eq_join (d : List (κ × τ)) (es : List (List (κ × τ))) :
    aupdateList d es = aupdate d es.flatten := by
  induction es generalizing d with
  | nil => rfl
  | cons e t ih =>
    rw [aupdateList_cons, ih, List.flatten_cons, aupdate_append]

/-- A dict that has absorbed a sequence of updates once is unchanged by
replaying the same sequence. -/
theorem aupdateList_absorb {d : List (κ × τ)} (es : List (List (κ × τ)))
    (hn : NodupKey d) :
    aupdateList (aupdateList d es) es = aupdateList d es := by
  rw [aupdateList_eq_join, aupdateList_eq_join, aupdate_aupdate_self _ hn]

end MoreAssoc

/-- Well-formed partition: distinct ids and each stored record a real
Python dict (distinct keys). -/
def PartWF (P : Part) : Prop := NodupKey P ∧ ∀ kv ∈ P, NodupKey kv.2

theorem mem_aset {κ τ : Type} [DecidableEq κ] {l : List (κ × τ)} {k : κ}
    {v : τ} {q : κ × τ} (h : q ∈ aset l k v) : q = (k, v) ∨ q ∈ l := by
  induction l with
  | nil =>
    simp only [aset, List.mem_singleton] at h
    exact Or.inl h
  | cons p t ih =>
    by_cases hp : p.1 = k
    · simp only [aset, if_pos hp, List.mem_cons] at h
      rcases h with h | h
      · exact Or.inl h
      · exact Or.inr (List.mem_cons_of_mem p h)
    · simp only [aset, if_neg hp, List.mem_cons] at h
      rcases h with h | h
      · exact Or.inr (h ▸ List.mem_cons_self p t)
      · rcases ih h with h' | h'
        · exact Or.inl h'
        · exact Or.inr (List.mem_cons_of_mem p h')

theorem partWF_partMerge {P : Part} (id_ : PVal) {data : Dict}
    (hP : PartWF P) (hd : NodupKey data) : PartWF (partMerge P id_ data) := by
  obtain ⟨hPn, hPr⟩ := hP
  unfold partMerge
  cases hold : aget P id_ with
  | none =>
    refine ⟨nodupKey_aset id_ data hPn, ?_⟩
    intro kv hkv
    rcases mem_aset hkv with h | h
    · rw [h]
      exact hd
    · exact hPr kv h
  | some old =>
    refine ⟨nodupKey_aset id_ (aupdate old data) hPn, ?_⟩
    intro kv hkv
    rcases mem_aset hkv with h | h
    · rw [h]
      exact nodupKey_aupdate data (hPr (id_, old) (mem_of_aget_eq_some hold))
    · exact hPr kv h

end Hiven

namespace Hiven

/-- A sequence of partition merges, applied in order. -/
def partMergeList (P : Part) (ws : List (PVal × Dict)) : Part :=
  ws.foldl (fun Q w => partMerge Q w.1 w.2) P

@[simp] theorem partMergeList_nil (P : Part) : partMergeList P [] = P := rfl

theorem partMergeList_cons (P : Part) (w : PVal × Dict) (ws : List (PVal × Dict)) :
    partMergeList P (w :: ws) = partMergeList (partMerge P w.1 w.2) ws := rfl

/-- The per-key value evolution of a merge sequence: the first write sets,
later writes merge. -/
def mergeChain : Option Dict → List Dict → Option Dict
  | o, [] => o
  | none, d :: ds => mergeChain (some d) ds
  | some w, d :: ds => mergeChain (some (aupdate w d)) ds

/-- The values a write sequence writes at key `k`, in order. -/
def valuesAt (k : PVal) (ws : List (PVal × Dict)) : List Dict :=
  (ws.filter (fun w => decide (w.1 = k))).map Prod.snd

@[simp] theorem valuesAt_nil (k : PVal) : valuesAt k [] = [] := rfl

theorem valuesAt_cons (k : PVal) (w : PVal × Dict) (ws : List (PVal × Dict)) :
    valuesAt k (w :: ws) =
      if w.1 = k then w.2 :: valuesAt k ws else valuesAt k ws := by
  by_cases h : w.1 = k
  · simp [valuesAt, h]
  · simp [valuesAt, h]

theorem aget_partMerge_self (Q : Part) (id_ : PVal) (d : Dict) :
    aget (partMerge Q id_ d) id_ =
      match aget Q id_ with
      | none => some d
      | some old => some (aupdate old d) := by
  unfold partMerge
  cases h : aget Q id_ with
  | none => rw [aget_aset_self]
  | some old => rw [aget_aset_self]

theorem aget_partMerge_ne (Q : Part) (id_ k : PVal) (d : Dict) (h : k ≠ id_) :
    aget (partMerge Q id_ d) k = aget Q k := by
  unfold partMerge
  cases hq : aget Q id_ with
  | none => rw [aget_aset_ne _ _ _ _ h]
  | some old => rw [aget_aset_ne _ _ _ _ h]

/-- Per-key characterization of a merge sequence. -/
theorem aget_partMergeList (Q : Part) (ws : List (PVal × Dict)) (k : PVal) :
    aget (partMergeList Q ws) k = mergeChain (aget Q k) (valuesAt k ws) := by
  induction ws generalizing Q with
  | nil =>
    show aget Q k = mergeChain (aget Q k) (valuesAt k [])
    cases aget Q k <;> rfl
  | cons w t ih =>
    rw [partMergeList_cons, ih, valuesAt_cons]
    by_cases hk : w.1 = k
    · rw [if_pos hk, ← hk, aget_partMerge_self]
      cases hq : aget Q w.1 with
      | none => rfl
      | some old => rfl
    · rw [if_neg hk, aget_partMerge_ne _ _ _ _ (fun hc => hk hc.symm)]

theorem mem_keysOf_partMerge (Q : Part) (id_ k : PVal) (d : Dict) :
    k ∈ keysOf (partMerge Q id_ d) ↔ k ∈ keysOf Q ∨ k = id_ := by
  unfold partMerge
  cases hq : aget Q id_ with
  | none => exact mem_keysOf_aset Q id_ k d
  | some old => exact mem_keysOf_aset Q id_ k (aupdate old d)

theorem keysOf_partMerge_of_mem {Q : Part} {id_ : PVal} (d : Dict)
    (h : id_ ∈ keysOf Q) : keysOf (partMerge Q id_ d) = keysOf Q := by
  unfold partMerge
  cases hq : aget Q id_ with
  | none => exact keysOf_aset_of_mem d h
  | some old => exact keysOf_aset_of_mem (aupdate old d) h

theorem keysOf_partMergeList_of_subset {Q : Part} {ws : List (PVal × Dict)}
    (h : ∀ w ∈ ws, w.1 ∈ keysOf Q) : keysOf (partMergeList Q ws) = keysOf Q := by
  induction ws generalizing Q with
  | nil => rfl
  | cons w t ih =>
    rw [partMergeList_cons]
    have hm : w.1 ∈ keysOf Q := h w (List.mem_cons_self w t)
    have hk : keysOf (partMerge Q w.1 w.2) = keysOf Q := keysOf_partMerge_of_mem w.2 hm
    rw [ih, hk]
    intro q hq
    rw [hk]
    exact h q (List.mem_cons_of_mem w hq)

theorem mem_keysOf_partMergeList (Q : Part) (ws : List (PVal × Dict)) (k : PVal) :
    k ∈ keysOf (partMergeList Q ws) ↔ k ∈ keysOf Q ∨ k ∈ ws.map Prod.fst := by
  induction ws generalizing Q with
  | nil => simp
  | cons w t ih =>
    rw [partMergeList_cons, ih, mem_keysOf_partMerge]
    simp only [List.map_cons, List.mem_cons]
    tauto

theorem nodupKey_partMerge {Q : Part} (id_ : PVal) (d : Dict)
    (h : NodupKey Q) : NodupKey (partMerge Q id_ d) := by
  unfold partMerge
  cases hq : aget Q id_ with
  | none => exact nodupKey_aset id_ d h
  | some old => exact nodupKey_aset id_ (aupdate old d) h

theorem nodupKey_partMergeList {Q : Part} (ws : List (PVal × Dict))
    (h : NodupKey Q) : NodupKey (partMergeList Q ws) := by
  induction ws generalizing Q with
  | nil => exact h
  | cons w t ih => exact ih (nodupKey_partMerge w.1 w.2 h)

theorem mergeChain_some (w : Dict) (ds : List Dict) :
    mergeChain (some w) ds = some (aupdate w ds.flatten) := by
  induction ds generalizing w with
  | nil => rfl
  | cons d t ih =>
    show mergeChain (some (aupdate w d)) t = _
    rw [ih, List.flatten_cons, aupdate_append]

/-- A per-key value that has absorbed a merge chain once is unchanged by
replaying the chain. -/
theorem mergeChain_absorb {o : Option Dict} {ds : List Dict}
    (ho : ∀ w, o = some w → NodupKey w) (hd : ∀ d ∈ ds, NodupKey d) :
    mergeChain (mergeChain o ds) ds = mergeChain o ds := by
  cases ds with
  | nil => cases o <;> rfl
  | cons d t =>
    cases o with
    | some w =>
      have hw : NodupKey w := ho w rfl
      have h1 : mergeChain (some w) (d :: t) = some (aupdate w (d :: t).flatten) :=
        mergeChain_some w (d :: t)
      rw [h1, mergeChain_some, aupdate_aupdate_self _ hw]
    | none =>
      have hdn : NodupKey d := hd d (List.mem_cons_self d t)
      have h1 : mergeChain (none : Option Dict) (d :: t) = some (aupdate d t.flatten) := by
        show mergeChain (some d) t = _
        rw [mergeChain_some]
      have h2 : aupdate d t.flatten = aupdate d (d :: t).flatten := by
        rw [List.flatten_cons, aupdate_append, aupdate_self hdn]
      rw [h1, mergeChain_some]
      congr 1
      calc aupdate (aupdate d t.flatten) (d :: t).flatten
          = aupdate (aupdate d (d :: t).flatten) (d :: t).flatten := by rw [← h2]
        _ = aupdate d (d :: t).flatten := aupdate_aupdate_self _ hdn
        _ = aupdate d t.flatten := h2.symm

/-- A partition that has absorbed a merge sequence once is unchanged by
replaying the same sequence. -/
theorem partMergeList_absorb {P : Part} {ws : List (PVal × Dict)}
    (hP : PartWF P) (hws : ∀ w ∈ ws, NodupKey w.2) :
    partMergeList (partMergeList P ws) ws = partMergeList P ws := by
  apply eq_of_keysOf_eq_of_aget_eq
  · apply keysOf_partMergeList_of_subset
    intro w hw
    rw [mem_keysOf_partMergeList]
    exact Or.inr (List.mem_map_of_mem Prod.fst hw)
  · exact nodupKey_partMergeList ws (nodupKey_partMergeList ws hP.1)
  · intro k
    have hA := aget_partMergeList P ws k
    have hB := aget_partMergeList (partMergeList P ws) ws k
    rw [hB, hA]
    apply mergeChain_absorb
    · intro w hw
      exact hP.2 (k, w) (mem_of_aget_eq_some hw)
    · intro d hdm
      obtain ⟨w, hw, hwd⟩ := List.mem_map.mp hdm
      exact hwd ▸ hws w (List.mem_of_mem_filter hw)

end Hiven

namespace Hiven

mutual

/-- Boolean check that a value is a real Python data tree: every nested
dict has pairwise-distinct keys. -/
def pvalWFb : PVal → Bool
  | .vnull => true
  | .vbool _ => true
  | .vint _ => true
  | .vstr _ => true
  | .vlist xs => listWFb xs
  | .vdict fs => decide (NodupKey fs) && fieldsWFb fs

/-- `pvalWFb` on every element. -/
def listWFb : List PVal → Bool
  | [] => true
  | x :: xs => pvalWFb x && listWFb xs

/-- `pvalWFb` on every field value. -/
def fieldsWFb : List (String × PVal) → Bool
  | [] => true
  | p :: t => pvalWFb p.2 && fieldsWFb t

end

/-- A payload dict is well-formed when, viewed as a value, it is. -/
def DictWFb (d : Dict) : Bool := pvalWFb (.vdict d)

theorem dictWFb_nodup {d : Dict} (h : DictWFb d = true) : NodupKey d := by
  unfold DictWFb pvalWFb at h
  exact of_decide_eq_true (Bool.and_elim_left h)

theorem fieldsWFb_mem {fs : List (String × PVal)} {p : String × PVal}
    (h : fieldsWFb fs = true) (hm : p ∈ fs) : pvalWFb p.2 = true := by
  induction fs with
  | nil => cases hm
  | cons q t ih =>
    unfold fieldsWFb at h
    rcases List.mem_cons.mp hm with hm | hm
    · rw [hm] at *
      exact Bool.and_elim_left h
    · exact ih (Bool.and_elim_right h) hm

theorem dictWFb_aget {d : Dict} {k : String} {v : PVal}
    (h : DictWFb d = true) (hv : aget d k = some v) : pvalWFb v = true := by
  unfold DictWFb pvalWFb at h
  exact fieldsWFb_mem (Bool.and_elim_right h) (mem_of_aget_eq_some hv)

theorem listWFb_mem {xs : List PVal} {x : PVal}
    (h : listWFb xs = true) (hm : x ∈ xs) : pvalWFb x = true := by
  induction xs with
  | nil => cases hm
  | cons y t ih =>
    unfold listWFb at h
    rcases List.mem_cons.mp hm with hm | hm
    · rw [hm] at *
      exact Bool.and_elim_left h
    · exact ih (Bool.and_elim_right h) hm

theorem pvalWFb_vdict {fs : List (String × PVal)}
    (h : pvalWFb (.vdict fs) = true) : DictWFb fs = true := h

theorem pvalWFb_vlist {xs : List PVal}
    (h : pvalWFb (.vlist xs) = true) : listWFb xs = true := h

theorem dictWFb_aset_prim {d : Dict} (k : String) {v : PVal}
    (hd : DictWFb d = true) (hv : pvalWFb v = true) :
    DictWFb (aset d k v) = true := by
  unfold DictWFb pvalWFb at hd ⊢
  have hn : NodupKey (aset d k v) :=
    nodupKey_aset k v (of_decide_eq_true (Bool.and_elim_left hd))
  rw [decide_eq_true hn, Bool.true_and]
  have hf : fieldsWFb d = true := Bool.and_elim_right hd
  clear hd hn
  induction d with
  | nil => unfold aset fieldsWFb; rw [hv]; rfl
  | cons p t ih =>
    unfold fieldsWFb at hf
    by_cases hp : p.1 = k
    · unfold aset
      rw [if_pos hp]
      unfold fieldsWFb
      rw [hv, Bool.and_elim_right hf]
      rfl
    · unfold aset
      rw [if_neg hp]
      unfold fieldsWFb
      rw [Bool.and_elim_left hf, ih (Bool.and_elim_right hf)]
      rfl

theorem aset_ne_nil {κ τ : Type} [DecidableEq κ] (l : List (κ × τ)) (k : κ) (v : τ) :
    aset l k v ≠ [] := by
  cases l with
  | nil => simp [aset]
  | cons p t =>
    unfold aset
    by_cases hp : p.1 = k
    · rw [if_pos hp]
      simp
    · rw [if_neg hp]
      simp

theorem aupdate_ne_nil {κ τ : Type} [DecidableEq κ] {l : List (κ × τ)}
    (hl : l ≠ []) (e : List (κ × τ)) : aupdate l e ≠ [] := by
  induction e generalizing l with
  | nil => exact hl
  | cons p t ih => exact ih (aset_ne_nil l p.1 p.2)

/-- A dict with a unique binding of `k` keeps that binding through an
update whose source also binds `k` to the same value. -/
theorem aget_aupdate_of_nodup_src {d e : List (String × PVal)} {k : String}
    {v : PVal} (hne : NodupKey e) (hv : aget e k = some v) :
    aget (aupdate d e) k = some v := by
  apply aget_aupdate_of_last
  rw [aget_reverse_of_nodup hne]
  exact hv

end Hiven

namespace Hiven

theorem partMerge_absorb {P : Part} {id_ : PVal} {d : Dict}
    (hP : PartWF P) (hd : NodupKey d) :
    partMerge (partMerge P id_ d) id_ d = partMerge P id_ d := by
  have h := @partMergeList_absorb P [(id_, d)] hP
    (by intro w hw; rw [List.mem_singleton] at hw; rw [hw]; exact hd)
  exact h

theorem user_format_ok_inv {d d' : Dict} (h : User.format_obj_data d = .ok d') :
    d' = d ∧ isStrV ((aget d "id").getD .vnull) = true := by
  unfold User.format_obj_data at h
  by_cases hc : isStrV ((aget d "id").getD .vnull) = true
  · rw [if_pos hc] at h
    exact ⟨(Except.ok.inj h).symm, hc⟩
  · rw [if_neg hc] at h
    cases h

theorem User.format_ok_of {d : Dict}
    (h : isStrV ((aget d "id").getD .vnull) = true) :
    User.format_obj_data d = .ok d := by
  unfold User.format_obj_data
  rw [if_pos h]

theorem room_format_ok_inv {d d' : Dict}
    (h : TextRoom.format_obj_data d = .ok d') :
    d' = d ∧ (isStrV ((aget d "id").getD .vnull) && truthy (aget d "house_id")) = true := by
  unfold TextRoom.format_obj_data at h
  by_cases hc : (isStrV ((aget d "id").getD .vnull) && truthy (aget d "house_id")) = true
  · rw [if_pos hc] at h
    exact ⟨(Except.ok.inj h).symm, hc⟩
  · rw [if_neg hc] at h
    cases h

theorem private_room_format_ok_inv {d d' : Dict}
    (h : PrivateRoom.format_obj_data d = .ok d') :
    d' = d ∧ isStrV ((aget d "id").getD .vnull) = true := by
  unfold PrivateRoom.format_obj_data at h
  by_cases hc : isStrV ((aget d "id").getD .vnull) = true
  · rw [if_pos hc] at h
    exact ⟨(Except.ok.inj h).symm, hc⟩
  · rw [if_neg hc] at h
    cases h

theorem private_group_format_ok_inv {d d' : Dict}
    (h : PrivateGroupRoom.format_obj_data d = .ok d') :
    d' = d ∧ isStrV ((aget d "id").getD .vnull) = true := by
  unfold PrivateGroupRoom.format_obj_data at h
  by_cases hc : isStrV ((aget d "id").getD .vnull) = true
  · rw [if_pos hc] at h
    exact ⟨(Except.ok.inj h).symm, hc⟩
  · rw [if_neg hc] at h
    cases h

theorem relationship_format_ok_inv {d d' : Dict}
    (h : Relationship.format_obj_data d = .ok d') :
    isIntV ((aget d "type").getD .vnull) = true ∧
    d' = (match aget d "user" with
      | some (.vdict ufs) => aset d "user" ((aget ufs "id").getD .vnull)
      | _ => d) := by
  unfold Relationship.format_obj_data at h
  by_cases hc : isIntV ((aget d "type").getD .vnull) = true
  · rw [if_pos hc] at h
    exact ⟨hc, (Except.ok.inj h).symm⟩
  · rw [if_neg hc] at h
    cases h

theorem relationship_format_nodup {d d' : Dict} (hn : NodupKey d)
    (h : Relationship.format_obj_data d = .ok d') : NodupKey d' := by
  obtain ⟨-, hd⟩ := relationship_format_ok_inv h
  rw [hd]
  cases hu : aget d "user" with
  | none => exact hn
  | some v =>
    cases v with
    | vdict ufs => exact nodupKey_aset _ _ hn
    | vnull => exact hn
    | vbool b => exact hn
    | vint n => exact hn
    | vstr sv => exact hn
    | vlist xs => exact hn

theorem Entity.validate_ok_inv {d d' : Dict} (h : Entity.validate d = .ok d') :
    d' = d ∨ d' = aset d "type" (.vint 1) := by
  unfold Entity.validate at h
  by_cases hc : (Entity.requiredKeys.all (fun k => decide (k ∈ keysOf d))
      && d.all (fun p => Entity.propOk p.1 p.2)) = true
  · rw [if_pos hc] at h
    by_cases ht : "type" ∈ keysOf d
    · rw [if_pos ht] at h
      exact Or.inl (Except.ok.inj h).symm
    · rw [if_neg ht] at h
      exact Or.inr (Except.ok.inj h).symm
  · rw [if_neg hc] at h
    cases h

theorem entity_format_nodup {d d' : Dict} (hn : NodupKey d)
    (h : Entity.format_obj_data d = .ok d') : NodupKey d' := by
  unfold Entity.format_obj_data at h
  by_cases hc : (!truthy (aget d "house_id") && truthy (aget d "house")) = true
  · rw [if_pos hc] at h
    have hn1 : NodupKey (aremove d "house") := nodupKey_aremove "house" hn
    cases hhv : (aget d "house").getD .vnull with
    | vdict fs =>
      rw [hhv] at h
      dsimp only at h
      cases hid : (match aget fs "id" with
          | some PVal.vnull => none
          | o => o : Option PVal) with
      | none =>
        rw [hid] at h
        exact absurd h (fun hc2 => Except.noConfusion hc2)
      | some hidv =>
        rw [hid] at h
        simp only [exc_pure_bind] at h
        rcases Entity.validate_ok_inv h with h' | h' <;> rw [h']
        · exact nodupKey_aset _ _ (nodupKey_aset _ _ hn1)
        · exact nodupKey_aset _ _ (nodupKey_aset _ _ (nodupKey_aset _ _ hn1))
    | vnull =>
      rw [hhv] at h
      dsimp only at h
      exact absurd h (fun hc2 => Except.noConfusion hc2)
    | vbool b =>
      rw [hhv] at h
      dsimp only at h
      exact absurd h (fun hc2 => Except.noConfusion hc2)
    | vint n =>
      rw [hhv] at h
      dsimp only at h
      exact absurd h (fun hc2 => Except.noConfusion hc2)
    | vstr sv =>
      rw [hhv] at h
      dsimp only at h
      exact absurd h (fun hc2 => Except.noConfusion hc2)
    | vlist xs =>
      rw [hhv] at h
      dsimp only at h
      exact absurd h (fun hc2 => Except.noConfusion hc2)
  · rw [if_neg hc] at h
    dsimp only at h
    simp only [exc_pure_bind] at h
    rcases Entity.validate_ok_inv h with h' | h' <;> rw [h']
    · exact nodupKey_aset _ _ hn
    · exact nodupKey_aset _ _ (nodupKey_aset _ _ hn)

end Hiven

namespace Hiven

/-!
## Run equations: closed forms of each upsert on an initialised store
-/

theorem update_client_user_run {p : Dict} {id_ : PVal}
    (hid : pyIndex p "id" = .ok id_)
    (hfs : isStrV ((aget p "id").getD .vnull) = true) (t : Store) :
    update_client_user p t =
      ({ t with
          client_user := aupdate t.client_user p,
          users := partMerge t.users id_ p }, .ok p) := by
  unfold update_client_user
  simp only [bind_apply, liftE_apply, modStore_apply, pure_apply,
    User.format_ok_of hfs, hid]

theorem add_or_update_user_run {p : Dict} {id_ : PVal}
    (hid : pyIndex p "id" = .ok id_)
    (hfs : isStrV ((aget p "id").getD .vnull) = true)
    (t : Store) (hcu : t.client_user ≠ []) :
    add_or_update_user p t =
      if id_ = (aget t.client_user "id").getD .vnull then
        ({ t with
            client_user := aupdate t.client_user p,
            users := partMerge (partMerge t.users id_ p) id_ p }, .ok p)
      else
        ({ t with users := partMerge t.users id_ p }, .ok p) := by
  unfold add_or_update_user
  simp only [bind_apply, check_if_initialised_apply, if_neg hcu, tryWrap_apply,
    liftE_apply, getStore_apply, modStore_apply, pure_apply,
    User.format_ok_of hfs, hid]
  by_cases hc : id_ = (aget t.client_user "id").getD .vnull
  · rw [if_pos hc, if_pos hc]
    simp only [bind_apply, modStore_apply, pure_apply]
    rw [update_client_user_run hid hfs t]
  · rw [if_neg hc, if_neg hc]
    simp only [bind_apply, modStore_apply, pure_apply]

theorem add_or_update_room_run {p data : Dict} {id_ : PVal}
    (hid : pyIndex p "id" = .ok id_)
    (hfmt : TextRoom.format_obj_data p = .ok data)
    (t : Store) (hcu : t.client_user ≠ []) :
    add_or_update_room p t =
      ({ t with rooms_house := partMerge t.rooms_house id_ data }, .ok data) := by
  unfold add_or_update_room
  simp only [bind_apply, check_if_initialised_apply, if_neg hcu, tryWrap_apply,
    liftE_apply, modStore_apply, pure_apply, hid, hfmt]

theorem add_or_update_entity_run {p data : Dict} {id_ : PVal}
    (hid : pyIndex p "id" = .ok id_)
    (hfmt : Entity.format_obj_data p = .ok data)
    (t : Store) (hcu : t.client_user ≠ []) :
    add_or_update_entity p t =
      ({ t with entities := partMerge t.entities id_ data }, .ok data) := by
  unfold add_or_update_entity
  simp only [bind_apply, check_if_initialised_apply, if_neg hcu, tryWrap_apply,
    liftE_apply, modStore_apply, pure_apply, hid, hfmt]

theorem add_or_update_private_room_run1 {p : Dict} {id_ tv : PVal}
    (hid : pyIndex p "id" = .ok id_) (hty : pyIndex p "type" = .ok tv)
    (h1 : pyInt tv = some 1)
    (hfs : isStrV ((aget p "id").getD .vnull) = true)
    (t : Store) (hcu : t.client_user ≠ []) :
    add_or_update_private_room p t =
      ({ t with rooms_private_single := partMerge t.rooms_private_single id_ p },
        .ok p) := by
  unfold add_or_update_private_room
  have hfmt : PrivateRoom.format_obj_data p = .ok p := by
    unfold PrivateRoom.format_obj_data
    rw [if_pos hfs]
  simp only [bind_apply, check_if_initialised_apply, if_neg hcu, tryWrap_apply,
    liftE_apply, modStore_apply, pure_apply, hid, hty, h1, hfmt]

theorem add_or_update_private_room_run2 {p : Dict} {id_ tv : PVal}
    (hid : pyIndex p "id" = .ok id_) (hty : pyIndex p "type" = .ok tv)
    (h2 : pyInt tv = some 2)
    (hfs : isStrV ((aget p "id").getD .vnull) = true)
    (t : Store) (hcu : t.client_user ≠ []) :
    add_or_update_private_room p t =
      ({ t with rooms_private_group := partMerge t.rooms_private_group id_ p },
        .ok p) := by
  unfold add_or_update_private_room
  have hfmt : PrivateGroupRoom.format_obj_data p = .ok p := by
    unfold PrivateGroupRoom.format_obj_data
    rw [if_pos hfs]
  simp only [bind_apply, check_if_initialised_apply, if_neg hcu, tryWrap_apply,
    liftE_apply, modStore_apply, pure_apply, hid, hty, h2, hfmt]

end Hiven

namespace Hiven

theorem add_or_update_room_ok_inv {p : Dict} {s s₁ : Store} {r : Dict}
    (h : add_or_update_room p s = (s₁, .ok r)) :
    s.client_user ≠ [] ∧ ∃ id_ data,
      pyIndex p "id" = .ok id_ ∧ TextRoom.format_obj_data p = .ok data ∧
      r = data ∧ s₁ = { s with rooms_house := partMerge s.rooms_house id_ data } := by
  have hcu : s.client_user ≠ [] := by
    intro hc
    unfold add_or_update_room at h
    simp only [bind_apply, check_if_initialised_apply, if_pos hc] at h
    exact Except.noConfusion (congrArg Prod.snd h)
  refine ⟨hcu, ?_⟩
  unfold add_or_update_room at h
  rw [bind_ok_iff] at h
  obtain ⟨t₀, u, hch, h⟩ := h
  rw [check_ok_iff] at hch
  obtain ⟨rfl, -⟩ := hch
  rw [tryWrap_ok_iff, bind_ok_iff] at h
  obtain ⟨t₁, id_, hid, h⟩ := h
  rw [liftE_ok_iff] at hid
  obtain ⟨rfl, hid⟩ := hid
  rw [bind_ok_iff] at h
  obtain ⟨t₂, data, hfmt, h⟩ := h
  rw [liftE_ok_iff] at hfmt
  obtain ⟨rfl, hfmt⟩ := hfmt
  rw [bind_ok_iff] at h
  obtain ⟨t₃, u2, hmod, h⟩ := h
  rw [modStore_ok_iff] at hmod
  rw [pure_ok_iff] at h
  obtain ⟨rfl, hr⟩ := h
  exact ⟨id_, data, hid, hfmt, hr, hmod⟩

theorem add_or_update_entity_ok_inv {p : Dict} {s s₁ : Store} {r : Dict}
    (h : add_or_update_entity p s = (s₁, .ok r)) :
    s.client_user ≠ [] ∧ ∃ id_ data,
      pyIndex p "id" = .ok id_ ∧ Entity.format_obj_data p = .ok data ∧
      r = data ∧ s₁ = { s with entities := partMerge s.entities id_ data } := by
  have hcu : s.client_user ≠ [] := by
    intro hc
    unfold add_or_update_entity at h
    simp only [bind_apply, check_if_initialised_apply, if_pos hc] at h
    exact Except.noConfusion (congrArg Prod.snd h)
  refine ⟨hcu, ?_⟩
  unfold add_or_update_entity at h
  rw [bind_ok_iff] at h
  obtain ⟨t₀, u, hch, h⟩ := h
  rw [check_ok_iff] at hch
  obtain ⟨rfl, -⟩ := hch
  rw [tryWrap_ok_iff, bind_ok_iff] at h
  obtain ⟨t₁, id_, hid, h⟩ := h
  rw [liftE_ok_iff] at hid
  obtain ⟨rfl, hid⟩ := hid
  rw [bind_ok_iff] at h
  obtain ⟨t₂, data, hfmt, h⟩ := h
  rw [liftE_ok_iff] at hfmt
  obtain ⟨rfl, hfmt⟩ := hfmt
  rw [bind_ok_iff] at h
  obtain ⟨t₃, u2, hmod, h⟩ := h
  rw [modStore_ok_iff] at hmod
  rw [pure_ok_iff] at h
  obtain ⟨rfl, hr⟩ := h
  exact ⟨id_, data, hid, hfmt, hr, hmod⟩

theorem add_or_update_user_ok_inv {p : Dict} {s s₁ : Store} {r : Dict}
    (h : add_or_update_user p s = (s₁, .ok r)) :
    s.client_user ≠ [] ∧ ∃ id_,
      pyIndex p "id" = .ok id_ ∧
      isStrV ((aget p "id").getD .vnull) = true ∧ r = p ∧
      s₁ = (if id_ = (aget s.client_user "id").getD .vnull then
        { s with
            client_user := aupdate s.client_user p,
            users := partMerge (partMerge s.users id_ p) id_ p }
      else
        { s with users := partMerge s.users id_ p }) := by
  have hcu : s.client_user ≠ [] := by
    intro hc
    unfold add_or_update_user at h
    simp only [bind_apply, check_if_initialised_apply, if_pos hc] at h
    exact Except.noConfusion (congrArg Prod.snd h)
  refine ⟨hcu, ?_⟩
  have hinv : ∃ id_ data, pyIndex p "id" = .ok id_ ∧
      User.format_obj_data p = .ok data := by
    unfold add_or_update_user at h
    rw [bind_ok_iff] at h
    obtain ⟨t₀, u, hch, h⟩ := h
    rw [check_ok_iff] at hch
    obtain ⟨rfl, -⟩ := hch
    rw [tryWrap_ok_iff, bind_ok_iff] at h
    obtain ⟨t₁, id_, hid, h⟩ := h
    rw [liftE_ok_iff] at hid
    obtain ⟨rfl, hid⟩ := hid
    rw [bind_ok_iff] at h
    obtain ⟨t₂, data, hfmt, h⟩ := h
    rw [liftE_ok_iff] at hfmt
    obtain ⟨rfl, hfmt⟩ := hfmt
    exact ⟨id_, data, hid, hfmt⟩
  obtain ⟨id_, data, hid, hfmt⟩ := hinv
  obtain ⟨hde, hfs⟩ := user_format_ok_inv hfmt
  rw [add_or_update_user_run hid hfs s hcu] at h
  by_cases hc : id_ = (aget s.client_user "id").getD .vnull
  · rw [if_pos hc] at h
    injection h with h1 h2
    exact ⟨id_, hid, hfs, (Except.ok.inj h2).symm, by rw [if_pos hc, ← h1]⟩
  · rw [if_neg hc] at h
    injection h with h1 h2
    exact ⟨id_, hid, hfs, (Except.ok.inj h2).symm, by rw [if_neg hc, ← h1]⟩

end Hiven

namespace Hiven

/-- A second `add_or_update_room` with the same payload right after a first
successful one leaves the store unchanged and returns the same record. -/
theorem add_or_update_room_idem {p : Dict} {s s₁ : Store} {r : Dict}
    (hWF : PartWF s.rooms_house) (hnp : NodupKey p)
    (h : add_or_update_room p s = (s₁, .ok r)) :
    add_or_update_room p s₁ = (s₁, .ok r) := by
  obtain ⟨hcu, id_, data, hid, hfmt, hr, hs₁⟩ := add_or_update_room_ok_inv h
  obtain ⟨hde, -⟩ := room_format_ok_inv hfmt
  have hnd : NodupKey data := hde ▸ hnp
  have hcu₁ : s₁.client_user ≠ [] := by rw [hs₁]; exact hcu
  rw [add_or_update_room_run hid hfmt s₁ hcu₁, hr]
  subst hs₁
  dsimp only
  rw [partMerge_absorb hWF hnd]

/-- A second `add_or_update_entity` with the same payload right after a
first successful one leaves the store unchanged and returns the same
record. -/
theorem add_or_update_entity_idem {p : Dict} {s s₁ : Store} {r : Dict}
    (hWF : PartWF s.entities) (hnp : NodupKey p)
    (h : add_or_update_entity p s = (s₁, .ok r)) :
    add_or_update_entity p s₁ = (s₁, .ok r) := by
  obtain ⟨hcu, id_, data, hid, hfmt, hr, hs₁⟩ := add_or_update_entity_ok_inv h
  have hnd : NodupKey data := entity_format_nodup hnp hfmt
  have hcu₁ : s₁.client_user ≠ [] := by rw [hs₁]; exact hcu
  rw [add_or_update_entity_run hid hfmt s₁ hcu₁, hr]
  subst hs₁
  dsimp only
  rw [partMerge_absorb hWF hnd]

/-- A second `add_or_update_private_room` with the same payload right after
a first successful one leaves the store unchanged and returns the same
record. -/
theorem add_or_update_private_room_idem {p : Dict} {s s₁ : Store} {r : Dict}
    (hWF1 : PartWF s.rooms_private_single) (hWF2 : PartWF s.rooms_private_group)
    (hnp : NodupKey p)
    (h : add_or_update_private_room p s = (s₁, .ok r)) :
    add_or_update_private_room p s₁ = (s₁, .ok r) := by
  have hcu : s.client_user ≠ [] := by
    intro hc
    unfold add_or_update_private_room at h
    simp only [bind_apply, check_if_initialised_apply, if_pos hc] at h
    exact Except.noConfusion (congrArg Prod.snd h)
  unfold add_or_update_private_room at h
  rw [bind_ok_iff] at h
  obtain ⟨t₀, u, hch, h⟩ := h
  rw [check_ok_iff] at hch
  obtain ⟨rfl, -⟩ := hch
  rw [tryWrap_ok_iff, bind_ok_iff] at h
  obtain ⟨t₁, id_, hid, h⟩ := h
  rw [liftE_ok_iff] at hid
  obtain ⟨rfl, hid⟩ := hid
  rw [bind_ok_iff] at h
  obtain ⟨t₂, tv, hty, h⟩ := h
  rw [liftE_ok_iff] at hty
  obtain ⟨rfl, hty⟩ := hty
  rcases hpi0 : pyInt tv with _ | n
  case none =>
    rw [hpi0] at h
    simp only [] at h
    rw [bind_ok_iff] at h
    obtain ⟨t₄, u2, hm, -⟩ := h
    rw [mthrow_apply] at hm
    exact absurd (congrArg Prod.snd hm) (fun hc2 => Except.noConfusion hc2)
  rw [hpi0] at h
  rcases n with m | m
  case negSucc =>
    simp only [] at h
    rw [bind_ok_iff] at h
    obtain ⟨t₄, u2, hm, -⟩ := h
    rw [mthrow_apply] at hm
    exact absurd (congrArg Prod.snd hm) (fun hc2 => Except.noConfusion hc2)
  rcases m with _ | (_ | (_ | m))
  · -- type 0: not a valid discriminant
    simp only [] at h
    rw [bind_ok_iff] at h
    obtain ⟨t₄, u2, hm, -⟩ := h
    rw [mthrow_apply] at hm
    exact absurd (congrArg Prod.snd hm) (fun hc2 => Except.noConfusion hc2)
  · -- type 1: single private room
    have hpi : pyInt tv = some 1 := hpi0
    rw [show (Int.ofNat (0+1)) = (1 : Int) from rfl] at h
    simp only [] at h
    rw [bind_ok_iff] at h
    obtain ⟨t₄, d1, hf1, h⟩ := h
    rw [liftE_ok_iff] at hf1
    obtain ⟨rfl, hf1⟩ := hf1
    rw [bind_ok_iff] at h
    obtain ⟨t₅, u2, hm, h⟩ := h
    rw [modStore_ok_iff] at hm
    rw [pure_ok_iff] at h
    obtain ⟨rfl, rfl⟩ := h
    obtain ⟨-, hfs⟩ := private_room_format_ok_inv hf1
    have hcu₁ : s₁.client_user ≠ [] := by rw [hm]; exact hcu
    rw [add_or_update_private_room_run1 hid hty hpi hfs s₁ hcu₁]
    subst hm
    dsimp only
    rw [partMerge_absorb hWF1 hnp]
  · -- type 2: group private room
    have hpi : pyInt tv = some 2 := hpi0
    rw [show (Int.ofNat (0+1+1)) = (2 : Int) from rfl] at h
    simp only [] at h
    rw [bind_ok_iff] at h
    obtain ⟨t₄, d1, hf1, h⟩ := h
    rw [liftE_ok_iff] at hf1
    obtain ⟨rfl, hf1⟩ := hf1
    rw [bind_ok_iff] at h
    obtain ⟨t₅, u2, hm, h⟩ := h
    rw [modStore_ok_iff] at hm
    rw [pure_ok_iff] at h
    obtain ⟨rfl, rfl⟩ := h
    obtain ⟨-, hfs⟩ := private_group_format_ok_inv hf1
    have hcu₁ : s₁.client_user ≠ [] := by rw [hm]; exact hcu
    rw [add_or_update_private_room_run2 hid hty hpi hfs s₁ hcu₁]
    subst hm
    dsimp only
    rw [partMerge_absorb hWF2 hnp]
  · -- any other type id raises
    simp only [] at h
    rw [bind_ok_iff] at h
    obtain ⟨t₄, u2, hm, -⟩ := h
    rw [mthrow_apply] at hm
    exact absurd (congrArg Prod.snd hm) (fun hc2 => Except.noConfusion hc2)

end Hiven

namespace Hiven

/-- After a successful `add_or_update_user`, the same payload is a no-op
when replayed from any store whose `client_user` and `users` agree with
the post-state — and the post-state keeps the client id, key-distinctness
of `client_user` and well-formedness of `users`. -/
theorem add_or_update_user_replay {p : Dict} {s s₁ : Store} {r : Dict}
    (hnp : NodupKey p) (hncu : NodupKey s.client_user) (hU : PartWF s.users)
    (h : add_or_update_user p s = (s₁, .ok r)) :
    r = p ∧ s₁.client_user ≠ [] ∧ NodupKey s₁.client_user ∧ PartWF s₁.users ∧
    (aget s₁.client_user "id").getD .vnull = (aget s.client_user "id").getD .vnull ∧
    ∀ t : Store, t.client_user = s₁.client_user → t.users = s₁.users →
      add_or_update_user p t = (t, .ok r) := by
  obtain ⟨hcu, id_, hid, hfs, hr, hs₁⟩ := add_or_update_user_ok_inv h
  have hgetp : aget p "id" = some id_ := pyIndex_ok_iff.mp hid
  rw [hr]
  by_cases hc : id_ = (aget s.client_user "id").getD .vnull
  · rw [if_pos hc] at hs₁
    have hcu' : aget (aupdate s.client_user p) "id" = some id_ :=
      aget_aupdate_of_nodup_src hnp hgetp
    have habs : partMergeList (partMergeList s.users [(id_, p), (id_, p)])
        [(id_, p), (id_, p)] = partMergeList s.users [(id_, p), (id_, p)] :=
      partMergeList_absorb hU (by
        intro w hw
        rcases List.mem_cons.mp hw with hw | hw
        · rw [hw]; exact hnp
        · rw [List.mem_singleton] at hw
          rw [hw]; exact hnp)
    refine ⟨rfl, ?_, ?_, ?_, ?_, ?_⟩
    · rw [hs₁]; exact aupdate_ne_nil hcu p
    · rw [hs₁]; exact nodupKey_aupdate p hncu
    · rw [hs₁]
      exact partWF_partMerge id_ (partWF_partMerge id_ hU hnp) hnp
    · rw [hs₁]
      dsimp only
      rw [hcu']
      exact hc
    · intro t ht hu
      have hcut : t.client_user ≠ [] := by
        rw [ht, hs₁]; exact aupdate_ne_nil hcu p
      rw [add_or_update_user_run hid hfs t hcut]
      have hct : id_ = (aget t.client_user "id").getD .vnull := by
        rw [ht, hs₁]
        dsimp only
        rw [hcu']
        rfl
      rw [if_pos hct]
      have h1 : aupdate t.client_user p = t.client_user := by
        rw [ht, hs₁]
        dsimp only
        exact aupdate_aupdate_self p hncu
      have h2 : partMerge (partMerge t.users id_ p) id_ p = t.users := by
        rw [hu, hs₁]
        dsimp only
        exact habs
      rw [h1, h2]
  · rw [if_neg hc] at hs₁
    have habs : partMerge (partMerge s.users id_ p) id_ p
        = partMerge s.users id_ p := partMerge_absorb hU hnp
    refine ⟨rfl, ?_, ?_, ?_, ?_, ?_⟩
    · rw [hs₁]; exact hcu
    · rw [hs₁]; exact hncu
    · rw [hs₁]
      exact partWF_partMerge id_ hU hnp
    · rw [hs₁]
    · intro t ht hu
      have hcut : t.client_user ≠ [] := by rw [ht, hs₁]; exact hcu
      rw [add_or_update_user_run hid hfs t hcut]
      have hct : ¬ id_ = (aget t.client_user "id").getD .vnull := by
        rw [ht, hs₁]
        exact hc
      rw [if_neg hct]
      have h2 : partMerge t.users id_ p = t.users := by
        rw [hu, hs₁]
        dsimp only
        exact habs
      rw [h2]

end Hiven

namespace Hiven

/-- A second `add_or_update_relationship` with the same payload right
after a first successful one leaves the store unchanged and returns the
same record. -/
theorem add_or_update_relationship_idem {p : Dict} {s s₁ : Store} {r : Dict}
    (hWp : DictWFb p = true) (hncu : NodupKey s.client_user)
    (hU : PartWF s.users) (hR : PartWF s.relationships)
    (h : add_or_update_relationship p s = (s₁, .ok r)) :
    add_or_update_relationship p s₁ = (s₁, .ok r) := by
  have hnp : NodupKey p := dictWFb_nodup hWp
  have hcu : s.client_user ≠ [] := by
    intro hc
    unfold add_or_update_relationship at h
    simp only [bind_apply, check_if_initialised_apply, if_pos hc] at h
    exact Except.noConfusion (congrArg Prod.snd h)
  unfold add_or_update_relationship at h
  rw [bind_ok_iff] at h
  obtain ⟨t₀, u0, hch, h⟩ := h
  rw [check_ok_iff] at hch
  obtain ⟨rfl, -⟩ := hch
  rw [tryWrap_ok_iff, bind_ok_iff] at h
  obtain ⟨t₁, id_, hid, h⟩ := h
  rw [liftE_ok_iff] at hid
  obtain ⟨rfl, hid⟩ := hid
  by_cases htr : truthy (aget p "user") = true
  · rw [if_pos htr] at h
    rw [bind_ok_iff] at h
    obtain ⟨t₃, ud, hud, h⟩ := h
    rw [liftE_ok_iff] at hud
    obtain ⟨rfl, hud⟩ := hud
    rw [asDictE_ok_iff] at hud
    rw [bind_ok_iff] at h
    obtain ⟨t₄, ru, huop, h⟩ := h
    rw [bind_ok_iff] at h
    obtain ⟨t₅, u1, hpu, h⟩ := h
    rw [pure_ok_iff] at hpu
    obtain ⟨rfl, -⟩ := hpu
    dsimp only at h
    -- the embedded user object is a well-formed dict
    have haget : aget p "user" = some (.vdict ud) := by
      cases hg : aget p "user" with
      | none => rw [hg] at htr; exact absurd htr (by decide)
      | some w =>
        rw [hg] at hud
        rw [show (some w).getD PVal.vnull = w from rfl] at hud
        exact congrArg Option.some hud
    have hnud : NodupKey ud :=
      dictWFb_nodup (pvalWFb_vdict (dictWFb_aget hWp haget))
    obtain ⟨hru, hcu₄, hncu₄, hU₄, hcid₄, hreplay⟩ :=
      add_or_update_user_replay hnud hncu hU huop
    -- user op leaves the relationships partition alone
    have hfr := add_or_update_user_frame ud t₃
    rw [huop] at hfr
    obtain ⟨-, -, -, -, -, -, -, hrel₄, -, -, -, -⟩ := hfr
    -- the tail: format and merge
    rw [bind_ok_iff] at h
    obtain ⟨t₆, data, hfmt, h⟩ := h
    rw [liftE_ok_iff] at hfmt
    obtain ⟨rfl, hfmt⟩ := hfmt
    rw [bind_ok_iff] at h
    obtain ⟨t₇, u2, hmod, h⟩ := h
    rw [modStore_ok_iff] at hmod
    rw [pure_ok_iff] at h
    obtain ⟨rfl, hrd⟩ := h
    have hnd : NodupKey data := relationship_format_nodup hnp hfmt
    have hcu₁ : s₁.client_user ≠ [] := by rw [hmod]; exact hcu₄
    have hrepl : add_or_update_user ud s₁ = (s₁, .ok ru) :=
      hreplay s₁ (by rw [hmod]) (by rw [hmod])
    have hasd : asDictE (PVal.vdict ud) = .ok ud := rfl
    have habs : partMerge s₁.relationships id_ data = s₁.relationships := by
      rw [hmod]
      dsimp only
      rw [hrel₄]
      exact partMerge_absorb hR hnd
    have htr' : truthy (some (PVal.vdict ud)) = true := by
      rw [← haget]; exact htr
    unfold add_or_update_relationship
    simp only [bind_apply, check_if_initialised_apply, if_neg hcu₁,
      tryWrap_apply, liftE_apply, hid, haget, Option.getD_some,
      if_pos htr', hasd, hrepl, hfmt, modStore_apply, pure_apply]
    rw [habs, hrd]
  · rw [if_neg htr] at h
    rw [bind_ok_iff] at h
    obtain ⟨t₂, u1, hstep, h⟩ := h
    rw [pure_ok_iff] at hstep
    obtain ⟨rfl, -⟩ := hstep
    rw [bind_ok_iff] at h
    obtain ⟨t₅, data, hfmt, h⟩ := h
    rw [liftE_ok_iff] at hfmt
    obtain ⟨rfl, hfmt⟩ := hfmt
    rw [bind_ok_iff] at h
    obtain ⟨t₆, u2, hmod, h⟩ := h
    rw [modStore_ok_iff] at hmod
    rw [pure_ok_iff] at h
    obtain ⟨rfl, hrd⟩ := h
    have hnd : NodupKey data := relationship_format_nodup hnp hfmt
    have hcu₁ : s₁.client_user ≠ [] := by rw [hmod]; exact hcu
    have habs : partMerge s₁.relationships id_ data = s₁.relationships := by
      rw [hmod]
      dsimp only
      exact partMerge_absorb hR hnd
    unfold add_or_update_relationship
    simp only [bind_apply, check_if_initialised_apply, if_neg hcu₁,
      tryWrap_apply, liftE_apply, hid, if_neg htr, hfmt, modStore_apply,
      pure_apply]
    rw [habs, hrd]

end Hiven

namespace Hiven

/-- The rooms loop only merges a list of writes into `rooms.house`; the
same write list is produced by replaying the loop from any initialised
store, with the same returned list. -/
theorem houseRoomsLoop_writes (id_ : PVal) (rs : List PVal) :
    ∀ (s s₁ : Store) (out : List PVal),
    houseRoomsLoop id_ rs s = (s₁, .ok out) →
    (∀ x ∈ rs, pvalWFb x = true) →
    ∃ ws : List (PVal × Dict),
      (∀ w ∈ ws, NodupKey w.2) ∧
      s₁ = { s with rooms_house := partMergeList s.rooms_house ws } ∧
      (∀ t : Store, t.client_user ≠ [] →
        houseRoomsLoop id_ rs t =
          ({ t with rooms_house := partMergeList t.rooms_house ws }, .ok out)) := by
  induction rs with
  | nil =>
    intro s s₁ out h hwf
    rw [show houseRoomsLoop id_ ([] : List PVal) = Pure.pure [] from rfl,
      pure_ok_iff] at h
    obtain ⟨rfl, rfl⟩ := h
    refine ⟨[], ?_, ?_, ?_⟩
    · intro w hw; cases hw
    · rw [partMergeList_nil]
    · intro t ht
      rw [show houseRoomsLoop id_ ([] : List PVal) = Pure.pure [] from rfl,
        pure_apply, partMergeList_nil]
  | cons rv rest ih =>
    intro s s₁ out h hwf
    simp only [houseRoomsLoop] at h
    rw [bind_ok_iff] at h
    obtain ⟨t₁, rd, hrd, h⟩ := h
    rw [liftE_ok_iff] at hrd
    obtain ⟨rfl, hrd⟩ := hrd
    rw [asDictE_ok_iff] at hrd
    rw [bind_ok_iff] at h
    obtain ⟨t₂, room, hfmt, h⟩ := h
    rw [liftE_ok_iff] at hfmt
    obtain ⟨rfl, hfmt⟩ := hfmt
    rw [bind_ok_iff] at h
    obtain ⟨tA, ret, hroom, h⟩ := h
    obtain ⟨hcu, rid, rdata, hid2, hfmt2, -, hsA⟩ := add_or_update_room_ok_inv hroom
    rw [bind_ok_iff] at h
    obtain ⟨tB, tail, hrest, h⟩ := h
    rw [pure_ok_iff] at h
    obtain ⟨rfl, rfl⟩ := h
    obtain ⟨wsR, hwsR, hs₁, hrep⟩ := ih tA s₁ tail hrest
      (fun x hx => hwf x (List.mem_cons_of_mem rv hx))
    -- the merged record has distinct keys
    have hnrd : NodupKey rd := by
      have := hwf rv (List.mem_cons_self rv rest)
      rw [hrd] at this
      exact dictWFb_nodup (pvalWFb_vdict this)
    obtain ⟨hde, -⟩ := room_format_ok_inv hfmt
    obtain ⟨hde2, -⟩ := room_format_ok_inv hfmt2
    have hnrdata : NodupKey rdata := by
      rw [hde2, hde]
      exact nodupKey_aset "house_id" id_ hnrd
    refine ⟨(rid, rdata) :: wsR, ?_, ?_, ?_⟩
    · intro w hw
      rcases List.mem_cons.mp hw with hw | hw
      · rw [hw]; exact hnrdata
      · exact hwsR w hw
    · rw [hs₁, hsA]
      rw [partMergeList_cons]
    · intro t ht
      have hstep := add_or_update_room_run hid2 hfmt2 t ht
      have htA : ({ t with rooms_house := partMerge t.rooms_house rid rdata }
          : Store).client_user ≠ [] := ht
      have hrest' := hrep { t with rooms_house := partMerge t.rooms_house rid rdata } htA
      simp only [houseRoomsLoop, bind_apply, liftE_apply, hrd, hfmt,
        show asDictE (PVal.vdict rd) = .ok rd from rfl, hstep, hrest',
        pure_apply]
      rw [partMergeList_cons]

end Hiven

namespace Hiven

/-- The entities loop only merges a list of writes into `entities`; the
same write list is produced by replaying the loop from any initialised
store, with the same returned list. -/
theorem houseEntitiesLoop_writes (id_ : PVal) (es : List PVal) :
    ∀ (s s₁ : Store) (out : List PVal),
    houseEntitiesLoop id_ es s = (s₁, .ok out) →
    (∀ x ∈ es, pvalWFb x = true) →
    ∃ ws : List (PVal × Dict),
      (∀ w ∈ ws, NodupKey w.2) ∧
      s₁ = { s with entities := partMergeList s.entities ws } ∧
      (∀ t : Store, t.client_user ≠ [] →
        houseEntitiesLoop id_ es t =
          ({ t with entities := partMergeList t.entities ws }, .ok out)) := by
  induction es with
  | nil =>
    intro s s₁ out h hwf
    rw [show houseEntitiesLoop id_ ([] : List PVal) = Pure.pure [] from rfl,
      pure_ok_iff] at h
    obtain ⟨rfl, rfl⟩ := h
    refine ⟨[], ?_, ?_, ?_⟩
    · intro w hw; cases hw
    · rw [partMergeList_nil]
    · intro t ht
      rw [show houseEntitiesLoop id_ ([] : List PVal) = Pure.pure [] from rfl,
        pure_apply, partMergeList_nil]
  | cons ev rest ih =>
    intro s s₁ out h hwf
    simp only [houseEntitiesLoop] at h
    rw [bind_ok_iff] at h
    obtain ⟨t₁, ed, hed, h⟩ := h
    rw [liftE_ok_iff] at hed
    obtain ⟨rfl, hed⟩ := hed
    rw [asDictE_ok_iff] at hed
    rw [bind_ok_iff] at h
    obtain ⟨t₂, entity, hfmt, h⟩ := h
    rw [liftE_ok_iff] at hfmt
    obtain ⟨rfl, hfmt⟩ := hfmt
    rw [bind_ok_iff] at h
    obtain ⟨tA, ret, hent, h⟩ := h
    obtain ⟨hcu, eid, edata, hid2, hfmt2, -, hsA⟩ := add_or_update_entity_ok_inv hent
    rw [bind_ok_iff] at h
    obtain ⟨tB, tail, hrest, h⟩ := h
    rw [pure_ok_iff] at h
    obtain ⟨rfl, rfl⟩ := h
    obtain ⟨wsE, hwsE, hs₁, hrep⟩ := ih tA s₁ tail hrest
      (fun x hx => hwf x (List.mem_cons_of_mem ev hx))
    have hned : NodupKey ed := by
      have := hwf ev (List.mem_cons_self ev rest)
      rw [hed] at this
      exact dictWFb_nodup (pvalWFb_vdict this)
    have hnent : NodupKey entity :=
      entity_format_nodup (nodupKey_aset "house_id" id_ hned) hfmt
    have hnedata : NodupKey edata := entity_format_nodup hnent hfmt2
    refine ⟨(eid, edata) :: wsE, ?_, ?_, ?_⟩
    · intro w hw
      rcases List.mem_cons.mp hw with hw | hw
      · rw [hw]; exact hnedata
      · exact hwsE w hw
    · rw [hs₁, hsA]
      rw [partMergeList_cons]
    · intro t ht
      have hstep := add_or_update_entity_run hid2 hfmt2 t ht
      have htA : ({ t with entities := partMerge t.entities eid edata }
          : Store).client_user ≠ [] := ht
      have hrest' := hrep { t with entities := partMerge t.entities eid edata } htA
      simp only [houseEntitiesLoop, bind_apply, liftE_apply, hed, hfmt,
        show asDictE (PVal.vdict ed) = .ok ed from rfl, hstep, hrest',
        pure_apply]
      rw [partMergeList_cons]

end Hiven

namespace Hiven

/-- The members loop only applies a list of updates to `client_user` (each
an embedded user record carrying the client's own id) and merges a list of
writes into `users`; the same lists are produced by replaying the loop
from any initialised store whose client id agrees. -/
theorem houseMembersLoop_writes (id_ : PVal) (ms : List PVal) :
    ∀ (s s₁ : Store) (out : List PVal),
    houseMembersLoop id_ ms s = (s₁, .ok out) →
    (∀ x ∈ ms, pvalWFb x = true) →
    NodupKey s.client_user → PartWF s.users →
    ∃ (fs : List Dict) (ws : List (PVal × Dict)),
      (∀ e ∈ fs, NodupKey e ∧
        aget e "id" = some ((aget s.client_user "id").getD .vnull)) ∧
      (∀ w ∈ ws, NodupKey w.2) ∧
      s₁ = { s with client_user := aupdateList s.client_user fs,
                    users := partMergeList s.users ws } ∧
      (∀ t : Store, t.client_user ≠ [] →
        (aget t.client_user "id").getD .vnull
          = (aget s.client_user "id").getD .vnull →
        houseMembersLoop id_ ms t =
          ({ t with client_user := aupdateList t.client_user fs,
                    users := partMergeList t.users ws }, .ok out)) := by
  induction ms with
  | nil =>
    intro s s₁ out h hwf hncu hU
    rw [show houseMembersLoop id_ ([] : List PVal) = Pure.pure [] from rfl,
      pure_ok_iff] at h
    obtain ⟨rfl, rfl⟩ := h
    refine ⟨[], [], ?_, ?_, ?_, ?_⟩
    · intro e he; cases he
    · intro w hw; cases hw
    · rw [aupdateList_nil, partMergeList_nil]
    · intro t ht hcid
      rw [show houseMembersLoop id_ ([] : List PVal) = Pure.pure [] from rfl,
        pure_apply, aupdateList_nil, partMergeList_nil]
  | cons mv rest ih =>
    intro s s₁ out h hwf hncu hU
    simp only [houseMembersLoop] at h
    rw [bind_ok_iff] at h
    obtain ⟨t₁, md, hmd, h⟩ := h
    rw [liftE_ok_iff] at hmd
    obtain ⟨rfl, hmd⟩ := hmd
    rw [asDictE_ok_iff] at hmd
    rw [bind_ok_iff] at h
    obtain ⟨t₂, uv, huv, h⟩ := h
    rw [liftE_ok_iff] at huv
    obtain ⟨rfl, huv⟩ := huv
    rw [bind_ok_iff] at h
    obtain ⟨t₃, ud, hud, h⟩ := h
    rw [liftE_ok_iff] at hud
    obtain ⟨rfl, hud⟩ := hud
    rw [asDictE_ok_iff] at hud
    rw [bind_ok_iff] at h
    obtain ⟨t₄, user, hufmt, h⟩ := h
    rw [liftE_ok_iff] at hufmt
    obtain ⟨rfl, hufmt⟩ := hufmt
    rw [bind_ok_iff] at h
    obtain ⟨tA, ru, huop, h⟩ := h
    rw [bind_ok_iff] at h
    obtain ⟨tB, tail, hrest, h⟩ := h
    rw [pure_ok_iff] at h
    obtain ⟨rfl, rfl⟩ := h
    -- the member record and its embedded user are well-formed dicts
    have hnmd : NodupKey md := by
      have := hwf mv (List.mem_cons_self mv rest)
      rw [hmd] at this
      exact dictWFb_nodup (pvalWFb_vdict this)
    have hnud : NodupKey ud := by
      have hwm : DictWFb md = true := by
        have := hwf mv (List.mem_cons_self mv rest)
        rw [hmd] at this
        exact pvalWFb_vdict this
      have huv' : aget md "user" = some uv := by
        have := pyIndex_ok_iff.mp huv
        rw [aget_aset_ne md "house_id" "user" id_ (by decide)] at this
        exact this
      have := dictWFb_aget hwm huv'
      rw [hud] at this
      exact dictWFb_nodup (pvalWFb_vdict this)
    obtain ⟨hdeu, hfsu⟩ := user_format_ok_inv hufmt
    have hnuser : NodupKey user := hdeu ▸ hnud
    -- invert the user upsert and set up its replay
    obtain ⟨hcu, uid, hid2, hfs2, hruser, hsA⟩ := add_or_update_user_ok_inv huop
    obtain ⟨-, hcuA, hncuA, hUA, hcidA, hrepU⟩ :=
      add_or_update_user_replay hnuser hncu hU huop
    -- the tail of the loop from the post-user state
    obtain ⟨fsR, wsR, hfsR, hwsR, hs₁, hrep⟩ := ih tA s₁ tail hrest
      (fun x hx => hwf x (List.mem_cons_of_mem mv hx)) hncuA hUA
    have hfsR' : ∀ e ∈ fsR, NodupKey e ∧
        aget e "id" = some ((aget t₄.client_user "id").getD .vnull) :=
      fun e he => ⟨(hfsR e he).1,
        ((hfsR e he).2).trans (congrArg Option.some hcidA)⟩
    have hgetu : aget user "id" = some uid := pyIndex_ok_iff.mp hid2
    by_cases hc : uid = (aget t₄.client_user "id").getD .vnull
    · -- the member is the client: client_user is updated in place
      rw [if_pos hc] at hsA
      refine ⟨user :: fsR, (uid, user) :: (uid, user) :: wsR, ?_, ?_, ?_, ?_⟩
      · intro e he
        rcases List.mem_cons.mp he with he | he
        · rw [he]
          exact ⟨hnuser, by rw [hgetu, hc]⟩
        · exact hfsR' e he
      · intro w hw
        rcases List.mem_cons.mp hw with hw | hw
        · rw [hw]; exact hnuser
        rcases List.mem_cons.mp hw with hw | hw
        · rw [hw]; exact hnuser
        · exact hwsR w hw
      · rw [hs₁, hsA]
        rw [aupdateList_cons, partMergeList_cons, partMergeList_cons]
      · intro t ht hcid
        have hct : uid = (aget t.client_user "id").getD .vnull := by
          rw [hcid]; exact hc
        have hstep := add_or_update_user_run hid2 hfs2 t ht
        rw [if_pos hct] at hstep
        have htA : ({ t with
            client_user := aupdate t.client_user user
            users := partMerge (partMerge t.users uid user) uid user }
            : Store).client_user ≠ [] := aupdate_ne_nil ht user
        have hcidA' : (aget ({ t with
            client_user := aupdate t.client_user user
            users := partMerge (partMerge t.users uid user) uid user }
            : Store).client_user "id").getD .vnull
            = (aget tA.client_user "id").getD .vnull := by
          dsimp only
          rw [aget_aupdate_of_nodup_src hnuser hgetu, hcidA, ← hcid]
          exact hct
        have hrest' := hrep _ htA hcidA'
        simp only [houseMembersLoop, bind_apply, liftE_apply, hmd,
          show asDictE (PVal.vdict md) = .ok md from rfl, huv,
          hud, show asDictE (PVal.vdict ud) = .ok ud from rfl,
          hufmt, hstep, hrest', pure_apply]
        rw [aupdateList_cons, partMergeList_cons, partMergeList_cons]
    · -- an ordinary member: only the users partition is written
      rw [if_neg hc] at hsA
      refine ⟨fsR, (uid, user) :: wsR, ?_, ?_, ?_, ?_⟩
      · exact hfsR'
      · intro w hw
        rcases List.mem_cons.mp hw with hw | hw
        · rw [hw]; exact hnuser
        · exact hwsR w hw
      · rw [hs₁, hsA]
        rw [partMergeList_cons]
      · intro t ht hcid
        have hct : ¬ uid = (aget t.client_user "id").getD .vnull := by
          rw [hcid]; exact hc
        have hstep := add_or_update_user_run hid2 hfs2 t ht
        rw [if_neg hct] at hstep
        have htA : ({ t with users := partMerge t.users uid user }
            : Store).client_user ≠ [] := ht
        have hcidA' : (aget ({ t with users := partMerge t.users uid user }
            : Store).client_user "id").getD .vnull
            = (aget tA.client_user "id").getD .vnull := by
          dsimp only
          rw [hcidA, ← hcid]
        have hrest' := hrep _ htA hcidA'
        simp only [houseMembersLoop, bind_apply, liftE_apply, hmd,
          show asDictE (PVal.vdict md) = .ok md from rfl, huv,
          hud, show asDictE (PVal.vdict ud) = .ok ud from rfl,
          hufmt, hstep, hrest', pure_apply]
        rw [partMergeList_cons]

end Hiven

namespace Hiven

theorem aupdateList_ne_nil {κ τ : Type} [DecidableEq κ] {l : List (κ × τ)}
    (hl : l ≠ []) (es : List (List (κ × τ))) : aupdateList l es ≠ [] := by
  induction es generalizing l with
  | nil => exact hl
  | cons e rest ih => exact ih (aupdate_ne_nil hl e)

theorem nodupKey_aupdateList {κ τ : Type} [DecidableEq κ] {l : List (κ × τ)}
    (hl : NodupKey l) (es : List (List (κ × τ))) :
    NodupKey (aupdateList l es) := by
  induction es generalizing l with
  | nil => exact hl
  | cons e rest ih => exact ih (nodupKey_aupdate e hl)

/-- Each update in the members loop carries the client's own id, so the
client id survives the whole update sequence. -/
theorem cuid_preserved {d : Dict} {fs : List Dict} {c0 : PVal}
    (hc0 : (aget d "id").getD .vnull = c0)
    (hfs : ∀ e ∈ fs, NodupKey e ∧ aget e "id" = some c0) :
    (aget (aupdateList d fs) "id").getD .vnull = c0 := by
  induction fs generalizing d with
  | nil => exact hc0
  | cons e rest ih =>
    rw [aupdateList_cons]
    apply ih
    · rw [aget_aupdate_of_nodup_src (hfs e (List.mem_cons_self e rest)).1
        (hfs e (List.mem_cons_self e rest)).2]
      rfl
    · intro f hf
      exact hfs f (List.mem_cons_of_mem e hf)

end Hiven

namespace Hiven

/-- A second `add_or_update_house` with the same payload right after a
first successful one leaves the store unchanged and returns the same
record. -/
theorem add_or_update_house_idem {p : Dict} {s s₁ : Store} {r : Dict}
    (hWp : DictWFb p = true) (hncu : NodupKey s.client_user)
    (hU : PartWF s.users) (hRH : PartWF s.rooms_house)
    (hE : PartWF s.entities) (hH : PartWF s.houses)
    (h : add_or_update_house p s = (s₁, .ok r)) :
    add_or_update_house p s₁ = (s₁, .ok r) := by
  have hnp : NodupKey p := dictWFb_nodup hWp
  have hcu : s.client_user ≠ [] := by
    intro hc
    unfold add_or_update_house at h
    simp only [bind_apply, check_if_initialised_apply, if_pos hc] at h
    exact Except.noConfusion (congrArg Prod.snd h)
  unfold add_or_update_house at h
  rw [bind_ok_iff] at h
  obtain ⟨t₀, u0, hch, h⟩ := h
  rw [check_ok_iff] at hch
  obtain ⟨rfl, -⟩ := hch
  rw [tryWrap_ok_iff, bind_ok_iff] at h
  obtain ⟨t₁, id_, hid, h⟩ := h
  rw [liftE_ok_iff] at hid
  obtain ⟨rfl, hid⟩ := hid
  rw [bind_ok_iff] at h
  obtain ⟨t₂, roomsV, hrv, h⟩ := h
  rw [liftE_ok_iff] at hrv
  obtain ⟨rfl, hrv⟩ := hrv
  rw [bind_ok_iff] at h
  obtain ⟨t₃, rooms, hrl, h⟩ := h
  rw [liftE_ok_iff] at hrl
  obtain ⟨rfl, hrl⟩ := hrl
  rw [asListE_ok_iff] at hrl
  rw [bind_ok_iff] at h
  obtain ⟨sA, rooms2, hloop, h⟩ := h
  have hwfrooms : ∀ x ∈ rooms, pvalWFb x = true := by
    have hx := dictWFb_aget hWp (pyIndex_ok_iff.mp hrv)
    rw [hrl] at hx
    exact fun x hm => listWFb_mem (pvalWFb_vlist hx) hm
  obtain ⟨wsR, hwsR, hsA, hrepR⟩ :=
    houseRoomsLoop_writes id_ rooms t₃ sA rooms2 hloop hwfrooms
  unfold house_after_rooms at h
  rw [bind_ok_iff] at h
  obtain ⟨m₀, membersV, hmV, h⟩ := h
  rw [liftE_ok_iff] at hmV
  obtain ⟨rfl, hmV⟩ := hmV
  rw [bind_ok_iff] at h
  obtain ⟨m₁, members, hml, h⟩ := h
  rw [liftE_ok_iff] at hml
  obtain ⟨rfl, hml⟩ := hml
  rw [asListE_ok_iff] at hml
  rw [bind_ok_iff] at h
  obtain ⟨sB, members2, hmloop, h⟩ := h
  have hwfmembers : ∀ x ∈ members, pvalWFb x = true := by
    have hx := dictWFb_aget hWp (pyIndex_ok_iff.mp hmV)
    rw [hml] at hx
    exact fun x hm => listWFb_mem (pvalWFb_vlist hx) hm
  have hcuA : m₁.client_user = t₃.client_user := by rw [hsA]
  have husersA : m₁.users = t₃.users := by rw [hsA]
  have hentA : m₁.entities = t₃.entities := by rw [hsA]
  have hhousesA : m₁.houses = t₃.houses := by rw [hsA]
  have hrhA : m₁.rooms_house = partMergeList t₃.rooms_house wsR := by rw [hsA]
  obtain ⟨fs, wsU, hfs, hwsU, hsB, hrepM⟩ :=
    houseMembersLoop_writes id_ members m₁ sB members2 hmloop hwfmembers
      (by rw [hcuA]; exact hncu) (by rw [husersA]; exact hU)
  rw [bind_ok_iff] at h
  obtain ⟨e₀, entsV, heV, h⟩ := h
  rw [liftE_ok_iff] at heV
  obtain ⟨rfl, heV⟩ := heV
  rw [bind_ok_iff] at h
  obtain ⟨e₁, ents, helE, h⟩ := h
  rw [liftE_ok_iff] at helE
  obtain ⟨rfl, helE⟩ := helE
  rw [asListE_ok_iff] at helE
  rw [bind_ok_iff] at h
  obtain ⟨sC, ents2, heloop, h⟩ := h
  have hwfents : ∀ x ∈ ents, pvalWFb x = true := by
    have hx := dictWFb_aget hWp (pyIndex_ok_iff.mp heV)
    rw [helE] at hx
    exact fun x hm => listWFb_mem (pvalWFb_vlist hx) hm
  obtain ⟨wsE, hwsE, hsC, hrepE⟩ :=
    houseEntitiesLoop_writes id_ ents e₁ sC ents2 heloop hwfents
  rw [bind_ok_iff] at h
  obtain ⟨f₀, data2, hfmt, h⟩ := h
  rw [liftE_ok_iff] at hfmt
  obtain ⟨rfl, hfmt⟩ := hfmt
  rw [bind_ok_iff] at h
  obtain ⟨g₀, sv, hgs, h⟩ := h
  rw [getStore_ok_iff] at hgs
  obtain ⟨rfl, rfl⟩ := hgs
  rw [bind_ok_iff] at h
  obtain ⟨g₁, cid, hcid, h⟩ := h
  rw [liftE_ok_iff] at hcid
  obtain ⟨rfl, hcid⟩ := hcid
  rw [bind_ok_iff] at h
  obtain ⟨g₂, membersD, hmdD, h⟩ := h
  rw [liftE_ok_iff] at hmdD
  obtain ⟨rfl, hmdD⟩ := hmdD
  rw [bind_ok_iff] at h
  obtain ⟨g₃, cm, hcm, h⟩ := h
  rw [liftE_ok_iff] at hcm
  obtain ⟨rfl, hcm⟩ := hcm
  rw [bind_ok_iff] at h
  obtain ⟨g₄, u2, hmod, h⟩ := h
  rw [modStore_ok_iff] at hmod
  rw [pure_ok_iff] at h
  obtain ⟨rfl, hrd⟩ := h
  -- the merged house record has distinct keys
  have hnd3 : NodupKey (aset data2 "client_member" cm) := by
    apply nodupKey_aset
    obtain ⟨mr, mm, me, mri, mei, mdict, -, -, -, -, -, -, hd2⟩ :=
      house_format_ok_inv hfmt
    rw [hd2]
    apply nodupKey_aset
    apply nodupKey_aset
    apply nodupKey_aset
    apply nodupKey_aset
    apply nodupKey_aset
    apply nodupKey_aset
    exact hnp
  -- component views of the final store
  have hS1cu : s₁.client_user = aupdateList m₁.client_user fs := by
    rw [hmod, hsC, hsB]
  have hS1users : s₁.users = partMergeList t₃.users wsU := by
    rw [hmod, hsC, hsB, husersA]
  have hS1rh : s₁.rooms_house = partMergeList t₃.rooms_house wsR := by
    rw [hmod, hsC, hsB, hrhA]
  have hS1ent : s₁.entities = partMergeList t₃.entities wsE := by
    rw [hmod, hsC, hsB, hentA]
  have hS1h : s₁.houses = partMerge t₃.houses id_ (aset data2 "client_member" cm) := by
    rw [hmod, hsC, hsB, hhousesA]
  have hS1cu2 : s₁.client_user = g₃.client_user := by rw [hmod]
  -- the second run starts from an initialised store with the same client id
  have hcu₁ : s₁.client_user ≠ [] := by
    rw [hS1cu, hcuA]
    exact aupdateList_ne_nil hcu fs
  have hcid1 : (aget s₁.client_user "id").getD .vnull
      = (aget m₁.client_user "id").getD .vnull := by
    rw [hS1cu]
    exact cuid_preserved rfl hfs
  -- each loop replays as a no-op
  have habsR : partMergeList s₁.rooms_house wsR = s₁.rooms_house := by
    rw [hS1rh]
    exact partMergeList_absorb hRH hwsR
  have hR2 : houseRoomsLoop id_ rooms s₁ = (s₁, .ok rooms2) := by
    rw [hrepR s₁ hcu₁, habsR]
  have habsCU : aupdateList s₁.client_user fs = s₁.client_user := by
    rw [hS1cu]
    exact aupdateList_absorb fs (by rw [hcuA]; exact hncu)
  have habsU : partMergeList s₁.users wsU = s₁.users := by
    rw [hS1users]
    exact partMergeList_absorb hU hwsU
  have hM2 : houseMembersLoop id_ members s₁ = (s₁, .ok members2) := by
    rw [hrepM s₁ hcu₁ hcid1, habsCU, habsU]
  have habsE : partMergeList s₁.entities wsE = s₁.entities := by
    rw [hS1ent]
    exact partMergeList_absorb hE hwsE
  have hE2 : houseEntitiesLoop id_ ents s₁ = (s₁, .ok ents2) := by
    rw [hrepE s₁ hcu₁, habsE]
  -- the id lookup on the client record is unchanged
  have hcid' : pyIndex s₁.client_user "id" = .ok cid := by
    rw [hS1cu2]
    exact hcid
  have habsH : partMerge s₁.houses id_ (aset data2 "client_member" cm)
      = s₁.houses := by
    rw [hS1h]
    exact partMerge_absorb hH hnd3
  -- assemble the second run
  unfold add_or_update_house house_after_rooms
  simp only [bind_apply, check_if_initialised_apply, if_neg hcu₁, tryWrap_apply,
    liftE_apply, hid, hrv, hrl, show asListE (PVal.vlist rooms) = .ok rooms from rfl,
    hR2, hmV, hml, show asListE (PVal.vlist members) = .ok members from rfl,
    hM2, heV, helE, show asListE (PVal.vlist ents) = .ok ents from rfl,
    hE2, hfmt, getStore_apply, hcid', hmdD, hcm, modStore_apply, pure_apply]
  rw [habsH, hrd]

end Hiven

namespace Hiven

/-- Well-formed store: a real Python dict for the client record and
well-formed id-keyed partitions. -/
def StoreWF (s : Store) : Prop :=
  NodupKey s.client_user ∧ PartWF s.users ∧ PartWF s.rooms_house ∧
  PartWF s.rooms_private_single ∧ PartWF s.rooms_private_group ∧
  PartWF s.entities ∧ PartWF s.relationships ∧ PartWF s.houses

/-- C5: idempotent merge — for every well-formed payload `P` and every
well-formed store in which the upsert succeeds, running the same upsert a
second time leaves the whole store (hence every partition) exactly as the
first run left it, with the same returned record; this holds for each of
the six `add_or_update_*` cache upserts. -/
theorem upsert_idempotent {p : Dict} {s s₁ : Store} {r : Dict}
    (hWF : StoreWF s) (hWp : DictWFb p = true) :
    (add_or_update_user p s = (s₁, .ok r) →
      add_or_update_user p s₁ = (s₁, .ok r)) ∧
    (add_or_update_room p s = (s₁, .ok r) →
      add_or_update_room p s₁ = (s₁, .ok r)) ∧
    (add_or_update_entity p s = (s₁, .ok r) →
      add_or_update_entity p s₁ = (s₁, .ok r)) ∧
    (add_or_update_private_room p s = (s₁, .ok r) →
      add_or_update_private_room p s₁ = (s₁, .ok r)) ∧
    (add_or_update_relationship p s = (s₁, .ok r) →
      add_or_update_relationship p s₁ = (s₁, .ok r)) ∧
    (add_or_update_house p s = (s₁, .ok r) →
      add_or_update_house p s₁ = (s₁, .ok r)) := by
  obtain ⟨hncu, hU, hRH, hPS, hPG, hE, hR, hH⟩ := hWF
  have hnp : NodupKey p := dictWFb_nodup hWp
  refine ⟨?_, ?_, ?_, ?_, ?_, ?_⟩
  · intro h
    obtain ⟨-, -, -, -, -, hreplay⟩ :=
      add_or_update_user_replay hnp hncu hU h
    exact hreplay s₁ rfl rfl
  · exact add_or_update_room_idem hRH hnp
  · exact add_or_update_entity_idem hE hnp
  · exact add_or_update_private_room_idem hPS hPG hnp
  · exact add_or_update_relationship_idem hWp hncu hU hR
  · exact add_or_update_house_idem hWp hncu hU hRH hE hH

def c5Store : Store :=
  { default_store false with client_user := [("id", PVal.vstr "1")] }

def c5Payload : Dict := [("id", .vstr "R1"), ("house_id", .vstr "H1")]

def c5Store1 : Store := { c5Store with rooms_house := [(.vstr "R1", c5Payload)] }

theorem upsert_idempotent_witness :
    StoreWF c5Store ∧ DictWFb c5Payload = true ∧
    add_or_update_room c5Payload c5Store = (c5Store1, .ok c5Payload) ∧
    add_or_update_room c5Payload c5Store1 = (c5Store1, .ok c5Payload) := by
  refine ⟨?_, by decide, by rfl, ?_⟩
  · unfold StoreWF PartWF
    decide
  · exact (@upsert_idempotent c5Payload c5Store c5Store1 c5Payload
      (by unfold StoreWF PartWF; decide) (by decide)).2.1 (by rfl)

end Hiven

namespace Hiven

/-!
## A heap model of the cache

`cache.py` works with Python objects that alias: each upsert deep-copies
its payload (`data = deepcopy(item_data)`), normalizes the copy in place,
and then either binds a partition key to the fresh record object
(`part[id_] = data`) or merges the fresh record's entries into the stored
record object (`part[id_].update(data)`); `update_client_user` merges
into the long-lived `client_user` object. `HivenClient.find_*` returns
`dict(raw_data)` — a new top-level dict sharing the stored record's value
objects. The flat `Store` cannot express this aliasing, so here objects
live in an explicit heap: a cell holds one Python object, and lists and
dicts hold references to cells.
-/

/-- A heap cell: one Python object; containers hold references. -/
inductive HObj where
  | hnull
  | hbool (b : Bool)
  | hint (n : Int)
  | hstr (s : String)
  | hlist (xs : List Nat)
  | hdict (fs : List (String × Nat))
deriving Repr, DecidableEq

/-- The heap: cell `c` is the object at index `c`; allocation appends. -/
def Heap := List HObj

instance : DecidableEq Heap := by unfold Heap; infer_instance

def hget (h : Heap) (c : Nat) : Option HObj := List.get? h c

def hlen (h : Heap) : Nat := List.length h

def halloc (h : Heap) (o : HObj) : Heap × Nat := (List.append h [o], hlen h)

def hset (h : Heap) (c : Nat) (o : HObj) : Heap := List.set h c o

/-- The references a cell's object holds directly. -/
def childRefs : Option HObj → List Nat
  | some (.hlist xs) => xs
  | some (.hdict fs) => fs.map Prod.snd
  | _ => []

/-- Deep read of the object graph at `c` as a plain value — the value
`copy.deepcopy` reproduces; `none` on a dangling reference or when the
fuel runs out (a cycle). -/
def readVal (h : Heap) : Nat → Nat → Option PVal
  | 0, _ => none
  | fuel+1, c =>
    match hget h c with
    | none => none
    | some .hnull => some .vnull
    | some (.hbool b) => some (.vbool b)
    | some (.hint n) => some (.vint n)
    | some (.hstr s) => some (.vstr s)
    | some (.hlist xs) => (xs.mapM (readVal h fuel)).map PVal.vlist
    | some (.hdict fs) =>
      (fs.mapM (fun kv => (readVal h fuel kv.2).map (fun v => (kv.1, v)))).map
        PVal.vdict

mutual
/-- Deep allocation of a plain value into fresh cells — the heap effect
of `copy.deepcopy` (and of building a fresh normalized record). -/
def allocVal : Heap → PVal → Heap × Nat
  | h, .vnull => halloc h .hnull
  | h, .vbool b => halloc h (.hbool b)
  | h, .vint n => halloc h (.hint n)
  | h, .vstr s => halloc h (.hstr s)
  | h, .vlist xs =>
    let p := allocList h xs
    halloc p.1 (.hlist p.2)
  | h, .vdict fs =>
    let p := allocFields h fs
    halloc p.1 (.hdict p.2)

def allocList : Heap → List PVal → Heap × List Nat
  | h, [] => (h, [])
  | h, v :: vs =>
    let p := allocVal h v
    let q := allocList p.1 vs
    (q.1, p.2 :: q.2)

def allocFields : Heap → List (String × PVal) → Heap × List (String × Nat)
  | h, [] => (h, [])
  | h, kv :: fs =>
    let p := allocVal h kv.2
    let q := allocFields p.1 fs
    (q.1, (kv.1, p.2) :: q.2)
end

end Hiven

namespace Hiven

theorem hget_append {h ext : Heap} {c : Nat} (hc : c < hlen h) :
    hget (List.append h ext) c = hget h c := by
  unfold hget
  exact List.get?_append hc

theorem hget_append_len {h : Heap} {o : HObj} :
    hget (List.append h [o]) (hlen h) = some o := by
  unfold hget hlen
  simp only [List.append_eq]
  rw [List.get?_append_right (Nat.le_refl _)]
  simp

theorem hget_none_of_ge {h : Heap} {c : Nat} (hc : hlen h ≤ c) :
    hget h c = none := by
  unfold hget
  exact List.get?_eq_none.mpr hc

theorem hget_lt_of_some {h : Heap} {c : Nat} {o : HObj}
    (hc : hget h c = some o) : c < hlen h := by
  by_contra hlt
  rw [hget_none_of_ge (Nat.le_of_not_lt hlt)] at hc
  cases hc

theorem hlen_append (h ext : Heap) :
    hlen (List.append h ext) = hlen h + hlen ext := by
  unfold hlen
  exact List.length_append h ext

theorem hget_set_ne {h : Heap} {t c : Nat} {o : HObj} (hne : c ≠ t) :
    hget (hset h t o) c = hget h c := by
  unfold hget hset
  rw [List.get?_set_ne _ _ (fun hc => hne hc.symm)]

theorem hlen_set (h : Heap) (t : Nat) (o : HObj) :
    hlen (hset h t o) = hlen h := by
  unfold hlen hset
  exact List.length_set h t o

mutual
theorem allocVal_spec (h : Heap) (v : PVal) :
    (∃ ext, (allocVal h v).1 = List.append h ext) ∧
    hlen h ≤ (allocVal h v).2 ∧ (allocVal h v).2 < hlen (allocVal h v).1 ∧
    (∀ c o, hlen h ≤ c → hget (allocVal h v).1 c = some o →
      ∀ f ∈ childRefs (some o), hlen h ≤ f ∧ f < hlen (allocVal h v).1) := by
  cases v with
  | vnull =>
    refine ⟨⟨[.hnull], rfl⟩, Nat.le_refl _, ?_, ?_⟩
    · rw [show (allocVal h .vnull).1 = List.append h [.hnull] from rfl,
        hlen_append]
      exact Nat.lt_succ_self _
    · intro c o hc ho f hf
      rcases Nat.lt_or_ge c (hlen h) with hlt | hge
      · exact absurd hc (Nat.not_le_of_lt hlt)
      · rcases Nat.eq_or_lt_of_le hge with he | hgt
        · rw [show (allocVal h .vnull).1 = List.append h [.hnull] from rfl,
            ← he, hget_append_len] at ho
          cases ho
          cases hf
        · rw [show (allocVal h .vnull).1 = List.append h [.hnull] from rfl,
            hget_none_of_ge (by rw [hlen_append]; exact hgt)] at ho
          cases ho
  | vbool b =>
    refine ⟨⟨[.hbool b], rfl⟩, Nat.le_refl _, ?_, ?_⟩
    · rw [show (allocVal h (.vbool b)).1 = List.append h [.hbool b] from rfl,
        hlen_append]
      exact Nat.lt_succ_self _
    · intro c o hc ho f hf
      rcases Nat.eq_or_lt_of_le hc with he | hgt
      · rw [show (allocVal h (.vbool b)).1 = List.append h [.hbool b] from rfl,
          ← he, hget_append_len] at ho
        cases ho
        cases hf
      · rw [show (allocVal h (.vbool b)).1 = List.append h [.hbool b] from rfl,
          hget_none_of_ge (by rw [hlen_append]; exact hgt)] at ho
        cases ho
  | vint n =>
    refine ⟨⟨[.hint n], rfl⟩, Nat.le_refl _, ?_, ?_⟩
    · rw [show (allocVal h (.vint n)).1 = List.append h [.hint n] from rfl,
        hlen_append]
      exact Nat.lt_succ_self _
    · intro c o hc ho f hf
      rcases Nat.eq_or_lt_of_le hc with he | hgt
      · rw [show (allocVal h (.vint n)).1 = List.append h [.hint n] from rfl,
          ← he, hget_append_len] at ho
        cases ho
        cases hf
      · rw [show (allocVal h (.vint n)).1 = List.append h [.hint n] from rfl,
          hget_none_of_ge (by rw [hlen_append]; exact hgt)] at ho
        cases ho
  | vstr s =>
    refine ⟨⟨[.hstr s], rfl⟩, Nat.le_refl _, ?_, ?_⟩
    · rw [show (allocVal h (.vstr s)).1 = List.append h [.hstr s] from rfl,
        hlen_append]
      exact Nat.lt_succ_self _
    · intro c o hc ho f hf
      rcases Nat.eq_or_lt_of_le hc with he | hgt
      · rw [show (allocVal h (.vstr s)).1 = List.append h [.hstr s] from rfl,
          ← he, hget_append_len] at ho
        cases ho
        cases hf
      · rw [show (allocVal h (.vstr s)).1 = List.append h [.hstr s] from rfl,
          hget_none_of_ge (by rw [hlen_append]; exact hgt)] at ho
        cases ho
  | vlist xs =>
    obtain ⟨⟨ext₁, hext₁⟩, hroots, hclosed⟩ := allocList_spec h xs
    refine ⟨⟨ext₁ ++ [.hlist (allocList h xs).2], by
      rw [show (allocVal h (.vlist xs)).1
        = List.append (allocList h xs).1 [.hlist (allocList h xs).2] from rfl,
        hext₁]
      simp only [List.append_eq]
      rw [List.append_assoc]⟩, ?_, ?_, ?_⟩
    · rw [show (allocVal h (.vlist xs)).2 = hlen (allocList h xs).1 from rfl,
        hext₁, hlen_append]
      exact Nat.le_add_right _ _
    · rw [show (allocVal h (.vlist xs)).2 = hlen (allocList h xs).1 from rfl,
        show (allocVal h (.vlist xs)).1
          = List.append (allocList h xs).1 [.hlist (allocList h xs).2] from rfl,
        hlen_append]
      exact Nat.lt_succ_self _
    · intro c o hc ho f hf
      rw [show (allocVal h (.vlist xs)).1
        = List.append (allocList h xs).1 [.hlist (allocList h xs).2] from rfl] at ho
      have hlenle : hlen h ≤ hlen (allocList h xs).1 := by
        rw [hext₁, hlen_append]; exact Nat.le_add_right _ _
      rcases Nat.lt_or_ge c (hlen (allocList h xs).1) with hlt | hge
      · rw [hget_append hlt] at ho
        obtain ⟨hfl, hfr⟩ := hclosed c o hc ho f hf
        refine ⟨hfl, ?_⟩
        rw [show (allocVal h (.vlist xs)).1
          = List.append (allocList h xs).1 [.hlist (allocList h xs).2] from rfl,
          hlen_append]
        exact Nat.lt_of_lt_of_le hfr (Nat.le_add_right _ _)
      · rcases Nat.eq_or_lt_of_le hge with he | hgt
        · rw [← he, hget_append_len] at ho
          cases ho
          have := hroots f (by
            rw [show childRefs (some (.hlist (allocList h xs).2))
              = (allocList h xs).2 from rfl] at hf
            exact hf)
          refine ⟨this.1, ?_⟩
          rw [show (allocVal h (.vlist xs)).1
            = List.append (allocList h xs).1 [.hlist (allocList h xs).2] from rfl,
            hlen_append]
          exact Nat.lt_of_lt_of_le this.2 (Nat.le_add_right _ _)
        · rw [hget_none_of_ge (by rw [hlen_append]; exact hgt)] at ho
          cases ho
  | vdict fs =>
    obtain ⟨⟨ext₁, hext₁⟩, hroots, hclosed⟩ := allocFields_spec h fs
    refine ⟨⟨ext₁ ++ [.hdict (allocFields h fs).2], by
      rw [show (allocVal h (.vdict fs)).1
        = List.append (allocFields h fs).1 [.hdict (allocFields h fs).2] from rfl,
        hext₁]
      simp only [List.append_eq]
      rw [List.append_assoc]⟩, ?_, ?_, ?_⟩
    · rw [show (allocVal h (.vdict fs)).2 = hlen (allocFields h fs).1 from rfl,
        hext₁, hlen_append]
      exact Nat.le_add_right _ _
    · rw [show (allocVal h (.vdict fs)).2 = hlen (allocFields h fs).1 from rfl,
        show (allocVal h (.vdict fs)).1
          = List.append (allocFields h fs).1 [.hdict (allocFields h fs).2] from rfl,
        hlen_append]
      exact Nat.lt_succ_self _
    · intro c o hc ho f hf
      rw [show (allocVal h (.vdict fs)).1
        = List.append (allocFields h fs).1 [.hdict (allocFields h fs).2] from rfl] at ho
      rcases Nat.lt_or_ge c (hlen (allocFields h fs).1) with hlt | hge
      · rw [hget_append hlt] at ho
        obtain ⟨hfl, hfr⟩ := hclosed c o hc ho f hf
        refine ⟨hfl, ?_⟩
        rw [show (allocVal h (.vdict fs)).1
          = List.append (allocFields h fs).1 [.hdict (allocFields h fs).2] from rfl,
          hlen_append]
        exact Nat.lt_of_lt_of_le hfr (Nat.le_add_right _ _)
      · rcases Nat.eq_or_lt_of_le hge with he | hgt
        · rw [← he, hget_append_len] at ho
          cases ho
          have hf' : f ∈ ((allocFields h fs).2.map Prod.snd) := hf
          rw [List.mem_map] at hf'
          obtain ⟨kv, hkv, hkvf⟩ := hf'
          have := hroots kv hkv
          rw [hkvf] at this
          refine ⟨this.1, ?_⟩
          rw [show (allocVal h (.vdict fs)).1
            = List.append (allocFields h fs).1 [.hdict (allocFields h fs).2] from rfl,
            hlen_append]
          exact Nat.lt_of_lt_of_le this.2 (Nat.le_add_right _ _)
        · rw [hget_none_of_ge (by rw [hlen_append]; exact hgt)] at ho
          cases ho

theorem allocList_spec (h : Heap) (xs : List PVal) :
    (∃ ext, (allocList h xs).1 = List.append h ext) ∧
    (∀ r ∈ (allocList h xs).2, hlen h ≤ r ∧ r < hlen (allocList h xs).1) ∧
    (∀ c o, hlen h ≤ c → hget (allocList h xs).1 c = some o →
      ∀ f ∈ childRefs (some o), hlen h ≤ f ∧ f < hlen (allocList h xs).1) := by
  cases xs with
  | nil =>
    refine ⟨⟨[], by rw [show (allocList h []).1 = h from rfl]; simp⟩, ?_, ?_⟩
    · intro r hr; cases hr
    · intro c o hc ho f hf
      rw [show (allocList h []).1 = h from rfl, hget_none_of_ge hc] at ho
      cases ho
  | cons v vs =>
    obtain ⟨⟨ext₁, hext₁⟩, hle₁, hlt₁, hclosed₁⟩ := allocVal_spec h v
    obtain ⟨⟨ext₂, hext₂⟩, hroots₂, hclosed₂⟩ := allocList_spec (allocVal h v).1 vs
    have heq1 : (allocList h (v :: vs)).1 = (allocList (allocVal h v).1 vs).1 := rfl
    have heq2 : (allocList h (v :: vs)).2
      = (allocVal h v).2 :: (allocList (allocVal h v).1 vs).2 := rfl
    have hlen1 : hlen h ≤ hlen (allocVal h v).1 := by
      rw [hext₁, hlen_append]; exact Nat.le_add_right _ _
    have hlen2 : hlen (allocVal h v).1 ≤ hlen (allocList (allocVal h v).1 vs).1 := by
      rw [hext₂, hlen_append]; exact Nat.le_add_right _ _
    refine ⟨⟨ext₁ ++ ext₂, by
      rw [heq1, hext₂, hext₁]
      simp only [List.append_eq]
      rw [List.append_assoc]⟩, ?_, ?_⟩
    · intro r hr
      rw [heq2] at hr
      rcases List.mem_cons.mp hr with hr | hr
      · rw [hr]
        exact ⟨hle₁, Nat.lt_of_lt_of_le (Nat.lt_of_lt_of_le hlt₁ hlen2) (by rw [heq1])⟩
      · obtain ⟨ha, hb⟩ := hroots₂ r hr
        exact ⟨Nat.le_trans hlen1 ha, by rw [heq1]; exact hb⟩
    · intro c o hc ho f hf
      rw [heq1] at ho
      rcases Nat.lt_or_ge c (hlen (allocVal h v).1) with hlt | hge
      · rw [hext₂, hget_append hlt] at ho
        obtain ⟨ha, hb⟩ := hclosed₁ c o hc ho f hf
        exact ⟨ha, by rw [heq1]; exact Nat.lt_of_lt_of_le hb hlen2⟩
      · obtain ⟨ha, hb⟩ := hclosed₂ c o hge ho f hf
        exact ⟨Nat.le_trans hlen1 ha, by rw [heq1]; exact hb⟩

theorem allocFields_spec (h : Heap) (fs : List (String × PVal)) :
    (∃ ext, (allocFields h fs).1 = List.append h ext) ∧
    (∀ kv ∈ (allocFields h fs).2, hlen h ≤ kv.2 ∧ kv.2 < hlen (allocFields h fs).1) ∧
    (∀ c o, hlen h ≤ c → hget (allocFields h fs).1 c = some o →
      ∀ f ∈ childRefs (some o), hlen h ≤ f ∧ f < hlen (allocFields h fs).1) := by
  cases fs with
  | nil =>
    refine ⟨⟨[], by rw [show (allocFields h []).1 = h from rfl]; simp⟩, ?_, ?_⟩
    · intro r hr; cases hr
    · intro c o hc ho f hf
      rw [show (allocFields h []).1 = h from rfl, hget_none_of_ge hc] at ho
      cases ho
  | cons kv fs' =>
    obtain ⟨⟨ext₁, hext₁⟩, hle₁, hlt₁, hclosed₁⟩ := allocVal_spec h kv.2
    obtain ⟨⟨ext₂, hext₂⟩, hroots₂, hclosed₂⟩ :=
      allocFields_spec (allocVal h kv.2).1 fs'
    have heq1 : (allocFields h (kv :: fs')).1
      = (allocFields (allocVal h kv.2).1 fs').1 := rfl
    have heq2 : (allocFields h (kv :: fs')).2
      = (kv.1, (allocVal h kv.2).2) :: (allocFields (allocVal h kv.2).1 fs').2 := rfl
    have hlen1 : hlen h ≤ hlen (allocVal h kv.2).1 := by
      rw [hext₁, hlen_append]; exact Nat.le_add_right _ _
    have hlen2 : hlen (allocVal h kv.2).1
        ≤ hlen (allocFields (allocVal h kv.2).1 fs').1 := by
      rw [hext₂, hlen_append]; exact Nat.le_add_right _ _
    refine ⟨⟨ext₁ ++ ext₂, by
      rw [heq1, hext₂, hext₁]
      simp only [List.append_eq]
      rw [List.append_assoc]⟩, ?_, ?_⟩
    · intro r hr
      rw [heq2] at hr
      rcases List.mem_cons.mp hr with hr | hr
      · rw [hr]
        exact ⟨hle₁, by rw [heq1]; exact Nat.lt_of_lt_of_le hlt₁ hlen2⟩
      · obtain ⟨ha, hb⟩ := hroots₂ r hr
        exact ⟨Nat.le_trans hlen1 ha, by rw [heq1]; exact hb⟩
    · intro c o hc ho f hf
      rw [heq1] at ho
      rcases Nat.lt_or_ge c (hlen (allocVal h kv.2).1) with hlt | hge
      · rw [hext₂, hget_append hlt] at ho
        obtain ⟨ha, hb⟩ := hclosed₁ c o hc ho f hf
        exact ⟨ha, by rw [heq1]; exact Nat.lt_of_lt_of_le hb hlen2⟩
      · obtain ⟨ha, hb⟩ := hclosed₂ c o hge ho f hf
        exact ⟨Nat.le_trans hlen1 ha, by rw [heq1]; exact hb⟩
end

end Hiven

namespace Hiven

/-- Reachability in the object graph: the cells a deep read of `a` can
touch. -/
inductive Reach (h : Heap) : Nat → Nat → Prop
  | refl (c : Nat) : Reach h c c
  | step {a b c : Nat} : Reach h a b → c ∈ childRefs (hget h b) → Reach h a c

theorem reach_trans {h : Heap} {a b c : Nat}
    (h₁ : Reach h a b) (h₂ : Reach h b c) : Reach h a c := by
  induction h₂ with
  | refl => exact h₁
  | step hr hc ih => exact Reach.step ih hc

/-- All cells reachable from `c` avoid the protected set `T` and live in
the heap. -/
def ROK (h : Heap) (T : List Nat) (c : Nat) : Prop :=
  ∀ c', Reach h c c' → c' ∉ T ∧ c' < hlen h

theorem rok_child {h : Heap} {T : List Nat} {c f : Nat}
    (hr : ROK h T c) (hf : f ∈ childRefs (hget h c)) : ROK h T f :=
  fun c' hc' => hr c' (reach_trans (Reach.step (Reach.refl c) hf) hc')

theorem list_mapM_option_congr {α β : Type} {f g : α → Option β} :
    ∀ {xs : List α}, (∀ x ∈ xs, f x = g x) → xs.mapM f = xs.mapM g := by
  intro xs
  induction xs with
  | nil => intro _; rfl
  | cons x t ih =>
    intro hfg
    rw [List.mapM_cons, List.mapM_cons,
      hfg x (List.mem_cons_self x t),
      ih (fun y hy => hfg y (List.mem_cons_of_mem x hy))]

/-- A deep read only touches cells reachable from its root: if a heap
change spares every unprotected live cell and the root's reachable cells
are unprotected, the read is unchanged. -/
theorem readVal_stable {h h' : Heap} {T : List Nat}
    (hpres : ∀ c, c < hlen h → c ∉ T → hget h' c = hget h c) :
    ∀ fuel c, ROK h T c → readVal h' fuel c = readVal h fuel c := by
  intro fuel
  induction fuel with
  | zero => intro c _; rfl
  | succ n ih =>
    intro c hc
    obtain ⟨hcT, hclt⟩ := hc c (Reach.refl c)
    show readVal h' (n+1) c = readVal h (n+1) c
    unfold readVal
    rw [hpres c hclt hcT]
    cases hobj : hget h c with
    | none => rfl
    | some o =>
      cases o with
      | hnull => rfl
      | hbool b => rfl
      | hint n2 => rfl
      | hstr s2 => rfl
      | hlist xs =>
        have hch : ∀ x ∈ xs, readVal h' n x = readVal h n x := by
          intro x hx
          apply ih
          apply rok_child hc
          rw [hobj]
          exact hx
        simp only []
        rw [list_mapM_option_congr hch]
      | hdict fs =>
        have hch : ∀ kv ∈ fs, (readVal h' n kv.2).map (fun v => (kv.1, v))
            = (readVal h n kv.2).map (fun v => (kv.1, v)) := by
          intro kv hkv
          have : readVal h' n kv.2 = readVal h n kv.2 := by
            apply ih
            apply rok_child hc
            rw [hobj]
            exact List.mem_map_of_mem Prod.snd hkv
          rw [this]
        simp only []
        rw [list_mapM_option_congr hch]

end Hiven

namespace Hiven

/-- The cache storage, heap view: each partition maps an id value to the
reference of the stored record object; the `client_user` record and the
four primary-data slots are single references. -/
structure HStore where
  client_user : Nat
  users : List (PVal × Nat)
  rooms_private_single : List (PVal × Nat)
  rooms_private_group : List (PVal × Nat)
  rooms_house : List (PVal × Nat)
  entities : List (PVal × Nat)
  relationships : List (PVal × Nat)
  houses : List (PVal × Nat)
  house_memberships : Nat
  house_ids : Nat
  settings : Nat
  read_state : Nat
deriving Repr, DecidableEq

/-- The store's top-level object references: the cells the cache mutates
in place (`.update`) or rebinds; everything deeper is never written. -/
def topsOf (s : HStore) : List Nat :=
  s.client_user :: s.house_memberships :: s.house_ids :: s.settings ::
  s.read_state ::
  ((s.users ++ s.rooms_private_single ++ s.rooms_private_group ++
    s.rooms_house ++ s.entities ++ s.relationships ++ s.houses).map Prod.snd)

/-- Heap-and-store state of a cache call. -/
def HSt := Heap × HStore

/-- The heap cache monad: state plus Python exceptions; mutations made
before a raise persist. -/
def HM (α : Type) : Type := HSt → HSt × Except Exc α

instance : Monad HM where
  pure a := fun st => (st, .ok a)
  bind m k := fun st =>
    match m st with
    | (st', .ok a) => k a st'
    | (st', .error e) => (st', .error e)

def hmThrow {α : Type} (e : Exc) : HM α := fun st => (st, .error e)

def hmLiftE {α : Type} (x : Except Exc α) : HM α := fun st => (st, x)

/-- `except Exception as e: raise InitializationError(...) from e`. -/
def hmTryWrap {α : Type} (m : HM α) : HM α := fun st =>
  match m st with
  | (st', .ok a) => (st', .ok a)
  | (st', .error e) => (st', .error (.cacheUpdateFailed e))

@[simp] theorem hm_bind_apply {α β : Type} (m : HM α) (k : α → HM β) (st : HSt) :
    (m >>= k) st = match m st with
      | (st', .ok a) => k a st'
      | (st', .error e) => (st', .error e) := rfl

@[simp] theorem hm_pure_apply {α : Type} (a : α) (st : HSt) :
    (Pure.pure a : HM α) st = (st, .ok a) := rfl

@[simp] theorem hmThrow_apply {α : Type} (e : Exc) (st : HSt) :
    (hmThrow e : HM α) st = (st, .error e) := rfl

@[simp] theorem hmLiftE_apply {α : Type} (x : Except Exc α) (st : HSt) :
    hmLiftE x st = (st, x) := rfl

@[simp] theorem hmTryWrap_apply {α : Type} (m : HM α) (st : HSt) :
    hmTryWrap m st = match m st with
      | (st', .ok a) => (st', .ok a)
      | (st', .error e) => (st', .error (.cacheUpdateFailed e)) := rfl

/-- `if self.get('client_user')` — truthiness of the client_user object. -/
def hInitialised (st : HSt) : Bool :=
  match hget st.1 st.2.client_user with
  | some (.hdict fs) => decide (fs ≠ [])
  | some .hnull => false
  | some (.hbool b) => b
  | some (.hint n) => decide (n ≠ 0)
  | some (.hstr s) => decide (s ≠ "")
  | some (.hlist xs) => decide (xs ≠ [])
  | none => false

/-- `ClientCache.check_if_initialised` over the heap state. -/
def hCheckInit : HM Unit := fun st =>
  if hInitialised st then (st, .ok ()) else (st, .error notInitialisedExc)

/-- The deep read `copy.deepcopy(item_data)` performs on the payload
reference; raises `TypeError` on an unreadable object graph. -/
def hReadDict (q : Nat) : HM Dict := fun st =>
  match readVal st.1 (hlen st.1) q with
  | some (.vdict d) => (st, .ok d)
  | _ => (st, .error (.typeError "payload is not a dict"))

/-- Allocate a fresh record object for a normalized value — the heap
footprint of the deep copy the normalizers then work on. -/
def hAllocDict (d : Dict) : HM Nat := fun st =>
  let p := allocVal st.1 (.vdict d)
  ((p.1, st.2), .ok p.2)

/-- The value of `self['client_user'].get('id')`. -/
def hClientIdVal (st : HSt) : PVal :=
  match hget st.1 st.2.client_user with
  | some (.hdict fs) =>
    match aget fs "id" with
    | some rc => (readVal st.1 (hlen st.1) rc).getD .vnull
    | none => .vnull
  | _ => .vnull

end Hiven

namespace Hiven

/-- The seven id-keyed partitions of the cache. -/
inductive PartKey where
  | users | rooms_private_single | rooms_private_group | rooms_house
  | entities | relationships | houses
deriving Repr, DecidableEq

def getHPart : PartKey → HStore → List (PVal × Nat)
  | .users, s => s.users
  | .rooms_private_single, s => s.rooms_private_single
  | .rooms_private_group, s => s.rooms_private_group
  | .rooms_house, s => s.rooms_house
  | .entities, s => s.entities
  | .relationships, s => s.relationships
  | .houses, s => s.houses

def setHPart : PartKey → HStore → List (PVal × Nat) → HStore
  | .users, s, P => { s with users := P }
  | .rooms_private_single, s, P => { s with rooms_private_single := P }
  | .rooms_private_group, s, P => { s with rooms_private_group := P }
  | .rooms_house, s, P => { s with rooms_house := P }
  | .entities, s, P => { s with entities := P }
  | .relationships, s, P => { s with relationships := P }
  | .houses, s, P => { s with houses := P }

theorem mem_topsOf_of_part {k : PartKey} {s : HStore} {t : Nat}
    (ht : t ∈ (getHPart k s).map Prod.snd) : t ∈ topsOf s := by
  unfold topsOf
  cases k <;>
    · unfold getHPart at ht
      simp only [List.mem_cons, List.mem_append, List.mem_map] at ht ⊢
      obtain ⟨kv, hkv, hkvt⟩ := ht
      refine Or.inr (Or.inr (Or.inr (Or.inr (Or.inr ⟨kv, ?_, hkvt⟩))))
      tauto

theorem mem_topsOf_setHPart {k : PartKey} {s : HStore} {P : List (PVal × Nat)}
    {t : Nat} (ht : t ∈ topsOf (setHPart k s P)) :
    t ∈ topsOf s ∨ t ∈ P.map Prod.snd := by
  unfold topsOf at ht ⊢
  cases k <;>
    · unfold setHPart at ht
      simp only [List.map_append, List.mem_append, List.mem_cons] at ht ⊢
      tauto

theorem client_user_mem_topsOf (s : HStore) : s.client_user ∈ topsOf s := by
  unfold topsOf
  exact List.mem_cons_self _ _

/-- Footprint discipline of a cache operation: the heap only grows, no
live cell outside the store's top-level objects is written, and every
top-level object of the final store is either an old one or fresh. -/
def HeapSafe {α : Type} (m : HM α) : Prop :=
  ∀ h s h' s' res, m (h, s) = ((h', s'), res) →
    hlen h ≤ hlen h' ∧
    (∀ c, c < hlen h → c ∉ topsOf s → hget h' c = hget h c) ∧
    (∀ t, t ∈ topsOf s' → t ∈ topsOf s ∨ hlen h ≤ t)

theorem heapSafe_pure {α : Type} (a : α) : HeapSafe (Pure.pure a : HM α) := by
  intro h s h' s' res hrun
  rw [hm_pure_apply] at hrun
  obtain ⟨h1, h2⟩ := Prod.mk.injEq .. ▸ hrun
  obtain ⟨rfl, rfl⟩ := Prod.mk.injEq .. ▸ h1
  exact ⟨Nat.le_refl _, fun c _ _ => rfl, fun t ht => Or.inl ht⟩

theorem heapSafe_throw {α : Type} (e : Exc) : HeapSafe (hmThrow e : HM α) := by
  intro h s h' s' res hrun
  rw [hmThrow_apply] at hrun
  obtain ⟨h1, h2⟩ := Prod.mk.injEq .. ▸ hrun
  obtain ⟨rfl, rfl⟩ := Prod.mk.injEq .. ▸ h1
  exact ⟨Nat.le_refl _, fun c _ _ => rfl, fun t ht => Or.inl ht⟩

theorem heapSafe_liftE {α : Type} (x : Except Exc α) : HeapSafe (hmLiftE x) := by
  intro h s h' s' res hrun
  rw [hmLiftE_apply] at hrun
  obtain ⟨h1, h2⟩ := Prod.mk.injEq .. ▸ hrun
  obtain ⟨rfl, rfl⟩ := Prod.mk.injEq .. ▸ h1
  exact ⟨Nat.le_refl _, fun c _ _ => rfl, fun t ht => Or.inl ht⟩

theorem heapSafe_bind {α β : Type} {m : HM α} {k : α → HM β}
    (hm : HeapSafe m) (hk : ∀ a, HeapSafe (k a)) : HeapSafe (m >>= k) := by
  intro h s h' s' res hrun
  rw [hm_bind_apply] at hrun
  cases hstep : m (h, s) with
  | mk st₁ r₁ =>
    obtain ⟨h₁, s₁⟩ := st₁
    obtain ⟨hg₁, hp₁, ht₁⟩ := hm h s h₁ s₁ r₁ hstep
    cases r₁ with
    | ok a =>
      rw [hstep] at hrun
      obtain ⟨hg₂, hp₂, ht₂⟩ := hk a h₁ s₁ h' s' res hrun
      refine ⟨Nat.le_trans hg₁ hg₂, ?_, ?_⟩
      · intro c hc hcT
        rw [hp₂ c (Nat.lt_of_lt_of_le hc hg₁) (fun hmem => ?_), hp₁ c hc hcT]
        rcases ht₁ c hmem with hx | hx
        · exact hcT hx
        · exact Nat.not_le_of_lt hc hx
      · intro t ht
        rcases ht₂ t ht with hx | hx
        · exact ht₁ t hx
        · exact Or.inr (Nat.le_trans hg₁ hx)
    | error e =>
      rw [hstep] at hrun
      obtain ⟨h1, h2⟩ := Prod.mk.injEq .. ▸ hrun
      obtain ⟨rfl, rfl⟩ := Prod.mk.injEq .. ▸ h1
      exact ⟨hg₁, hp₁, ht₁⟩

theorem heapSafe_tryWrap {α : Type} {m : HM α} (hm : HeapSafe m) :
    HeapSafe (hmTryWrap m) := by
  intro h s h' s' res hrun
  rw [hmTryWrap_apply] at hrun
  cases hstep : m (h, s) with
  | mk st₁ r₁ =>
    obtain ⟨h₁, s₁⟩ := st₁
    obtain ⟨hg₁, hp₁, ht₁⟩ := hm h s h₁ s₁ r₁ hstep
    cases r₁ with
    | ok a =>
      rw [hstep] at hrun
      obtain ⟨h1, h2⟩ := Prod.mk.injEq .. ▸ hrun
      obtain ⟨rfl, rfl⟩ := Prod.mk.injEq .. ▸ h1
      exact ⟨hg₁, hp₁, ht₁⟩
    | error e =>
      rw [hstep] at hrun
      obtain ⟨h1, h2⟩ := Prod.mk.injEq .. ▸ hrun
      obtain ⟨rfl, rfl⟩ := Prod.mk.injEq .. ▸ h1
      exact ⟨hg₁, hp₁, ht₁⟩

theorem heapSafe_checkInit : HeapSafe hCheckInit := by
  intro h s h' s' res hrun
  unfold hCheckInit at hrun
  by_cases hc : hInitialised (h, s) = true
  · rw [if_pos hc] at hrun
    obtain ⟨h1, h2⟩ := Prod.mk.injEq .. ▸ hrun
    obtain ⟨rfl, rfl⟩ := Prod.mk.injEq .. ▸ h1
    exact ⟨Nat.le_refl _, fun c _ _ => rfl, fun t ht => Or.inl ht⟩
  · rw [if_neg hc] at hrun
    obtain ⟨h1, h2⟩ := Prod.mk.injEq .. ▸ hrun
    obtain ⟨rfl, rfl⟩ := Prod.mk.injEq .. ▸ h1
    exact ⟨Nat.le_refl _, fun c _ _ => rfl, fun t ht => Or.inl ht⟩

theorem heapSafe_readDict (q : Nat) : HeapSafe (hReadDict q) := by
  intro h s h' s' res hrun
  unfold hReadDict at hrun
  cases hv : readVal h (hlen h) q with
  | none =>
    rw [show readVal (h, s).1 (hlen (h, s).1) q = readVal h (hlen h) q from rfl,
      hv] at hrun
    obtain ⟨h1, h2⟩ := Prod.mk.injEq .. ▸ hrun
    obtain ⟨rfl, rfl⟩ := Prod.mk.injEq .. ▸ h1
    exact ⟨Nat.le_refl _, fun c _ _ => rfl, fun t ht => Or.inl ht⟩
  | some v =>
    rw [show readVal (h, s).1 (hlen (h, s).1) q = readVal h (hlen h) q from rfl,
      hv] at hrun
    cases v <;>
      · obtain ⟨h1, h2⟩ := Prod.mk.injEq .. ▸ hrun
        obtain ⟨rfl, rfl⟩ := Prod.mk.injEq .. ▸ h1
        exact ⟨Nat.le_refl _, fun c _ _ => rfl, fun t ht => Or.inl ht⟩

end Hiven

namespace Hiven

theorem mem_map_snd_aset {P : List (PVal × Nat)} {k : PVal} {v t : Nat}
    (ht : t ∈ (aset P k v).map Prod.snd) : t = v ∨ t ∈ P.map Prod.snd := by
  rw [List.mem_map] at ht
  obtain ⟨kv, hkv, hkvt⟩ := ht
  rcases mem_aset hkv with h | h
  · rw [h] at hkvt
    exact Or.inl hkvt.symm
  · exact Or.inr (hkvt ▸ List.mem_map_of_mem Prod.snd h)

/-- `if part.get(id_) is None: part[id_] = data else: part[id_].update(data)`
— bind the id to the record object, or merge the record's entries into
the stored object. -/
def hPartPlace (k : PartKey) (id_ : PVal) (r : Nat) : HM Unit := fun st =>
  match aget (getHPart k st.2) id_ with
  | none => ((st.1, setHPart k st.2 (aset (getHPart k st.2) id_ r)), .ok ())
  | some t =>
    match hget st.1 t, hget st.1 r with
    | some (.hdict oldf), some (.hdict newf) =>
      ((hset st.1 t (.hdict (aupdate oldf newf)), st.2), .ok ())
    | _, _ => (st, .error (.attributeError "update"))

/-- `hPartPlace` only writes the stored top object and only adds `r`
as a new top. -/
theorem hPartPlace_spec (k : PartKey) (id_ : PVal) (r : Nat) :
    ∀ h s h' s' res, hPartPlace k id_ r (h, s) = ((h', s'), res) →
    hlen h ≤ hlen h' ∧
    (∀ c, c < hlen h → c ∉ topsOf s → hget h' c = hget h c) ∧
    (∀ t, t ∈ topsOf s' → t ∈ topsOf s ∨ t = r) := by
  intro h s h' s' res hrun
  unfold hPartPlace at hrun
  cases hag : aget (getHPart k s) id_ with
  | none =>
    rw [show aget (getHPart k (h, s).2) id_ = aget (getHPart k s) id_ from rfl,
      hag] at hrun
    simp only [] at hrun
    obtain ⟨h1, h2⟩ := Prod.mk.injEq .. ▸ hrun
    obtain ⟨rfl, rfl⟩ := Prod.mk.injEq .. ▸ h1
    refine ⟨Nat.le_refl _, fun c _ _ => rfl, ?_⟩
    intro t ht
    rcases mem_topsOf_setHPart ht with hx | hx
    · exact Or.inl hx
    · rcases mem_map_snd_aset hx with hy | hy
      · exact Or.inr hy
      · exact Or.inl (mem_topsOf_of_part hy)
  | some t₀ =>
    rw [show aget (getHPart k (h, s).2) id_ = aget (getHPart k s) id_ from rfl,
      hag] at hrun
    simp only [] at hrun
    have ht₀ : t₀ ∈ topsOf s := by
      apply mem_topsOf_of_part
      exact List.mem_map_of_mem Prod.snd (mem_of_aget_eq_some hag)
    cases hgt : hget h t₀ with
    | none =>
      rw [show hget (h, s).1 t₀ = hget h t₀ from rfl, hgt] at hrun
      obtain ⟨h1, h2⟩ := Prod.mk.injEq .. ▸ hrun
      obtain ⟨rfl, rfl⟩ := Prod.mk.injEq .. ▸ h1
      exact ⟨Nat.le_refl _, fun c _ _ => rfl, fun t ht => Or.inl ht⟩
    | some o₁ =>
      rw [show hget (h, s).1 t₀ = hget h t₀ from rfl, hgt] at hrun
      cases hgr : hget h r with
      | none =>
        rw [show hget (h, s).1 r = hget h r from rfl, hgr] at hrun
        cases o₁ <;>
          · obtain ⟨h1, h2⟩ := Prod.mk.injEq .. ▸ hrun
            obtain ⟨rfl, rfl⟩ := Prod.mk.injEq .. ▸ h1
            exact ⟨Nat.le_refl _, fun c _ _ => rfl, fun t ht => Or.inl ht⟩
      | some o₂ =>
        rw [show hget (h, s).1 r = hget h r from rfl, hgr] at hrun
        cases o₁ <;> cases o₂ <;>
        first
        | -- the writing branch: both objects are dicts
          (obtain ⟨h1, h2⟩ := Prod.mk.injEq .. ▸ hrun
           obtain ⟨rfl, rfl⟩ := Prod.mk.injEq .. ▸ h1
           refine ⟨by rw [hlen_set], ?_, fun t ht => Or.inl ht⟩
           intro c hc hcT
           exact hget_set_ne (fun hce => hcT (hce ▸ ht₀)))
        | -- a non-dict object: AttributeError, state unchanged
          (obtain ⟨h1, h2⟩ := Prod.mk.injEq .. ▸ hrun
           obtain ⟨rfl, rfl⟩ := Prod.mk.injEq .. ▸ h1
           exact ⟨Nat.le_refl _, fun c _ _ => rfl, fun t ht => Or.inl ht⟩)

end Hiven

namespace Hiven

theorem heapSafe_allocDict (d : Dict) : HeapSafe (hAllocDict d) := by
  intro h s h' s' res hrun
  unfold hAllocDict at hrun
  obtain ⟨h1, h2⟩ := Prod.mk.injEq .. ▸ hrun
  obtain ⟨rfl, rfl⟩ := Prod.mk.injEq .. ▸ h1
  obtain ⟨⟨ext, hext⟩, -, -, -⟩ := allocVal_spec h (.vdict d)
  refine ⟨?_, ?_, fun t ht => Or.inl ht⟩
  · rw [show (allocVal (h, s).1 (.vdict d)).1 = (allocVal h (.vdict d)).1 from rfl,
      hext, hlen_append]
    exact Nat.le_add_right _ _
  · intro c hc hcT
    rw [show (allocVal (h, s).1 (.vdict d)).1 = (allocVal h (.vdict d)).1 from rfl,
      hext, hget_append hc]

/-- `self['client_user'].update(client_user)` — merge the fresh record's
entries into the long-lived client record object. -/
def hClientUserMerge (r : Nat) : HM Unit := fun st =>
  match hget st.1 st.2.client_user, hget st.1 r with
  | some (.hdict oldf), some (.hdict newf) =>
    ((hset st.1 st.2.client_user (.hdict (aupdate oldf newf)), st.2), .ok ())
  | _, _ => (st, .error (.attributeError "update"))

theorem heapSafe_clientUserMerge (r : Nat) : HeapSafe (hClientUserMerge r) := by
  intro h s h' s' res hrun
  unfold hClientUserMerge at hrun
  cases hgt : hget h s.client_user with
  | none =>
    rw [show hget (h, s).1 (h, s).2.client_user = hget h s.client_user from rfl,
      hgt] at hrun
    obtain ⟨h1, h2⟩ := Prod.mk.injEq .. ▸ hrun
    obtain ⟨rfl, rfl⟩ := Prod.mk.injEq .. ▸ h1
    exact ⟨Nat.le_refl _, fun c _ _ => rfl, fun t ht => Or.inl ht⟩
  | some o₁ =>
    rw [show hget (h, s).1 (h, s).2.client_user = hget h s.client_user from rfl,
      hgt] at hrun
    cases hgr : hget h r with
    | none =>
      rw [show hget (h, s).1 r = hget h r from rfl, hgr] at hrun
      cases o₁ <;>
        · obtain ⟨h1, h2⟩ := Prod.mk.injEq .. ▸ hrun
          obtain ⟨rfl, rfl⟩ := Prod.mk.injEq .. ▸ h1
          exact ⟨Nat.le_refl _, fun c _ _ => rfl, fun t ht => Or.inl ht⟩
    | some o₂ =>
      rw [show hget (h, s).1 r = hget h r from rfl, hgr] at hrun
      cases o₁ <;> cases o₂ <;>
      first
      | (obtain ⟨h1, h2⟩ := Prod.mk.injEq .. ▸ hrun
         obtain ⟨rfl, rfl⟩ := Prod.mk.injEq .. ▸ h1
         refine ⟨by rw [hlen_set], ?_, fun t ht => Or.inl ht⟩
         intro c hc hcT
         exact hget_set_ne
           (fun hce => hcT (hce ▸ client_user_mem_topsOf s)))
      | (obtain ⟨h1, h2⟩ := Prod.mk.injEq .. ▸ hrun
         obtain ⟨rfl, rfl⟩ := Prod.mk.injEq .. ▸ h1
         exact ⟨Nat.le_refl _, fun c _ _ => rfl, fun t ht => Or.inl ht⟩)

/-- Allocate the fresh normalized record and place it in the partition:
the combined heap effect of `part[id_] = data` / `part[id_].update(data)`
for the freshly built `data` object. -/
def hStoreRecord (k : PartKey) (id_ : PVal) (d : Dict) : HM Nat := do
  let r ← hAllocDict d
  let _ ← hPartPlace k id_ r
  Pure.pure r

theorem heapSafe_storeRecord (k : PartKey) (id_ : PVal) (d : Dict) :
    HeapSafe (hStoreRecord k id_ d) := by
  intro h s h' s' res hrun
  unfold hStoreRecord at hrun
  rw [hm_bind_apply] at hrun
  rw [show hAllocDict d (h, s)
    = (((allocVal h (.vdict d)).1, s), .ok (allocVal h (.vdict d)).2) from rfl] at hrun
  simp only [] at hrun
  obtain ⟨⟨ext, hext⟩, hrge, hrlt, -⟩ := allocVal_spec h (.vdict d)
  have hg₁ : hlen h ≤ hlen (allocVal h (.vdict d)).1 := by
    rw [hext, hlen_append]
    exact Nat.le_add_right _ _
  rw [hm_bind_apply] at hrun
  cases hpl : hPartPlace k id_ (allocVal h (.vdict d)).2
      ((allocVal h (.vdict d)).1, s) with
  | mk st₂ r₂ =>
    obtain ⟨h₂, s₂⟩ := st₂
    obtain ⟨hg₂, hp₂, ht₂⟩ :=
      hPartPlace_spec k id_ (allocVal h (.vdict d)).2 _ s h₂ s₂ r₂ hpl
    rw [hpl] at hrun
    cases r₂ with
    | ok u =>
      simp only [] at hrun
      rw [show (pure (allocVal h (.vdict d)).2 : HM Nat) (h₂, s₂)
        = ((h₂, s₂), .ok (allocVal h (.vdict d)).2) from rfl] at hrun
      obtain ⟨h1, h2⟩ := Prod.mk.injEq .. ▸ hrun
      obtain ⟨rfl, rfl⟩ := Prod.mk.injEq .. ▸ h1
      refine ⟨Nat.le_trans hg₁ hg₂, ?_, ?_⟩
      · intro c hc hcT
        rw [hp₂ c (Nat.lt_of_lt_of_le hc hg₁) hcT, hext, hget_append hc]
      · intro t ht
        rcases ht₂ t ht with hx | hx
        · exact Or.inl hx
        · exact Or.inr (hx ▸ hrge)
    | error e =>
      simp only [] at hrun
      obtain ⟨h1, h2⟩ := Prod.mk.injEq .. ▸ hrun
      obtain ⟨rfl, rfl⟩ := Prod.mk.injEq .. ▸ h1
      refine ⟨Nat.le_trans hg₁ hg₂, ?_, ?_⟩
      · intro c hc hcT
        rw [hp₂ c (Nat.lt_of_lt_of_le hc hg₁) hcT, hext, hget_append hc]
      · intro t ht
        rcases ht₂ t ht with hx | hx
        · exact Or.inl hx
        · exact Or.inr (hx ▸ hrge)

end Hiven

namespace Hiven

/-- `self['client_user'].get('id')` compared by value (`==`). -/
def hGetClientIdVal : HM PVal := fun st => (st, .ok (hClientIdVal st))

/-- `self['client_user']['id']` — raising subscription. -/
def hGetClientIdE : HM PVal := fun st =>
  match hget st.1 st.2.client_user with
  | some (.hdict fs) =>
    match aget fs "id" with
    | some rc =>
      match readVal st.1 (hlen st.1) rc with
      | some v => (st, .ok v)
      | none => (st, .error (.typeError "unreadable id"))
    | none => (st, .error (.keyError "id"))
  | _ => (st, .error (.typeError "client_user"))

/-- The four primary-data slots `update_primary_data` rebinds. -/
inductive SlotKey where
  | house_memberships | house_ids | settings | read_state
deriving Repr, DecidableEq

def setSlot : SlotKey → HStore → Nat → HStore
  | .house_memberships, s, r => { s with house_memberships := r }
  | .house_ids, s, r => { s with house_ids := r }
  | .settings, s, r => { s with settings := r }
  | .read_state, s, r => { s with read_state := r }

/-- `self['<slot>'] = data.get('<slot>', <default>)` — the slot is bound
to the (freshly copied) payload sub-object. -/
def hSetSlot (sl : SlotKey) (v : PVal) : HM Unit := fun st =>
  let p := allocVal st.1 v
  ((p.1, setSlot sl st.2 p.2), .ok ())

/-- `ClientCache.update_client_user`, after `data = deepcopy(item_data)`:
normalize, merge into the long-lived client record object, and mirror the
fresh record into the `users` partition. -/
def hupdate_client_user_core (d : Dict) : HM Dict := do
  let client_user ← hmLiftE (User.format_obj_data d)
  let r ← hAllocDict client_user
  let _ ← hClientUserMerge r
  let did ← hmLiftE (pyIndex d "id")
  let _ ← hPartPlace .users did r
  Pure.pure client_user

/-- `ClientCache.add_or_update_user`, after the deep copy. -/
def hadd_or_update_user_core (d : Dict) : HM Dict := do
  hCheckInit
  hmTryWrap (do
    let id_ ← hmLiftE (pyIndex d "id")
    let data ← hmLiftE (User.format_obj_data d)
    let cid ← hGetClientIdVal
    if id_ = cid then
      let _ ← hupdate_client_user_core data
      Pure.pure ()
    else
      Pure.pure ()
    let _ ← hStoreRecord .users id_ data
    Pure.pure data)

/-- `ClientCache.add_or_update_room`, after the deep copy. -/
def hadd_or_update_room_core (d : Dict) : HM Dict := do
  hCheckInit
  hmTryWrap (do
    let id_ ← hmLiftE (pyIndex d "id")
    let data ← hmLiftE (TextRoom.format_obj_data d)
    let _ ← hStoreRecord .rooms_house id_ data
    Pure.pure data)

/-- `ClientCache.add_or_update_entity`, after the deep copy. -/
def hadd_or_update_entity_core (d : Dict) : HM Dict := do
  hCheckInit
  hmTryWrap (do
    let id_ ← hmLiftE (pyIndex d "id")
    let data ← hmLiftE (Entity.format_obj_data d)
    let _ ← hStoreRecord .entities id_ data
    Pure.pure data)

/-- `ClientCache.add_or_update_private_room`, after the deep copy. -/
def hadd_or_update_private_room_core (d : Dict) : HM Dict := do
  hCheckInit
  hmTryWrap (do
    let id_ ← hmLiftE (pyIndex d "id")
    let tv ← hmLiftE (pyIndex d "type")
    match pyInt tv with
    | some 1 => do
      let _ ← hmLiftE (PrivateRoom.format_obj_data d)
      let _ ← hStoreRecord .rooms_private_single id_ d
      Pure.pure ()
    | some 2 => do
      let _ ← hmLiftE (PrivateGroupRoom.format_obj_data d)
      let _ ← hStoreRecord .rooms_private_group id_ d
      Pure.pure ()
    | some _ => hmThrow (.valueError "Data does not contain correct type-id")
    | none => hmThrow (.typeError "int() conversion of the type field failed")
    Pure.pure d)

/-- `ClientCache.add_or_update_relationship`, after the deep copy. -/
def hadd_or_update_relationship_core (d : Dict) : HM Dict := do
  hCheckInit
  hmTryWrap (do
    let id_ ← hmLiftE (pyIndex d "user_id")
    if truthy (aget d "user") then do
      let u ← hmLiftE (asDictE ((aget d "user").getD .vnull))
      let _ ← hadd_or_update_user_core u
      Pure.pure ()
    else
      Pure.pure ()
    let data ← hmLiftE (Relationship.format_obj_data d)
    let _ ← hStoreRecord .relationships id_ data
    Pure.pure data)

/-- The rooms loop of `add_or_update_house` (the inner upsert deep-copies
its sub-object, so it receives the sub-object's value). -/
def hHouseRoomsLoop (id_ : PVal) : List PVal → HM (List PVal)
  | [] => Pure.pure []
  | r :: rest => do
    let rd ← hmLiftE (asDictE r)
    let rd2 := aset rd "house_id" id_
    let room ← hmLiftE (TextRoom.format_obj_data rd2)
    let _ ← hadd_or_update_room_core room
    let tail ← hHouseRoomsLoop id_ rest
    Pure.pure (.vdict rd2 :: tail)

/-- The members loop of `add_or_update_house`. -/
def hHouseMembersLoop (id_ : PVal) : List PVal → HM (List PVal)
  | [] => Pure.pure []
  | m :: rest => do
    let md ← hmLiftE (asDictE m)
    let md2 := aset md "house_id" id_
    let uv ← hmLiftE (pyIndex md2 "user")
    let ud ← hmLiftE (asDictE uv)
    let user ← hmLiftE (User.format_obj_data ud)
    let _ ← hadd_or_update_user_core user
    let tail ← hHouseMembersLoop id_ rest
    Pure.pure (.vdict md2 :: tail)

/-- The entities loop of `add_or_update_house`. -/
def hHouseEntitiesLoop (id_ : PVal) : List PVal → HM (List PVal)
  | [] => Pure.pure []
  | e :: rest => do
    let ed ← hmLiftE (asDictE e)
    let ed2 := aset ed "house_id" id_
    let entity ← hmLiftE (Entity.format_obj_data ed2)
    let _ ← hadd_or_update_entity_core entity
    let tail ← hHouseEntitiesLoop id_ rest
    Pure.pure (.vdict ed2 :: tail)

/-- `ClientCache.add_or_update_house`, after the deep copy. -/
def hadd_or_update_house_core (d : Dict) : HM Dict := do
  hCheckInit
  hmTryWrap (do
    let id_ ← hmLiftE (pyIndex d "id")
    let roomsV ← hmLiftE (pyIndex d "rooms")
    let rooms ← hmLiftE (asListE roomsV)
    let rooms2 ← hHouseRoomsLoop id_ rooms
    let membersV ← hmLiftE (pyIndex d "members")
    let members ← hmLiftE (asListE membersV)
    let members2 ← hHouseMembersLoop id_ members
    let entsV ← hmLiftE (pyIndex d "entities")
    let ents ← hmLiftE (asListE entsV)
    let ents2 ← hHouseEntitiesLoop id_ ents
    let data1 := aset (aset (aset d "rooms" (.vlist rooms2))
      "members" (.vlist members2)) "entities" (.vlist ents2)
    let data2 ← hmLiftE (House.format_obj_data data1)
    let cid ← hGetClientIdE
    let membersD ← hmLiftE (asDictE ((aget data2 "members").getD .vnull))
    let cm ← hmLiftE (match cid with
      | .vstr c => pyIndex membersD c
      | _ => .error (.keyError "client_member"))
    let data3 := aset data2 "client_member" cm
    let _ ← hStoreRecord .houses id_ data3
    Pure.pure data3)

/-- `for r in data.get('private_rooms', []):`. -/
def hPrivateRoomsLoop : List PVal → HM Unit
  | [] => Pure.pure ()
  | r :: rest => do
    let rd ← hmLiftE (asDictE r)
    let _ ← hadd_or_update_private_room_core rd
    hPrivateRoomsLoop rest

/-- `for key, data in data.get('relationships', []).items():`. -/
def hRelationshipsLoop : List PVal → HM Unit
  | [] => Pure.pure ()
  | r :: rest => do
    let rd ← hmLiftE (asDictE r)
    let _ ← hadd_or_update_relationship_core rd
    hRelationshipsLoop rest

/-- `ClientCache.update_primary_data`, after the deep copy; note the
source's `.get('relationships', []).items()` raises `AttributeError`
unless the payload carries a real mapping. -/
def hupdate_primary_data_core (d : Dict) : HM Unit := do
  let _ ← hSetSlot .house_memberships ((aget d "house_memberships").getD (.vdict []))
  let _ ← hSetSlot .house_ids ((aget d "house_ids").getD (.vlist []))
  let _ ← hSetSlot .settings ((aget d "settings").getD (.vdict []))
  let _ ← hSetSlot .read_state ((aget d "read_state").getD (.vdict []))
  let u ← hmLiftE (asDictE ((aget d "user").getD .vnull))
  let _ ← hupdate_client_user_core u
  let prv ← hmLiftE (asListE ((aget d "private_rooms").getD (.vlist [])))
  let _ ← hPrivateRoomsLoop prv
  let _ ← (match aget d "relationships" with
    | some (.vdict rels) => hRelationshipsLoop (rels.map Prod.snd)
    | _ => (hmThrow (.attributeError "items") : HM Unit))
  Pure.pure ()

/-- `data = deepcopy(item_data)` followed by the operation body: the heap
entry points take the caller's payload reference. -/
def hupdate_client_user (q : Nat) : HM Dict := do
  let d ← hReadDict q
  hupdate_client_user_core d

def hadd_or_update_user (q : Nat) : HM Dict := do
  let d ← hReadDict q
  hadd_or_update_user_core d

def hadd_or_update_room (q : Nat) : HM Dict := do
  let d ← hReadDict q
  hadd_or_update_room_core d

def hadd_or_update_entity (q : Nat) : HM Dict := do
  let d ← hReadDict q
  hadd_or_update_entity_core d

def hadd_or_update_private_room (q : Nat) : HM Dict := do
  let d ← hReadDict q
  hadd_or_update_private_room_core d

def hadd_or_update_relationship (q : Nat) : HM Dict := do
  let d ← hReadDict q
  hadd_or_update_relationship_core d

def hadd_or_update_house (q : Nat) : HM Dict := do
  let d ← hReadDict q
  hadd_or_update_house_core d

def hupdate_primary_data (q : Nat) : HM Unit := do
  let d ← hReadDict q
  hupdate_primary_data_core d

/-- `HivenClient.find_*`: look the id up in the partition and return
`dict(raw_data)` — a fresh top-level dict sharing the stored record's
value objects — or `None` when absent or falsy. -/
def hfind (k : PartKey) (id_ : PVal) : HM (Option Nat) := fun st =>
  match aget (getHPart k st.2) id_ with
  | none => (st, .ok none)
  | some t =>
    match hget st.1 t with
    | some (.hdict fl) =>
      if fl = [] then (st, .ok none)
      else
        let p := halloc st.1 (.hdict fl)
        ((p.1, st.2), .ok (some p.2))
    | _ => (st, .error (.typeError "stored record is not a dict"))

def hfind_user (uid : PVal) : HM (Option Nat) := hfind .users uid
def hfind_house (hid : PVal) : HM (Option Nat) := hfind .houses hid
def hfind_room (rid : PVal) : HM (Option Nat) := hfind .rooms_house rid
def hfind_private_room (rid : PVal) : HM (Option Nat) :=
  hfind .rooms_private_single rid
def hfind_private_group_room (rid : PVal) : HM (Option Nat) :=
  hfind .rooms_private_group rid
def hfind_entity (eid : PVal) : HM (Option Nat) := hfind .entities eid
def hfind_relationship (uid : PVal) : HM (Option Nat) :=
  hfind .relationships uid

end Hiven

namespace Hiven

theorem heapSafe_getClientIdVal : HeapSafe hGetClientIdVal := by
  intro h s h' s' res hrun
  unfold hGetClientIdVal at hrun
  obtain ⟨h1, h2⟩ := Prod.mk.injEq .. ▸ hrun
  obtain ⟨rfl, rfl⟩ := Prod.mk.injEq .. ▸ h1
  exact ⟨Nat.le_refl _, fun c _ _ => rfl, fun t ht => Or.inl ht⟩

theorem heapSafe_getClientIdE : HeapSafe hGetClientIdE := by
  intro h s h' s' res hrun
  unfold hGetClientIdE at hrun
  have hid : (h', s') = (h, s) := by
    cases hg : hget (h, s).1 (h, s).2.client_user with
    | none =>
      rw [hg] at hrun
      exact congrArg Prod.fst hrun.symm
    | some o =>
      rw [hg] at hrun
      cases o with
      | hdict fs =>
        simp only [] at hrun
        cases ha : aget fs "id" with
        | none =>
          rw [ha] at hrun
          simp only [] at hrun
          exact congrArg Prod.fst hrun.symm
        | some rc =>
          rw [ha] at hrun
          simp only [] at hrun
          cases hrv : readVal (h, s).1 (hlen (h, s).1) rc with
          | none =>
            rw [hrv] at hrun
            simp only [] at hrun
            exact congrArg Prod.fst hrun.symm
          | some v =>
            rw [hrv] at hrun
            simp only [] at hrun
            exact congrArg Prod.fst hrun.symm
      | hnull =>
        simp only [] at hrun
        exact congrArg Prod.fst hrun.symm
      | hbool b =>
        simp only [] at hrun
        exact congrArg Prod.fst hrun.symm
      | hint n =>
        simp only [] at hrun
        exact congrArg Prod.fst hrun.symm
      | hstr s2 =>
        simp only [] at hrun
        exact congrArg Prod.fst hrun.symm
      | hlist xs =>
        simp only [] at hrun
        exact congrArg Prod.fst hrun.symm
  obtain ⟨rfl, rfl⟩ := Prod.mk.injEq .. ▸ hid
  exact ⟨Nat.le_refl _, fun c _ _ => rfl, fun t ht => Or.inl ht⟩

theorem mem_topsOf_setSlot {sl : SlotKey} {s : HStore} {r t : Nat}
    (ht : t ∈ topsOf (setSlot sl s r)) : t ∈ topsOf s ∨ t = r := by
  unfold topsOf at ht ⊢
  cases sl <;>
    · unfold setSlot at ht
      simp only [List.mem_cons] at ht ⊢
      tauto

theorem heapSafe_setSlot (sl : SlotKey) (v : PVal) : HeapSafe (hSetSlot sl v) := by
  intro h s h' s' res hrun
  unfold hSetSlot at hrun
  simp only [] at hrun
  obtain ⟨h1, h2⟩ := Prod.mk.injEq .. ▸ hrun
  obtain ⟨rfl, rfl⟩ := Prod.mk.injEq .. ▸ h1
  obtain ⟨⟨ext, hext⟩, hrge, -, -⟩ := allocVal_spec h v
  refine ⟨?_, ?_, ?_⟩
  · rw [show (allocVal (h, s).1 v).1 = (allocVal h v).1 from rfl, hext,
      hlen_append]
    exact Nat.le_add_right _ _
  · intro c hc hcT
    rw [show (allocVal (h, s).1 v).1 = (allocVal h v).1 from rfl, hext,
      hget_append hc]
  · intro t ht
    rcases mem_topsOf_setSlot ht with hx | hx
    · exact Or.inl hx
    · exact Or.inr (hx ▸ hrge)

theorem heapSafe_update_client_user_core (d : Dict) :
    HeapSafe (hupdate_client_user_core d) := by
  intro h s h' s' res hrun
  unfold hupdate_client_user_core at hrun
  rw [hm_bind_apply, hmLiftE_apply] at hrun
  cases hfmt : User.format_obj_data d with
  | error e =>
    rw [hfmt] at hrun
    simp only [] at hrun
    obtain ⟨h1, h2⟩ := Prod.mk.injEq .. ▸ hrun
    obtain ⟨rfl, rfl⟩ := Prod.mk.injEq .. ▸ h1
    exact ⟨Nat.le_refl _, fun c _ _ => rfl, fun t ht => Or.inl ht⟩
  | ok cu =>
    rw [hfmt] at hrun
    simp only [] at hrun
    rw [hm_bind_apply] at hrun
    rw [show hAllocDict cu (h, s)
      = (((allocVal h (.vdict cu)).1, s), .ok (allocVal h (.vdict cu)).2)
      from rfl] at hrun
    simp only [] at hrun
    obtain ⟨⟨ext, hext⟩, hrge, hrlt, -⟩ := allocVal_spec h (.vdict cu)
    have hg₁ : hlen h ≤ hlen (allocVal h (.vdict cu)).1 := by
      rw [hext, hlen_append]
      exact Nat.le_add_right _ _
    have hp₁ : ∀ c, c < hlen h → hget (allocVal h (.vdict cu)).1 c = hget h c := by
      intro c hc
      rw [hext, hget_append hc]
    rw [hm_bind_apply] at hrun
    cases hmg : hClientUserMerge (allocVal h (.vdict cu)).2
        ((allocVal h (.vdict cu)).1, s) with
    | mk st₂ r₂ =>
      obtain ⟨h₂, s₂⟩ := st₂
      obtain ⟨hg₂, hp₂, ht₂⟩ :=
        heapSafe_clientUserMerge (allocVal h (.vdict cu)).2 _ _ _ _ _ hmg
      rw [hmg] at hrun
      have hcomp2 : hlen h ≤ hlen h₂ ∧
          (∀ c, c < hlen h → c ∉ topsOf s → hget h₂ c = hget h c) ∧
          (∀ t, t ∈ topsOf s₂ → t ∈ topsOf s ∨ hlen h ≤ t) := by
        refine ⟨Nat.le_trans hg₁ hg₂, ?_, ?_⟩
        · intro c hc hcT
          rw [hp₂ c (Nat.lt_of_lt_of_le hc hg₁) hcT, hp₁ c hc]
        · intro t ht
          rcases ht₂ t ht with hx | hx
          · exact Or.inl hx
          · exact Or.inr (Nat.le_trans hg₁ hx)
      obtain ⟨hcg, hcp, hct⟩ := hcomp2
      cases r₂ with
      | error e =>
        simp only [] at hrun
        obtain ⟨h1, h2⟩ := Prod.mk.injEq .. ▸ hrun
        obtain ⟨rfl, rfl⟩ := Prod.mk.injEq .. ▸ h1
        exact ⟨hcg, hcp, hct⟩
      | ok u =>
        simp only [] at hrun
        rw [hm_bind_apply, hmLiftE_apply] at hrun
        cases hdid : pyIndex d "id" with
        | error e =>
          rw [hdid] at hrun
          simp only [] at hrun
          obtain ⟨h1, h2⟩ := Prod.mk.injEq .. ▸ hrun
          obtain ⟨rfl, rfl⟩ := Prod.mk.injEq .. ▸ h1
          exact ⟨hcg, hcp, hct⟩
        | ok did =>
          rw [hdid] at hrun
          simp only [] at hrun
          rw [hm_bind_apply] at hrun
          cases hpl : hPartPlace .users did (allocVal h (.vdict cu)).2 (h₂, s₂) with
          | mk st₃ r₃ =>
            obtain ⟨h₃, s₃⟩ := st₃
            obtain ⟨hg₃, hp₃, ht₃⟩ :=
              hPartPlace_spec .users did (allocVal h (.vdict cu)).2 _ _ _ _ _ hpl
            rw [hpl] at hrun
            have hcomp3 : hlen h ≤ hlen h₃ ∧
                (∀ c, c < hlen h → c ∉ topsOf s → hget h₃ c = hget h c) ∧
                (∀ t, t ∈ topsOf s₃ → t ∈ topsOf s ∨ hlen h ≤ t) := by
              refine ⟨Nat.le_trans hcg hg₃, ?_, ?_⟩
              · intro c hc hcT
                rw [hp₃ c (Nat.lt_of_lt_of_le hc hcg) (fun hmem => ?_),
                  hcp c hc hcT]
                rcases hct c hmem with hx | hx
                · exact hcT hx
                · exact Nat.not_le_of_lt hc hx
              · intro t ht
                rcases ht₃ t ht with hx | hx
                · exact hct t hx
                · exact Or.inr (hx ▸ hrge)
            obtain ⟨hdg, hdp, hdt⟩ := hcomp3
            cases r₃ with
            | error e =>
              simp only [] at hrun
              obtain ⟨h1, h2⟩ := Prod.mk.injEq .. ▸ hrun
              obtain ⟨rfl, rfl⟩ := Prod.mk.injEq .. ▸ h1
              exact ⟨hdg, hdp, hdt⟩
            | ok u2 =>
              simp only [] at hrun
              obtain ⟨h1, h2⟩ := Prod.mk.injEq .. ▸ hrun
              obtain ⟨rfl, rfl⟩ := Prod.mk.injEq .. ▸ h1
              exact ⟨hdg, hdp, hdt⟩

end Hiven

namespace Hiven

theorem heapSafe_user_core (d : Dict) : HeapSafe (hadd_or_update_user_core d) := by
  unfold hadd_or_update_user_core
  apply heapSafe_bind heapSafe_checkInit
  intro u
  apply heapSafe_tryWrap
  apply heapSafe_bind (heapSafe_liftE _)
  intro id_
  apply heapSafe_bind (heapSafe_liftE _)
  intro data
  apply heapSafe_bind heapSafe_getClientIdVal
  intro cid
  dsimp only
  by_cases hc : id_ = cid
  · rw [if_pos hc]
    apply heapSafe_bind (heapSafe_update_client_user_core data)
    intro u2
    apply heapSafe_bind (heapSafe_pure ())
    intro u3
    exact heapSafe_bind (heapSafe_storeRecord _ _ _) (fun _ => heapSafe_pure data)
  · rw [if_neg hc]
    apply heapSafe_bind (heapSafe_pure ())
    intro u3
    exact heapSafe_bind (heapSafe_storeRecord _ _ _) (fun _ => heapSafe_pure data)

theorem heapSafe_room_core (d : Dict) : HeapSafe (hadd_or_update_room_core d) := by
  unfold hadd_or_update_room_core
  apply heapSafe_bind heapSafe_checkInit
  intro u
  apply heapSafe_tryWrap
  apply heapSafe_bind (heapSafe_liftE _)
  intro id_
  apply heapSafe_bind (heapSafe_liftE _)
  intro data
  exact heapSafe_bind (heapSafe_storeRecord _ _ _) (fun _ => heapSafe_pure data)

theorem heapSafe_entity_core (d : Dict) : HeapSafe (hadd_or_update_entity_core d) := by
  unfold hadd_or_update_entity_core
  apply heapSafe_bind heapSafe_checkInit
  intro u
  apply heapSafe_tryWrap
  apply heapSafe_bind (heapSafe_liftE _)
  intro id_
  apply heapSafe_bind (heapSafe_liftE _)
  intro data
  exact heapSafe_bind (heapSafe_storeRecord _ _ _) (fun _ => heapSafe_pure data)

theorem heapSafe_private_room_core (d : Dict) :
    HeapSafe (hadd_or_update_private_room_core d) := by
  unfold hadd_or_update_private_room_core
  apply heapSafe_bind heapSafe_checkInit
  intro u
  apply heapSafe_tryWrap
  apply heapSafe_bind (heapSafe_liftE _)
  intro id_
  apply heapSafe_bind (heapSafe_liftE _)
  intro tv
  cases pyInt tv with
  | none => exact heapSafe_bind (heapSafe_throw _) (fun _ => heapSafe_pure d)
  | some n =>
    rcases n with m | m
    · rcases m with _ | (_ | (_ | m))
      · exact heapSafe_bind (heapSafe_throw _) (fun _ => heapSafe_pure d)
      · apply heapSafe_bind (heapSafe_liftE _)
        intro x
        dsimp only
        apply heapSafe_bind (heapSafe_storeRecord _ _ _)
        intro x2
        apply heapSafe_bind (heapSafe_pure ())
        intro y
        dsimp only
        exact heapSafe_pure d
      · apply heapSafe_bind (heapSafe_liftE _)
        intro x
        dsimp only
        apply heapSafe_bind (heapSafe_storeRecord _ _ _)
        intro x2
        apply heapSafe_bind (heapSafe_pure ())
        intro y
        dsimp only
        exact heapSafe_pure d
      · exact heapSafe_bind (heapSafe_throw _) (fun _ => heapSafe_pure d)
    · exact heapSafe_bind (heapSafe_throw _) (fun _ => heapSafe_pure d)

theorem heapSafe_relationship_core (d : Dict) :
    HeapSafe (hadd_or_update_relationship_core d) := by
  unfold hadd_or_update_relationship_core
  apply heapSafe_bind heapSafe_checkInit
  intro u
  apply heapSafe_tryWrap
  apply heapSafe_bind (heapSafe_liftE _)
  intro id_
  dsimp only
  by_cases hc : truthy (aget d "user") = true
  · rw [if_pos hc]
    apply heapSafe_bind (heapSafe_liftE _)
    intro u2
    apply heapSafe_bind (heapSafe_user_core u2)
    intro u3
    apply heapSafe_bind (heapSafe_pure ())
    intro y
    dsimp only
    apply heapSafe_bind (heapSafe_liftE _)
    intro data
    exact heapSafe_bind (heapSafe_storeRecord _ _ _) (fun _ => heapSafe_pure data)
  · rw [if_neg hc]
    apply heapSafe_bind (heapSafe_pure ())
    intro y
    dsimp only
    apply heapSafe_bind (heapSafe_liftE _)
    intro data
    exact heapSafe_bind (heapSafe_storeRecord _ _ _) (fun _ => heapSafe_pure data)

theorem heapSafe_rooms_loop (id_ : PVal) (rs : List PVal) :
    HeapSafe (hHouseRoomsLoop id_ rs) := by
  induction rs with
  | nil => exact heapSafe_pure []
  | cons r rest ih =>
    show HeapSafe (hHouseRoomsLoop id_ (r :: rest))
    unfold hHouseRoomsLoop
    apply heapSafe_bind (heapSafe_liftE _)
    intro rd
    apply heapSafe_bind (heapSafe_liftE _)
    intro room
    apply heapSafe_bind (heapSafe_room_core room)
    intro u
    exact heapSafe_bind ih (fun tail => heapSafe_pure _)

theorem heapSafe_members_loop (id_ : PVal) (ms : List PVal) :
    HeapSafe (hHouseMembersLoop id_ ms) := by
  induction ms with
  | nil => exact heapSafe_pure []
  | cons m rest ih =>
    show HeapSafe (hHouseMembersLoop id_ (m :: rest))
    unfold hHouseMembersLoop
    apply heapSafe_bind (heapSafe_liftE _)
    intro md
    apply heapSafe_bind (heapSafe_liftE _)
    intro uv
    apply heapSafe_bind (heapSafe_liftE _)
    intro ud
    apply heapSafe_bind (heapSafe_liftE _)
    intro user
    apply heapSafe_bind (heapSafe_user_core user)
    intro u
    exact heapSafe_bind ih (fun tail => heapSafe_pure _)

theorem heapSafe_entities_loop (id_ : PVal) (es : List PVal) :
    HeapSafe (hHouseEntitiesLoop id_ es) := by
  induction es with
  | nil => exact heapSafe_pure []
  | cons e rest ih =>
    show HeapSafe (hHouseEntitiesLoop id_ (e :: rest))
    unfold hHouseEntitiesLoop
    apply heapSafe_bind (heapSafe_liftE _)
    intro ed
    apply heapSafe_bind (heapSafe_liftE _)
    intro entity
    apply heapSafe_bind (heapSafe_entity_core entity)
    intro u
    exact heapSafe_bind ih (fun tail => heapSafe_pure _)

theorem heapSafe_house_core (d : Dict) : HeapSafe (hadd_or_update_house_core d) := by
  unfold hadd_or_update_house_core
  apply heapSafe_bind heapSafe_checkInit
  intro u
  apply heapSafe_tryWrap
  apply heapSafe_bind (heapSafe_liftE _)
  intro id_
  apply heapSafe_bind (heapSafe_liftE _)
  intro roomsV
  apply heapSafe_bind (heapSafe_liftE _)
  intro rooms
  apply heapSafe_bind (heapSafe_rooms_loop id_ rooms)
  intro rooms2
  apply heapSafe_bind (heapSafe_liftE _)
  intro membersV
  apply heapSafe_bind (heapSafe_liftE _)
  intro members
  apply heapSafe_bind (heapSafe_members_loop id_ members)
  intro members2
  apply heapSafe_bind (heapSafe_liftE _)
  intro entsV
  apply heapSafe_bind (heapSafe_liftE _)
  intro ents
  apply heapSafe_bind (heapSafe_entities_loop id_ ents)
  intro ents2
  apply heapSafe_bind (heapSafe_liftE _)
  intro data2
  apply heapSafe_bind heapSafe_getClientIdE
  intro cid
  apply heapSafe_bind (heapSafe_liftE _)
  intro membersD
  apply heapSafe_bind (heapSafe_liftE _)
  intro cm
  exact heapSafe_bind (heapSafe_storeRecord _ _ _) (fun _ => heapSafe_pure _)

theorem heapSafe_private_rooms_loop (rs : List PVal) :
    HeapSafe (hPrivateRoomsLoop rs) := by
  induction rs with
  | nil => exact heapSafe_pure ()
  | cons r rest ih =>
    show HeapSafe (hPrivateRoomsLoop (r :: rest))
    unfold hPrivateRoomsLoop
    apply heapSafe_bind (heapSafe_liftE _)
    intro rd
    exact heapSafe_bind (heapSafe_private_room_core rd) (fun _ => ih)

theorem heapSafe_relationships_loop (rs : List PVal) :
    HeapSafe (hRelationshipsLoop rs) := by
  induction rs with
  | nil => exact heapSafe_pure ()
  | cons r rest ih =>
    show HeapSafe (hRelationshipsLoop (r :: rest))
    unfold hRelationshipsLoop
    apply heapSafe_bind (heapSafe_liftE _)
    intro rd
    exact heapSafe_bind (heapSafe_relationship_core rd) (fun _ => ih)

theorem heapSafe_primary_core (d : Dict) :
    HeapSafe (hupdate_primary_data_core d) := by
  unfold hupdate_primary_data_core
  apply heapSafe_bind (heapSafe_setSlot _ _)
  intro u1
  apply heapSafe_bind (heapSafe_setSlot _ _)
  intro u2
  apply heapSafe_bind (heapSafe_setSlot _ _)
  intro u3
  apply heapSafe_bind (heapSafe_setSlot _ _)
  intro u4
  apply heapSafe_bind (heapSafe_liftE _)
  intro uv
  apply heapSafe_bind (heapSafe_update_client_user_core uv)
  intro u5
  apply heapSafe_bind (heapSafe_liftE _)
  intro prv
  apply heapSafe_bind (heapSafe_private_rooms_loop prv)
  intro u6
  apply heapSafe_bind
  · cases aget d "relationships" with
    | none => exact heapSafe_throw _
    | some v =>
      cases v with
      | vdict rels => exact heapSafe_relationships_loop _
      | vnull => exact heapSafe_throw _
      | vbool b => exact heapSafe_throw _
      | vint n => exact heapSafe_throw _
      | vstr s2 => exact heapSafe_throw _
      | vlist xs => exact heapSafe_throw _
  · intro u7
    exact heapSafe_pure ()

theorem heapSafe_hupdate_client_user (q : Nat) : HeapSafe (hupdate_client_user q) :=
  heapSafe_bind (heapSafe_readDict q) heapSafe_update_client_user_core

theorem heapSafe_hadd_or_update_user (q : Nat) : HeapSafe (hadd_or_update_user q) :=
  heapSafe_bind (heapSafe_readDict q) heapSafe_user_core

theorem heapSafe_hadd_or_update_room (q : Nat) : HeapSafe (hadd_or_update_room q) :=
  heapSafe_bind (heapSafe_readDict q) heapSafe_room_core

theorem heapSafe_hadd_or_update_entity (q : Nat) :
    HeapSafe (hadd_or_update_entity q) :=
  heapSafe_bind (heapSafe_readDict q) heapSafe_entity_core

theorem heapSafe_hadd_or_update_private_room (q : Nat) :
    HeapSafe (hadd_or_update_private_room q) :=
  heapSafe_bind (heapSafe_readDict q) heapSafe_private_room_core

theorem heapSafe_hadd_or_update_relationship (q : Nat) :
    HeapSafe (hadd_or_update_relationship q) :=
  heapSafe_bind (heapSafe_readDict q) heapSafe_relationship_core

theorem heapSafe_hadd_or_update_house (q : Nat) :
    HeapSafe (hadd_or_update_house q) :=
  heapSafe_bind (heapSafe_readDict q) heapSafe_house_core

theorem heapSafe_hupdate_primary_data (q : Nat) :
    HeapSafe (hupdate_primary_data q) :=
  heapSafe_bind (heapSafe_readDict q) heapSafe_primary_core

end Hiven

namespace Hiven

/-- Reachability inverts through one level of children. -/
theorem reach_inv {h : Heap} {a c : Nat} (hr : Reach h a c) :
    c = a ∨ ∃ f ∈ childRefs (hget h a), Reach h f c := by
  induction hr with
  | refl => exact Or.inl rfl
  | step hab hc ih =>
    rename_i b c2
    rcases ih with he | ⟨f, hf, hreach⟩
    · exact Or.inr ⟨c2, he ▸ hc, Reach.refl c2⟩
    · exact Or.inr ⟨f, hf, Reach.step hreach hc⟩

/-- `ROK` transfers to any later heap that spares the unprotected live
cells. -/
theorem rok_transfer {h h' : Heap} {T : List Nat} {a : Nat}
    (hr : ROK h T a)
    (hpres : ∀ c, c < hlen h → c ∉ T → hget h' c = hget h c)
    (hgrow : hlen h ≤ hlen h') : ROK h' T a := by
  have hkey : ∀ c, Reach h' a c → Reach h a c := by
    intro c hc
    induction hc with
    | refl => exact Reach.refl a
    | step hab hc2 ih =>
      rename_i b c2
      obtain ⟨hbT, hblt⟩ := hr b ih
      rw [hpres b hblt hbT] at hc2
      exact Reach.step ih hc2
  intro c hc
  obtain ⟨hT, hlt⟩ := hr c (hkey c hc)
  exact ⟨hT, Nat.lt_of_lt_of_le hlt hgrow⟩

/-- A decidable sufficient condition for `ROK`. -/
def rokCheck (h : Heap) (T : List Nat) : Nat → Nat → Bool
  | 0, _ => false
  | fuel+1, c =>
    decide (c ∉ T) && decide (c < hlen h) &&
      (childRefs (hget h c)).all (rokCheck h T fuel)

theorem rok_of_rokCheck {h : Heap} {T : List Nat} {fuel c : Nat}
    (hc : rokCheck h T fuel c = true) : ROK h T c := by
  intro c' hr
  have hkey : ∀ a c', Reach h a c' → ∀ f, rokCheck h T f a = true →
      ∃ f', rokCheck h T f' c' = true := by
    intro a c2 hreach
    induction hreach with
    | refl => exact fun f hf => ⟨f, hf⟩
    | step hab hc2 ih =>
      rename_i b c3
      intro f hf
      obtain ⟨f', hf'⟩ := ih f hf
      cases f' with
      | zero => cases hf'
      | succ g =>
        unfold rokCheck at hf'
        obtain ⟨-, hall⟩ := Bool.and_eq_true_iff.mp hf'
        exact ⟨g, List.all_eq_true.mp hall c3 hc2⟩
  obtain ⟨f', hf'⟩ := hkey c c' hr fuel hc
  cases f' with
  | zero => cases hf'
  | succ g =>
    unfold rokCheck at hf'
    obtain ⟨hhead, -⟩ := Bool.and_eq_true_iff.mp hf'
    obtain ⟨hnT, hlt⟩ := Bool.and_eq_true_iff.mp hhead
    exact ⟨of_decide_eq_true hnT, of_decide_eq_true hlt⟩

end Hiven

namespace Hiven

/-- C10: the caller's payload is never mutated — every cache update
operation (`update_primary_data`, `update_client_user`, and the six
`add_or_update_*` upserts) deep-copies its payload
(`data = deepcopy(item_data)`) and thereafter writes only freshly
allocated cells and the store's own top-level record objects; so whether
the call succeeds or raises, a deep read of the dict the caller passed
yields the same value afterwards. (The payload must not itself alias the
cache's record objects — true of any dict the caller built or received
from `find_*`.) -/
theorem payload_never_mutated {h : Heap} {s : HStore} {q : Nat}
    (hq : ROK h (topsOf s) q) :
    (∀ h' s' res, hupdate_primary_data q (h, s) = ((h', s'), res) →
      ∀ fuel, readVal h' fuel q = readVal h fuel q) ∧
    (∀ h' s' res, hupdate_client_user q (h, s) = ((h', s'), res) →
      ∀ fuel, readVal h' fuel q = readVal h fuel q) ∧
    (∀ h' s' res, hadd_or_update_user q (h, s) = ((h', s'), res) →
      ∀ fuel, readVal h' fuel q = readVal h fuel q) ∧
    (∀ h' s' res, hadd_or_update_room q (h, s) = ((h', s'), res) →
      ∀ fuel, readVal h' fuel q = readVal h fuel q) ∧
    (∀ h' s' res, hadd_or_update_entity q (h, s) = ((h', s'), res) →
      ∀ fuel, readVal h' fuel q = readVal h fuel q) ∧
    (∀ h' s' res, hadd_or_update_private_room q (h, s) = ((h', s'), res) →
      ∀ fuel, readVal h' fuel q = readVal h fuel q) ∧
    (∀ h' s' res, hadd_or_update_relationship q (h, s) = ((h', s'), res) →
      ∀ fuel, readVal h' fuel q = readVal h fuel q) ∧
    (∀ h' s' res, hadd_or_update_house q (h, s) = ((h', s'), res) →
      ∀ fuel, readVal h' fuel q = readVal h fuel q) := by
  refine ⟨?_, ?_, ?_, ?_, ?_, ?_, ?_, ?_⟩
  · intro h' s' res hrun fuel
    obtain ⟨-, hp, -⟩ := heapSafe_hupdate_primary_data q h s h' s' res hrun
    exact readVal_stable hp fuel q hq
  · intro h' s' res hrun fuel
    obtain ⟨-, hp, -⟩ := heapSafe_hupdate_client_user q h s h' s' res hrun
    exact readVal_stable hp fuel q hq
  · intro h' s' res hrun fuel
    obtain ⟨-, hp, -⟩ := heapSafe_hadd_or_update_user q h s h' s' res hrun
    exact readVal_stable hp fuel q hq
  · intro h' s' res hrun fuel
    obtain ⟨-, hp, -⟩ := heapSafe_hadd_or_update_room q h s h' s' res hrun
    exact readVal_stable hp fuel q hq
  · intro h' s' res hrun fuel
    obtain ⟨-, hp, -⟩ := heapSafe_hadd_or_update_entity q h s h' s' res hrun
    exact readVal_stable hp fuel q hq
  · intro h' s' res hrun fuel
    obtain ⟨-, hp, -⟩ := heapSafe_hadd_or_update_private_room q h s h' s' res hrun
    exact readVal_stable hp fuel q hq
  · intro h' s' res hrun fuel
    obtain ⟨-, hp, -⟩ := heapSafe_hadd_or_update_relationship q h s h' s' res hrun
    exact readVal_stable hp fuel q hq
  · intro h' s' res hrun fuel
    obtain ⟨-, hp, -⟩ := heapSafe_hadd_or_update_house q h s h' s' res hrun
    exact readVal_stable hp fuel q hq

def c10Heap : Heap :=
  [.hdict [("id", 1)], .hstr "1", .hstr "R1", .hstr "H1",
   .hdict [("id", 2), ("house_id", 3)]]

def c10HStore : HStore :=
  { client_user := 0
    users := []
    rooms_private_single := []
    rooms_private_group := []
    rooms_house := []
    entities := []
    relationships := []
    houses := []
    house_memberships := 0
    house_ids := 0
    settings := 0
    read_state := 0 }

def c10Q : Nat := 4

theorem payload_never_mutated_witness :
    rokCheck c10Heap (topsOf c10HStore) 6 c10Q = true ∧
    readVal (hadd_or_update_room c10Q (c10Heap, c10HStore)).1.1 6 c10Q
      = readVal c10Heap 6 c10Q := by
  refine ⟨by decide, ?_⟩
  have hq : ROK c10Heap (topsOf c10HStore) c10Q :=
    @rok_of_rokCheck c10Heap (topsOf c10HStore) 6 c10Q (by decide)
  exact (payload_never_mutated hq).2.2.2.1
    (hadd_or_update_room c10Q (c10Heap, c10HStore)).1.1
    (hadd_or_update_room c10Q (c10Heap, c10HStore)).1.2
    (hadd_or_update_room c10Q (c10Heap, c10HStore)).2 rfl 6

end Hiven

namespace Hiven

/-- One cache mutation a caller can perform after a read: any of the
eight update operations, with an arbitrary payload (allocated for the
caller before the call). -/
inductive CacheOp where
  | primaryData (v : PVal)
  | clientUser (v : PVal)
  | user (v : PVal)
  | room (v : PVal)
  | entity (v : PVal)
  | privateRoom (v : PVal)
  | relationship (v : PVal)
  | house (v : PVal)

/-- Allocate an arbitrary caller-side payload object. -/
def hAllocVal (v : PVal) : HM Nat := fun st =>
  let p := allocVal st.1 v
  ((p.1, st.2), .ok p.2)

theorem heapSafe_allocVal (v : PVal) : HeapSafe (hAllocVal v) := by
  intro h s h' s' res hrun
  unfold hAllocVal at hrun
  simp only [] at hrun
  obtain ⟨h1, h2⟩ := Prod.mk.injEq .. ▸ hrun
  obtain ⟨rfl, rfl⟩ := Prod.mk.injEq .. ▸ h1
  obtain ⟨⟨ext, hext⟩, -, -, -⟩ := allocVal_spec h v
  refine ⟨?_, ?_, fun t ht => Or.inl ht⟩
  · rw [show (allocVal (h, s).1 v).1 = (allocVal h v).1 from rfl, hext,
      hlen_append]
    exact Nat.le_add_right _ _
  · intro c hc hcT
    rw [show (allocVal (h, s).1 v).1 = (allocVal h v).1 from rfl, hext,
      hget_append hc]

/-- Run one mutation: build the payload and call the operation; the call
may succeed or raise, and its effects persist either way. -/
def hRunOp : CacheOp → HM Unit
  | .primaryData v => do
    let q ← hAllocVal v
    let _ ← hupdate_primary_data q
    Pure.pure ()
  | .clientUser v => do
    let q ← hAllocVal v
    let _ ← hupdate_client_user q
    Pure.pure ()
  | .user v => do
    let q ← hAllocVal v
    let _ ← hadd_or_update_user q
    Pure.pure ()
  | .room v => do
    let q ← hAllocVal v
    let _ ← hadd_or_update_room q
    Pure.pure ()
  | .entity v => do
    let q ← hAllocVal v
    let _ ← hadd_or_update_entity q
    Pure.pure ()
  | .privateRoom v => do
    let q ← hAllocVal v
    let _ ← hadd_or_update_private_room q
    Pure.pure ()
  | .relationship v => do
    let q ← hAllocVal v
    let _ ← hadd_or_update_relationship q
    Pure.pure ()
  | .house v => do
    let q ← hAllocVal v
    let _ ← hadd_or_update_house q
    Pure.pure ()

/-- The post-state of one mutation (kept whether it returned or raised —
a Python caller's later calls proceed regardless). -/
def runCacheOp (op : CacheOp) (st : HSt) : HSt := (hRunOp op st).1

/-- The post-state of a whole read-then-mutate sequence. -/
def runCacheOps : List CacheOp → HSt → HSt
  | [], st => st
  | op :: ops, st => runCacheOps ops (runCacheOp op st)

theorem heapSafe_runOp (op : CacheOp) : HeapSafe (hRunOp op) := by
  cases op <;>
    · unfold hRunOp
      apply heapSafe_bind (heapSafe_allocVal _)
      intro q
      first
      | exact heapSafe_bind (heapSafe_hupdate_primary_data q)
          (fun _ => heapSafe_pure ())
      | exact heapSafe_bind (heapSafe_hupdate_client_user q)
          (fun _ => heapSafe_pure ())
      | exact heapSafe_bind (heapSafe_hadd_or_update_user q)
          (fun _ => heapSafe_pure ())
      | exact heapSafe_bind (heapSafe_hadd_or_update_room q)
          (fun _ => heapSafe_pure ())
      | exact heapSafe_bind (heapSafe_hadd_or_update_entity q)
          (fun _ => heapSafe_pure ())
      | exact heapSafe_bind (heapSafe_hadd_or_update_private_room q)
          (fun _ => heapSafe_pure ())
      | exact heapSafe_bind (heapSafe_hadd_or_update_relationship q)
          (fun _ => heapSafe_pure ())
      | exact heapSafe_bind (heapSafe_hadd_or_update_house q)
          (fun _ => heapSafe_pure ())

theorem runCacheOp_spec (op : CacheOp) (h : Heap) (s : HStore) :
    hlen h ≤ hlen (runCacheOp op (h, s)).1 ∧
    (∀ c, c < hlen h → c ∉ topsOf s →
      hget (runCacheOp op (h, s)).1 c = hget h c) ∧
    (∀ t, t ∈ topsOf (runCacheOp op (h, s)).2 → t ∈ topsOf s ∨ hlen h ≤ t) := by
  have hrun : hRunOp op (h, s)
      = (((hRunOp op (h, s)).1.1, (hRunOp op (h, s)).1.2), (hRunOp op (h, s)).2) :=
    rfl
  obtain ⟨hg, hp, ht⟩ := heapSafe_runOp op h s _ _ _ hrun
  exact ⟨hg, hp, ht⟩

theorem runCacheOps_spec (ops : List CacheOp) :
    ∀ (h : Heap) (s : HStore),
    hlen h ≤ hlen (runCacheOps ops (h, s)).1 ∧
    (∀ c, c < hlen h → c ∉ topsOf s →
      hget (runCacheOps ops (h, s)).1 c = hget h c) := by
  induction ops with
  | nil => exact fun h s => ⟨Nat.le_refl _, fun c _ _ => rfl⟩
  | cons op rest ih =>
    intro h s
    obtain ⟨hg₁, hp₁, ht₁⟩ := runCacheOp_spec op h s
    obtain ⟨hg₂, hp₂⟩ := ih (runCacheOp op (h, s)).1 (runCacheOp op (h, s)).2
    have hstep : runCacheOps (op :: rest) (h, s)
        = runCacheOps rest ((runCacheOp op (h, s)).1, (runCacheOp op (h, s)).2) := by
      show runCacheOps rest (runCacheOp op (h, s)) = _
      rfl
    rw [hstep]
    refine ⟨Nat.le_trans hg₁ hg₂, ?_⟩
    intro c hc hcT
    rw [hp₂ c (Nat.lt_of_lt_of_le hc hg₁) (fun hmem => ?_), hp₁ c hc hcT]
    rcases ht₁ c hmem with hx | hx
    · exact hcT hx
    · exact Nat.not_le_of_lt hc hx

end Hiven

namespace Hiven

/-- The separation discipline of the cache: every top-level store object
is live, and nothing reachable from a top object's entries is itself a
top object — stored record objects never nest the cache's own record
objects, because every stored value object came from a deep copy. -/
def SepWF (h : Heap) (s : HStore) : Prop :=
  (∀ t ∈ topsOf s, t < hlen h) ∧
  (∀ t ∈ topsOf s, ∀ f ∈ childRefs (hget h t), ROK h (topsOf s) f)

/-- Every stored partition record is a dict object. -/
def RecsAreDicts (h : Heap) (s : HStore) : Prop :=
  ∀ (k : PartKey), ∀ kv ∈ getHPart k s, ∃ fl, hget h kv.2 = some (.hdict fl)

def sepWFCheck (h : Heap) (s : HStore) (fuel : Nat) : Bool :=
  (topsOf s).all (fun t => decide (t < hlen h) &&
    (childRefs (hget h t)).all (rokCheck h (topsOf s) fuel))

theorem sepWF_of_check {h : Heap} {s : HStore} {fuel : Nat}
    (hc : sepWFCheck h s fuel = true) : SepWF h s := by
  unfold sepWFCheck at hc
  rw [List.all_eq_true] at hc
  constructor
  · intro t ht
    obtain ⟨hlt, -⟩ := Bool.and_eq_true_iff.mp (hc t ht)
    exact of_decide_eq_true hlt
  · intro t ht f hf
    obtain ⟨-, hall⟩ := Bool.and_eq_true_iff.mp (hc t ht)
    exact rok_of_rokCheck (List.all_eq_true.mp hall f hf)

def recsAreDictsCheck (h : Heap) (s : HStore) : Bool :=
  [PartKey.users, .rooms_private_single, .rooms_private_group, .rooms_house,
    .entities, .relationships, .houses].all (fun k =>
    (getHPart k s).all (fun kv =>
      match hget h kv.2 with
      | some (.hdict _) => true
      | _ => false))

theorem recs_of_check {h : Heap} {s : HStore}
    (hc : recsAreDictsCheck h s = true) : RecsAreDicts h s := by
  unfold recsAreDictsCheck at hc
  rw [List.all_eq_true] at hc
  intro k kv hkv
  have hk := hc k (by cases k <;> simp)
  rw [List.all_eq_true] at hk
  have := hk kv hkv
  cases hgv : hget h kv.2 with
  | none => rw [hgv] at this; cases this
  | some o =>
    cases o with
    | hdict fl => exact ⟨fl, rfl⟩
    | hnull => rw [hgv] at this; cases this
    | hbool b => rw [hgv] at this; cases this
    | hint n => rw [hgv] at this; cases this
    | hstr s2 => rw [hgv] at this; cases this
    | hlist xs => rw [hgv] at this; cases this

/-- C7: each `find_*` accessor returns `None` or a detached copy — the
fresh dict `dict(raw_data)` — and no sequence of later cache update
calls, with any payloads, is observable through that copy: a deep read
of the copy, including through its nested list and dict values, yields
the same value afterwards as at the moment of the read. The seven
accessors are exactly `hfind` at the seven partitions
(`find_user`, `find_house`, `find_room`, `find_private_room`,
`find_private_group_room`, `find_entity`, `find_relationship`). -/
theorem find_copy_detached {h : Heap} {s : HStore}
    (hWF : SepWF h s) (hRD : RecsAreDicts h s) (k : PartKey) (id_ : PVal) :
    (hfind k id_ (h, s) = ((h, s), .ok none)) ∨
    (∃ c h₁, hfind k id_ (h, s) = ((h₁, s), .ok (some c)) ∧
      ∀ (ops : List CacheOp) (fuel : Nat),
        readVal (runCacheOps ops (h₁, s)).1 fuel c = readVal h₁ fuel c) := by
  obtain ⟨hWFlt, hWFsep⟩ := hWF
  cases hag : aget (getHPart k s) id_ with
  | none =>
    left
    unfold hfind
    rw [show aget (getHPart k (h, s).2) id_ = aget (getHPart k s) id_ from rfl,
      hag]
  | some t =>
    obtain ⟨fl, hfl⟩ := hRD k (id_, t) (mem_of_aget_eq_some hag)
    by_cases hfle : fl = []
    · left
      unfold hfind
      rw [show aget (getHPart k (h, s).2) id_ = aget (getHPart k s) id_ from rfl,
        hag]
      simp only []
      rw [show hget (h, s).1 t = hget h t from rfl, hfl]
      simp only []
      rw [if_pos hfle]
    · right
      have ht : t ∈ topsOf s :=
        mem_topsOf_of_part
          (List.mem_map_of_mem Prod.snd (mem_of_aget_eq_some hag))
      refine ⟨hlen h, List.append h [.hdict fl], ?_, ?_⟩
      · unfold hfind
        rw [show aget (getHPart k (h, s).2) id_ = aget (getHPart k s) id_ from rfl,
          hag]
        simp only []
        rw [show hget (h, s).1 t = hget h t from rfl, hfl]
        simp only []
        rw [if_neg hfle]
        rfl
      · -- the copy's object graph avoids every store top
        have hpres : ∀ c, c < hlen h →
            hget (List.append h [HObj.hdict fl]) c = hget h c := by
          intro c hc
          exact hget_append hc
        have hgrow : hlen h ≤ hlen (List.append h [HObj.hdict fl]) := by
          rw [hlen_append]
          exact Nat.le_add_right _ _
        have hrok : ROK (List.append h [.hdict fl]) (topsOf s) (hlen h) := by
          intro c' hr
          rcases reach_inv hr with he | ⟨f, hf, hreach⟩
          · refine ⟨fun hmem => ?_, ?_⟩
            · rw [he] at hmem
              exact Nat.lt_irrefl _ (hWFlt _ hmem)
            · rw [he, hlen_append]
              exact Nat.lt_add_of_pos_right (Nat.zero_lt_succ 0)
          · rw [hget_append_len] at hf
            have hforig : ROK h (topsOf s) f := by
              apply hWFsep t ht
              rw [hfl]
              exact hf
            have hftrans : ROK (List.append h [.hdict fl]) (topsOf s) f :=
              rok_transfer hforig (fun c hc _ => hpres c hc) hgrow
            exact hftrans c' hreach
        intro ops fuel
        obtain ⟨hg, hp⟩ := runCacheOps_spec ops (List.append h [.hdict fl]) s
        exact readVal_stable hp fuel (hlen h) hrok

end Hiven

namespace Hiven

instance : DecidableEq HSt := by
  unfold HSt
  infer_instance

def c7Heap : Heap :=
  [.hdict [("id", 1)], .hstr "1", .hstr "U7",
   .hdict [("id", 2), ("name", 4)], .hstr "Bob"]

def c7HStore : HStore :=
  { client_user := 0
    users := [(.vstr "U7", 3)]
    rooms_private_single := []
    rooms_private_group := []
    rooms_house := []
    entities := []
    relationships := []
    houses := []
    house_memberships := 0
    house_ids := 0
    settings := 0
    read_state := 0 }

theorem find_copy_detached_witness :
    sepWFCheck c7Heap c7HStore 6 = true ∧
    recsAreDictsCheck c7Heap c7HStore = true ∧
    ∃ c h₁, hfind .users (.vstr "U7") (c7Heap, c7HStore)
        = ((h₁, c7HStore), .ok (some c)) ∧
      readVal (runCacheOps
          [CacheOp.user (.vdict [("id", .vstr "U7"), ("name", .vstr "Eve")])]
          (h₁, c7HStore)).1 8 c
        = readVal h₁ 8 c := by
  refine ⟨by decide, by decide, ?_⟩
  rcases find_copy_detached (@sepWF_of_check c7Heap c7HStore 6 (by decide))
      (@recs_of_check c7Heap c7HStore (by decide)) .users (.vstr "U7") with
    hl | ⟨c, h₁, hrun, hdet⟩
  · exact absurd hl (by decide)
  · exact ⟨c, h₁, hrun,
      hdet [CacheOp.user (.vdict [("id", .vstr "U7"), ("name", .vstr "Eve")])] 8⟩

end Hiven

namespace Hiven

mutual
/-- Freshly allocated cells only reference cells allocated strictly
before them: `allocVal` builds its object graph bottom-up, so the graph
is acyclic and stays inside the fresh range. -/
theorem allocVal_below (h : Heap) (v : PVal) :
    ∀ c o, hlen h ≤ c → hget (allocVal h v).1 c = some o →
      ∀ f ∈ childRefs (some o), hlen h ≤ f ∧ f < c := by
  cases v with
  | vnull =>
    intro c o hc ho f hf
    rcases Nat.eq_or_lt_of_le hc with he | hgt
    · rw [show (allocVal h .vnull).1 = List.append h [.hnull] from rfl,
        ← he, hget_append_len] at ho
      cases ho
      cases hf
    · rw [show (allocVal h .vnull).1 = List.append h [.hnull] from rfl,
        hget_none_of_ge (by rw [hlen_append]; exact hgt)] at ho
      cases ho
  | vbool b =>
    intro c o hc ho f hf
    rcases Nat.eq_or_lt_of_le hc with he | hgt
    · rw [show (allocVal h (.vbool b)).1 = List.append h [.hbool b] from rfl,
        ← he, hget_append_len] at ho
      cases ho
      cases hf
    · rw [show (allocVal h (.vbool b)).1 = List.append h [.hbool b] from rfl,
        hget_none_of_ge (by rw [hlen_append]; exact hgt)] at ho
      cases ho
  | vint n =>
    intro c o hc ho f hf
    rcases Nat.eq_or_lt_of_le hc with he | hgt
    · rw [show (allocVal h (.vint n)).1 = List.append h [.hint n] from rfl,
        ← he, hget_append_len] at ho
      cases ho
      cases hf
    · rw [show (allocVal h (.vint n)).1 = List.append h [.hint n] from rfl,
        hget_none_of_ge (by rw [hlen_append]; exact hgt)] at ho
      cases ho
  | vstr s =>
    intro c o hc ho f hf
    rcases Nat.eq_or_lt_of_le hc with he | hgt
    · rw [show (allocVal h (.vstr s)).1 = List.append h [.hstr s] from rfl,
        ← he, hget_append_len] at ho
      cases ho
      cases hf
    · rw [show (allocVal h (.vstr s)).1 = List.append h [.hstr s] from rfl,
        hget_none_of_ge (by rw [hlen_append]; exact hgt)] at ho
      cases ho
  | vlist xs =>
    intro c o hc ho f hf
    obtain ⟨⟨ext₁, hext₁⟩, hroots, -⟩ := allocList_spec h xs
    have hbel := allocList_below h xs
    rw [show (allocVal h (.vlist xs)).1
      = List.append (allocList h xs).1 [.hlist (allocList h xs).2] from rfl] at ho
    rcases Nat.lt_or_ge c (hlen (allocList h xs).1) with hlt | hge
    · rw [hget_append hlt] at ho
      exact hbel c o hc ho f hf
    · rcases Nat.eq_or_lt_of_le hge with he | hgt
      · rw [← he, hget_append_len] at ho
        cases ho
        have := hroots f (by
          rw [show childRefs (some (.hlist (allocList h xs).2))
            = (allocList h xs).2 from rfl] at hf
          exact hf)
        exact ⟨this.1, he ▸ this.2⟩
      · rw [hget_none_of_ge (by rw [hlen_append]; exact hgt)] at ho
        cases ho
  | vdict fs =>
    intro c o hc ho f hf
    obtain ⟨⟨ext₁, hext₁⟩, hroots, -⟩ := allocFields_spec h fs
    have hbel := allocFields_below h fs
    rw [show (allocVal h (.vdict fs)).1
      = List.append (allocFields h fs).1 [.hdict (allocFields h fs).2] from rfl] at ho
    rcases Nat.lt_or_ge c (hlen (allocFields h fs).1) with hlt | hge
    · rw [hget_append hlt] at ho
      exact hbel c o hc ho f hf
    · rcases Nat.eq_or_lt_of_le hge with he | hgt
      · rw [← he, hget_append_len] at ho
        cases ho
        have hf' : f ∈ ((allocFields h fs).2.map Prod.snd) := hf
        rw [List.mem_map] at hf'
        obtain ⟨kv, hkv, hkvf⟩ := hf'
        have := hroots kv hkv
        rw [hkvf] at this
        exact ⟨this.1, he ▸ this.2⟩
      · rw [hget_none_of_ge (by rw [hlen_append]; exact hgt)] at ho
        cases ho

theorem allocList_below (h : Heap) (xs : List PVal) :
    ∀ c o, hlen h ≤ c → hget (allocList h xs).1 c = some o →
      ∀ f ∈ childRefs (some o), hlen h ≤ f ∧ f < c := by
  cases xs with
  | nil =>
    intro c o hc ho f hf
    rw [show (allocList h []).1 = h from rfl, hget_none_of_ge hc] at ho
    cases ho
  | cons v vs =>
    intro c o hc ho f hf
    obtain ⟨⟨ext₁, hext₁⟩, hle₁, hlt₁, -⟩ := allocVal_spec h v
    obtain ⟨⟨ext₂, hext₂⟩, -, -⟩ := allocList_spec (allocVal h v).1 vs
    have hbel₁ := allocVal_below h v
    have hbel₂ := allocList_below (allocVal h v).1 vs
    have hlen1 : hlen h ≤ hlen (allocVal h v).1 := by
      rw [hext₁, hlen_append]
      exact Nat.le_add_right _ _
    rw [show (allocList h (v :: vs)).1 = (allocList (allocVal h v).1 vs).1
      from rfl] at ho
    rcases Nat.lt_or_ge c (hlen (allocVal h v).1) with hlt | hge
    · rw [hext₂, hget_append hlt] at ho
      exact hbel₁ c o hc ho f hf
    · obtain ⟨ha, hb⟩ := hbel₂ c o hge ho f hf
      exact ⟨Nat.le_trans hlen1 ha, hb⟩

theorem allocFields_below (h : Heap) (fs : List (String × PVal)) :
    ∀ c o, hlen h ≤ c → hget (allocFields h fs).1 c = some o →
      ∀ f ∈ childRefs (some o), hlen h ≤ f ∧ f < c := by
  cases fs with
  | nil =>
    intro c o hc ho f hf
    rw [show (allocFields h []).1 = h from rfl, hget_none_of_ge hc] at ho
    cases ho
  | cons kv fs' =>
    intro c o hc ho f hf
    obtain ⟨⟨ext₁, hext₁⟩, hle₁, hlt₁, -⟩ := allocVal_spec h kv.2
    obtain ⟨⟨ext₂, hext₂⟩, -, -⟩ := allocFields_spec (allocVal h kv.2).1 fs'
    have hbel₁ := allocVal_below h kv.2
    have hbel₂ := allocFields_below (allocVal h kv.2).1 fs'
    have hlen1 : hlen h ≤ hlen (allocVal h kv.2).1 := by
      rw [hext₁, hlen_append]
      exact Nat.le_add_right _ _
    rw [show (allocFields h (kv :: fs')).1 = (allocFields (allocVal h kv.2).1 fs').1
      from rfl] at ho
    rcases Nat.lt_or_ge c (hlen (allocVal h kv.2).1) with hlt | hge
    · rw [hext₂, hget_append hlt] at ho
      exact hbel₁ c o hc ho f hf
    · obtain ⟨ha, hb⟩ := hbel₂ c o hge ho f hf
      exact ⟨Nat.le_trans hlen1 ha, hb⟩
end

end Hiven

namespace Hiven

/-- Under the `ROK` discipline, reachability never escapes into the part
of the heap a later state changed. -/
theorem reach_transfer {h h' : Heap} {T : List Nat} {a : Nat}
    (hr : ROK h T a)
    (hpres : ∀ c, c < hlen h → c ∉ T → hget h' c = hget h c) :
    ∀ c, Reach h' a c → Reach h a c := by
  intro c hc
  induction hc with
  | refl => exact Reach.refl a
  | step hab hc2 ih =>
    rename_i b c2
    obtain ⟨hbT, hblt⟩ := hr b ih
    rw [hpres b hblt hbT] at hc2
    exact Reach.step ih hc2

/-- Reachability from a fresh cell stays fresh and never climbs, in a
bottom-up-closed fresh range. -/
theorem reach_fresh_below {h' : Heap} {n f : Nat}
    (hclosed : ∀ c o, n ≤ c → hget h' c = some o →
      ∀ g ∈ childRefs (some o), n ≤ g ∧ g < c)
    (hf : n ≤ f) :
    ∀ c', Reach h' f c' → n ≤ c' ∧ c' ≤ f := by
  intro c' hr
  induction hr with
  | refl => exact ⟨hf, Nat.le_refl f⟩
  | step hab hc ih =>
    rename_i b c2
    obtain ⟨hnb, hbf⟩ := ih
    cases hgb : hget h' b with
    | none =>
      rw [hgb] at hc
      cases hc
    | some o =>
      rw [hgb] at hc
      obtain ⟨h1, h2⟩ := hclosed b o hnb hgb c2 hc
      exact ⟨h1, Nat.le_trans (Nat.le_of_lt h2) hbf⟩

/-- A heap extension (or any change confined to fresh and top cells)
keeps the store separated. -/
theorem sepWF_extend {h h' : Heap} {s : HStore}
    (hWF : SepWF h s)
    (hpres : ∀ c, c < hlen h → hget h' c = hget h c)
    (hgrow : hlen h ≤ hlen h') : SepWF h' s := by
  obtain ⟨hlt, hsep⟩ := hWF
  refine ⟨fun t ht => Nat.lt_of_lt_of_le (hlt t ht) hgrow, ?_⟩
  intro t ht f hf
  rw [hpres t (hlt t ht)] at hf
  exact rok_transfer (hsep t ht f hf) (fun c hc _ => hpres c hc) hgrow

/-- Merging entries into a stored top object keeps the store separated,
provided every merged value reference is itself separated. -/
theorem sepWF_update {h₁ : Heap} {s : HStore} {t₀ : Nat}
    {oldf newf : List (String × Nat)}
    (hWF₁ : SepWF h₁ s)
    (ht₀ : t₀ ∈ topsOf s)
    (hold : hget h₁ t₀ = some (.hdict oldf))
    (hvals : ∀ f, f ∈ (aupdate oldf newf).map Prod.snd →
      ROK h₁ (topsOf s) f) :
    SepWF (hset h₁ t₀ (.hdict (aupdate oldf newf))) s := by
  obtain ⟨hlt, hsep⟩ := hWF₁
  have hpres : ∀ c, c < hlen h₁ → c ∉ topsOf s →
      hget (hset h₁ t₀ (.hdict (aupdate oldf newf))) c = hget h₁ c := by
    intro c hc hcT
    exact hget_set_ne (fun hce => hcT (hce ▸ ht₀))
  have hgrow : hlen h₁ ≤ hlen (hset h₁ t₀ (.hdict (aupdate oldf newf))) := by
    rw [hlen_set]
  refine ⟨fun t ht => by rw [hlen_set]; exact hlt t ht, ?_⟩
  intro t ht f hf
  by_cases hte : t = t₀
  · have hgt : hget (hset h₁ t₀ (.hdict (aupdate oldf newf))) t
        = some (.hdict (aupdate oldf newf)) := by
      rw [hte]
      unfold hget hset
      rw [List.get?_set_eq_of_lt]
      exact hlt t₀ ht₀
    rw [hgt] at hf
    exact rok_transfer (hvals f hf) hpres hgrow
  · have hgt : hget (hset h₁ t₀ (.hdict (aupdate oldf newf))) t = hget h₁ t :=
      hget_set_ne (fun hce => hte hce)
    rw [hgt] at hf
    exact rok_transfer (hsep t ht f hf) hpres hgrow

/-- Binding a partition key or a primary-data slot to a separated record
object keeps the store separated. -/
theorem sepWF_add_top {h' : Heap} {s : HStore} {r : Nat}
    (hWF' : SepWF h' s)
    (havoid : ∀ t ∈ topsOf s, ∀ f ∈ childRefs (hget h' t),
      ∀ c', Reach h' f c' → c' ≠ r)
    (hfro : ∀ f ∈ childRefs (hget h' r),
      ROK h' (topsOf s) f ∧ ∀ c', Reach h' f c' → c' ≠ r)
    (hrhigh : r < hlen h') :
    (∀ k id_, SepWF h' (setHPart k s (aset (getHPart k s) id_ r))) ∧
    (∀ sl, SepWF h' (setSlot sl s r)) := by
  obtain ⟨hlt, hsep⟩ := hWF'
  have hmain : ∀ (T' : List Nat),
      (∀ x ∈ T', x ∈ topsOf s ∨ x = r) →
      (∀ t ∈ T', ∀ f ∈ childRefs (hget h' t), ROK h' T' f) ∧
      (∀ t ∈ T', t < hlen h') := by
    intro T' hT'
    constructor
    · intro t ht f hf
      have hcore : ROK h' (topsOf s) f ∧ ∀ c', Reach h' f c' → c' ≠ r := by
        rcases hT' t ht with hto | hte
        · exact ⟨hsep t hto f hf, havoid t hto f hf⟩
        · rw [hte] at hf
          exact hfro f hf
      obtain ⟨hrok, hav⟩ := hcore
      intro c' hr2
      obtain ⟨hcT, hclt⟩ := hrok c' hr2
      refine ⟨fun hmem => ?_, hclt⟩
      rcases hT' c' hmem with hx | hx
      · exact hcT hx
      · exact hav c' hr2 hx
    · intro t ht
      rcases hT' t ht with hto | hte
      · exact hlt t hto
      · exact hte ▸ hrhigh
  constructor
  · intro k id_
    obtain ⟨hA, hB⟩ := hmain (topsOf (setHPart k s (aset (getHPart k s) id_ r)))
      (fun x hx => by
        rcases mem_topsOf_setHPart hx with hy | hy
        · exact Or.inl hy
        · rcases mem_map_snd_aset hy with hz | hz
          · exact Or.inr hz
          · exact Or.inl (mem_topsOf_of_part hz))
    exact ⟨hB, hA⟩
  · intro sl
    obtain ⟨hA, hB⟩ := hmain (topsOf (setSlot sl s r))
      (fun x hx => by
        rcases mem_topsOf_setSlot hx with hy | hy
        · exact Or.inl hy
        · exact Or.inr hy)
    exact ⟨hB, hA⟩

end Hiven

namespace Hiven

/-- A freshly allocated record is separated from the store: the old cells
are untouched, nothing old reaches the new root, and the new root's
entries are separated values that never climb back to the root. -/
theorem fresh_root_sep {h : Heap} {s : HStore} (hWF : SepWF h s) (v : PVal) :
    SepWF (allocVal h v).1 s ∧
    (∀ c, c < hlen h → hget (allocVal h v).1 c = hget h c) ∧
    hlen h ≤ hlen (allocVal h v).1 ∧
    hlen h ≤ (allocVal h v).2 ∧ (allocVal h v).2 < hlen (allocVal h v).1 ∧
    (∀ t ∈ topsOf s, ∀ f ∈ childRefs (hget (allocVal h v).1 t),
      ∀ c', Reach (allocVal h v).1 f c' → c' ≠ (allocVal h v).2) ∧
    (∀ f ∈ childRefs (hget (allocVal h v).1 (allocVal h v).2),
      ROK (allocVal h v).1 (topsOf s) f ∧
      ∀ c', Reach (allocVal h v).1 f c' → c' ≠ (allocVal h v).2) := by
  obtain ⟨⟨ext, hext⟩, hrge, hrlt, -⟩ := allocVal_spec h v
  have hpres : ∀ c, c < hlen h → hget (allocVal h v).1 c = hget h c := by
    intro c hc
    rw [hext, hget_append hc]
  have hgrow : hlen h ≤ hlen (allocVal h v).1 := by
    rw [hext, hlen_append]
    exact Nat.le_add_right _ _
  have hbel := allocVal_below h v
  obtain ⟨hlt, hsep⟩ := hWF
  refine ⟨sepWF_extend ⟨hlt, hsep⟩ hpres hgrow, hpres, hgrow, hrge, hrlt, ?_, ?_⟩
  · intro t ht f hf c' hr2
    rw [hpres t (hlt t ht)] at hf
    have hrok : ROK h (topsOf s) f := hsep t ht f hf
    have hback := reach_transfer hrok (fun c hc _ => hpres c hc) c' hr2
    obtain ⟨-, hclt⟩ := hrok c' hback
    exact fun hce => Nat.lt_irrefl _ (Nat.lt_of_lt_of_le hclt (hce ▸ hrge))
  · intro f hf
    cases hgr : hget (allocVal h v).1 (allocVal h v).2 with
    | none =>
      rw [hgr] at hf
      cases hf
    | some o =>
      rw [hgr] at hf
      obtain ⟨hfge, hflt⟩ := hbel (allocVal h v).2 o hrge hgr f hf
      have hreach := reach_fresh_below hbel hfge
      constructor
      · intro c' hr2
        obtain ⟨hcge, hcle⟩ := hreach c' hr2
        refine ⟨fun hmem => ?_, ?_⟩
        · exact Nat.lt_irrefl _ (Nat.lt_of_lt_of_le (hlt c' hmem) hcge)
        · exact Nat.lt_of_le_of_lt (Nat.le_trans hcle (Nat.le_of_lt hflt)) hrlt
      · intro c' hr2
        obtain ⟨-, hcle⟩ := hreach c' hr2
        exact fun hce => Nat.lt_irrefl _ (Nat.lt_of_le_of_lt (hce ▸ hcle) hflt)

/-- A cache operation preserves the separation discipline. -/
def SepPres {α : Type} (m : HM α) : Prop :=
  ∀ h s h' s' res, m (h, s) = ((h', s'), res) → SepWF h s → SepWF h' s'

theorem sepPres_of_state_id {α : Type} {m : HM α}
    (hid : ∀ st, (m st).1 = st) : SepPres m := by
  intro h s h' s' res hrun hWF
  have hx := hid (h, s)
  rw [hrun] at hx
  obtain ⟨rfl, rfl⟩ := Prod.mk.injEq .. ▸ hx
  exact hWF

theorem sepPres_bind {α β : Type} {m : HM α} {k : α → HM β}
    (hm : SepPres m) (hk : ∀ a, SepPres (k a)) : SepPres (m >>= k) := by
  intro h s h' s' res hrun hWF
  rw [hm_bind_apply] at hrun
  cases hstep : m (h, s) with
  | mk st₁ r₁ =>
    obtain ⟨h₁, s₁⟩ := st₁
    have hWF₁ := hm h s h₁ s₁ r₁ hstep hWF
    cases r₁ with
    | ok a =>
      rw [hstep] at hrun
      exact hk a h₁ s₁ h' s' res hrun hWF₁
    | error e =>
      rw [hstep] at hrun
      obtain ⟨h1, h2⟩ := Prod.mk.injEq .. ▸ hrun
      obtain ⟨rfl, rfl⟩ := Prod.mk.injEq .. ▸ h1
      exact hWF₁

theorem sepPres_tryWrap {α : Type} {m : HM α} (hm : SepPres m) :
    SepPres (hmTryWrap m) := by
  intro h s h' s' res hrun hWF
  rw [hmTryWrap_apply] at hrun
  cases hstep : m (h, s) with
  | mk st₁ r₁ =>
    obtain ⟨h₁, s₁⟩ := st₁
    have hWF₁ := hm h s h₁ s₁ r₁ hstep hWF
    cases r₁ with
    | ok a =>
      rw [hstep] at hrun
      obtain ⟨h1, h2⟩ := Prod.mk.injEq .. ▸ hrun
      obtain ⟨rfl, rfl⟩ := Prod.mk.injEq .. ▸ h1
      exact hWF₁
    | error e =>
      rw [hstep] at hrun
      obtain ⟨h1, h2⟩ := Prod.mk.injEq .. ▸ hrun
      obtain ⟨rfl, rfl⟩ := Prod.mk.injEq .. ▸ h1
      exact hWF₁

theorem hCheckInit_state : ∀ st, (hCheckInit st).1 = st := by
  intro st
  unfold hCheckInit
  split <;> rfl

theorem hReadDict_state (q : Nat) : ∀ st, (hReadDict q st).1 = st := by
  intro st
  unfold hReadDict
  split <;> rfl

theorem hGetClientIdE_state : ∀ st, (hGetClientIdE st).1 = st := by
  intro st
  unfold hGetClientIdE
  cases hget st.1 st.2.client_user with
  | none => rfl
  | some o =>
    cases o with
    | hdict fs =>
      simp only []
      cases aget fs "id" with
      | none => rfl
      | some rc =>
        simp only []
        cases readVal st.1 (hlen st.1) rc with
        | none => rfl
        | some v => rfl
    | hnull => rfl
    | hbool b => rfl
    | hint n => rfl
    | hstr s2 => rfl
    | hlist xs => rfl

end Hiven

namespace Hiven

theorem mem_map_snd_aset_gen {κ τ : Type} [DecidableEq κ]
    {P : List (κ × τ)} {k : κ} {v : τ} {t : τ}
    (ht : t ∈ (aset P k v).map Prod.snd) : t = v ∨ t ∈ P.map Prod.snd := by
  rw [List.mem_map] at ht
  obtain ⟨kv, hkv, hkvt⟩ := ht
  rcases mem_aset hkv with h | h
  · rw [h] at hkvt
    exact Or.inl hkvt.symm
  · exact Or.inr (hkvt ▸ List.mem_map_of_mem Prod.snd h)

theorem mem_map_snd_aupdate {κ τ : Type} [DecidableEq κ] {t : τ} :
    ∀ {new old : List (κ × τ)}, t ∈ (aupdate old new).map Prod.snd →
      t ∈ old.map Prod.snd ∨ t ∈ new.map Prod.snd := by
  intro new
  induction new with
  | nil => exact fun ht => Or.inl ht
  | cons p rest ih =>
    intro old ht
    rw [aupdate_cons] at ht
    rcases ih ht with h | h
    · rcases mem_map_snd_aset_gen h with he | he
      · exact Or.inr (he ▸ List.mem_map_of_mem Prod.snd (List.mem_cons_self p rest))
      · exact Or.inl he
    · exact Or.inr (List.mem_map.mpr (by
        rw [List.mem_map] at h
        obtain ⟨kv, hkv, hkvt⟩ := h
        exact ⟨kv, List.mem_cons_of_mem p hkv, hkvt⟩))

/-- The record object `r` is separated from the store: the store is
separated, `r` is no top, nothing reachable from a top's entries is `r`,
and `r`'s own entries are separated values that never reach `r`. -/
def SepPack (h : Heap) (s : HStore) (r : Nat) : Prop :=
  SepWF h s ∧ r ∉ topsOf s ∧ r < hlen h ∧
  (∀ t ∈ topsOf s, ∀ f ∈ childRefs (hget h t), ∀ c', Reach h f c' → c' ≠ r) ∧
  (∀ f ∈ childRefs (hget h r),
    ROK h (topsOf s) f ∧ ∀ c', Reach h f c' → c' ≠ r)

/-- Deep-copying a value yields a separated record. -/
theorem sepPack_alloc {h : Heap} {s : HStore} (hWF : SepWF h s) (v : PVal) :
    SepPack (allocVal h v).1 s (allocVal h v).2 := by
  obtain ⟨hWF₁, hpres, hgrow, hrge, hrlt, havoid, hfro⟩ := fresh_root_sep hWF v
  refine ⟨hWF₁, ?_, hrlt, havoid, hfro⟩
  intro hmem
  exact Nat.lt_irrefl _ (Nat.lt_of_lt_of_le (hWF.1 _ hmem) hrge)

/-- Merging a separated record's entries into a stored top object keeps
both the store and the record separated. -/
theorem sepPack_update {h : Heap} {s : HStore} {r t₀ : Nat}
    {oldf newf : List (String × Nat)}
    (hP : SepPack h s r) (ht₀ : t₀ ∈ topsOf s)
    (hold : hget h t₀ = some (.hdict oldf))
    (hnew : hget h r = some (.hdict newf)) :
    SepPack (hset h t₀ (.hdict (aupdate oldf newf))) s r := by
  obtain ⟨hWF, hrnt, hrlt, havoid, hfro⟩ := hP
  have hnet : r ≠ t₀ := fun hce => hrnt (hce ▸ ht₀)
  have hpres : ∀ c, c < hlen h → c ∉ topsOf s →
      hget (hset h t₀ (.hdict (aupdate oldf newf))) c = hget h c := by
    intro c hc hcT
    exact hget_set_ne (fun hce => hcT (hce ▸ ht₀))
  have hvals : ∀ f, f ∈ (aupdate oldf newf).map Prod.snd →
      ROK h (topsOf s) f ∧ ∀ c', Reach h f c' → c' ≠ r := by
    intro f hf
    rcases mem_map_snd_aupdate hf with hfo | hfn
    · have hfc : f ∈ childRefs (hget h t₀) := by
        rw [hold]
        exact hfo
      exact ⟨hWF.2 t₀ ht₀ f hfc, havoid t₀ ht₀ f hfc⟩
    · have hfc : f ∈ childRefs (hget h r) := by
        rw [hnew]
        exact hfn
      exact hfro f hfc
  have hWF' : SepWF (hset h t₀ (.hdict (aupdate oldf newf))) s :=
    sepWF_update hWF ht₀ hold (fun f hf => (hvals f hf).1)
  have hsub : ∀ f, ROK h (topsOf s) f →
      ∀ c', Reach (hset h t₀ (.hdict (aupdate oldf newf))) f c' →
        Reach h f c' := by
    intro f hrok
    exact reach_transfer hrok hpres
  refine ⟨hWF', hrnt, by rw [hlen_set]; exact hrlt, ?_, ?_⟩
  · intro t ht f hf c' hr2
    by_cases hte : t = t₀
    · have hgt : hget (hset h t₀ (.hdict (aupdate oldf newf))) t
          = some (.hdict (aupdate oldf newf)) := by
        rw [hte]
        unfold hget hset
        rw [List.get?_set_eq_of_lt]
        exact hWF.1 t₀ ht₀
      rw [hgt] at hf
      exact (hvals f hf).2 c' (hsub f (hvals f hf).1 c' hr2)
    · have hgt : hget (hset h t₀ (.hdict (aupdate oldf newf))) t = hget h t :=
        hget_set_ne hte
      rw [hgt] at hf
      exact havoid t ht f hf c' (hsub f (hWF.2 t ht f hf) c' hr2)
  · intro f hf
    have hgr : hget (hset h t₀ (.hdict (aupdate oldf newf))) r = hget h r :=
      hget_set_ne hnet
    rw [hgr] at hf
    obtain ⟨hrok, hav⟩ := hfro f hf
    refine ⟨rok_transfer hrok hpres (by rw [hlen_set]), ?_⟩
    intro c' hr2
    exact hav c' (hsub f hrok c' hr2)

/-- Placing a separated record into a partition keeps the store
separated, in both the bind and the merge branch. -/
theorem sepWF_of_partPlace {h : Heap} {s : HStore} {r : Nat}
    (hP : SepPack h s r) (k : PartKey) (id_ : PVal) :
    ∀ h' s' res, hPartPlace k id_ r (h, s) = ((h', s'), res) →
      SepWF h' s' := by
  obtain ⟨hWF, hrnt, hrlt, havoid, hfro⟩ := hP
  intro h' s' res hrun
  unfold hPartPlace at hrun
  cases hag : aget (getHPart k s) id_ with
  | none =>
    rw [show aget (getHPart k (h, s).2) id_ = aget (getHPart k s) id_ from rfl,
      hag] at hrun
    simp only [] at hrun
    obtain ⟨h1, h2⟩ := Prod.mk.injEq .. ▸ hrun
    obtain ⟨rfl, rfl⟩ := Prod.mk.injEq .. ▸ h1
    exact (sepWF_add_top hWF havoid hfro hrlt).1 k id_
  | some t₀ =>
    rw [show aget (getHPart k (h, s).2) id_ = aget (getHPart k s) id_ from rfl,
      hag] at hrun
    simp only [] at hrun
    have ht₀ : t₀ ∈ topsOf s :=
      mem_topsOf_of_part
        (List.mem_map_of_mem Prod.snd (mem_of_aget_eq_some hag))
    cases hgt : hget h t₀ with
    | none =>
      rw [show hget (h, s).1 t₀ = hget h t₀ from rfl, hgt] at hrun
      obtain ⟨h1, h2⟩ := Prod.mk.injEq .. ▸ hrun
      obtain ⟨rfl, rfl⟩ := Prod.mk.injEq .. ▸ h1
      exact hWF
    | some o₁ =>
      rw [show hget (h, s).1 t₀ = hget h t₀ from rfl, hgt] at hrun
      cases hgr : hget h r with
      | none =>
        rw [show hget (h, s).1 r = hget h r from rfl, hgr] at hrun
        cases o₁ <;>
          · obtain ⟨h1, h2⟩ := Prod.mk.injEq .. ▸ hrun
            obtain ⟨rfl, rfl⟩ := Prod.mk.injEq .. ▸ h1
            exact hWF
      | some o₂ =>
        rw [show hget (h, s).1 r = hget h r from rfl, hgr] at hrun
        cases o₁ <;> cases o₂ <;>
        first
        | (obtain ⟨h1, h2⟩ := Prod.mk.injEq .. ▸ hrun
           obtain ⟨rfl, rfl⟩ := Prod.mk.injEq .. ▸ h1
           exact (sepPack_update ⟨hWF, hrnt, hrlt, havoid, hfro⟩
             ht₀ hgt hgr).1)
        | (obtain ⟨h1, h2⟩ := Prod.mk.injEq .. ▸ hrun
           obtain ⟨rfl, rfl⟩ := Prod.mk.injEq .. ▸ h1
           exact hWF)

end Hiven

namespace Hiven

theorem sepPres_pure {α : Type} (a : α) : SepPres (Pure.pure a : HM α) :=
  sepPres_of_state_id (fun _ => rfl)

theorem sepPres_throw {α : Type} (e : Exc) : SepPres (hmThrow e : HM α) :=
  sepPres_of_state_id (fun _ => rfl)

theorem sepPres_liftE {α : Type} (x : Except Exc α) : SepPres (hmLiftE x) :=
  sepPres_of_state_id (fun _ => rfl)

theorem sepPres_checkInit : SepPres hCheckInit :=
  sepPres_of_state_id hCheckInit_state

theorem sepPres_readDict (q : Nat) : SepPres (hReadDict q) :=
  sepPres_of_state_id (hReadDict_state q)

theorem sepPres_getClientIdVal : SepPres hGetClientIdVal :=
  sepPres_of_state_id (fun _ => rfl)

theorem sepPres_getClientIdE : SepPres hGetClientIdE :=
  sepPres_of_state_id hGetClientIdE_state

theorem sepPres_allocDict (d : Dict) : SepPres (hAllocDict d) := by
  intro h s h' s' res hrun hWF
  unfold hAllocDict at hrun
  simp only [] at hrun
  obtain ⟨h1, h2⟩ := Prod.mk.injEq .. ▸ hrun
  obtain ⟨rfl, rfl⟩ := Prod.mk.injEq .. ▸ h1
  exact (fresh_root_sep hWF (.vdict d)).1

theorem sepPres_allocVal (v : PVal) : SepPres (hAllocVal v) := by
  intro h s h' s' res hrun hWF
  unfold hAllocVal at hrun
  simp only [] at hrun
  obtain ⟨h1, h2⟩ := Prod.mk.injEq .. ▸ hrun
  obtain ⟨rfl, rfl⟩ := Prod.mk.injEq .. ▸ h1
  exact (fresh_root_sep hWF v).1

theorem sepPres_setSlot (sl : SlotKey) (v : PVal) : SepPres (hSetSlot sl v) := by
  intro h s h' s' res hrun hWF
  unfold hSetSlot at hrun
  simp only [] at hrun
  obtain ⟨h1, h2⟩ := Prod.mk.injEq .. ▸ hrun
  obtain ⟨rfl, rfl⟩ := Prod.mk.injEq .. ▸ h1
  obtain ⟨hWF₁, hrnt, hrlt, havoid, hfro⟩ := sepPack_alloc hWF v
  exact (sepWF_add_top hWF₁ havoid hfro hrlt).2 sl

theorem sepPres_storeRecord (k : PartKey) (id_ : PVal) (d : Dict) :
    SepPres (hStoreRecord k id_ d) := by
  intro h s h' s' res hrun hWF
  unfold hStoreRecord at hrun
  rw [hm_bind_apply] at hrun
  rw [show hAllocDict d (h, s)
    = (((allocVal h (.vdict d)).1, s), .ok (allocVal h (.vdict d)).2)
    from rfl] at hrun
  simp only [] at hrun
  rw [hm_bind_apply] at hrun
  cases hpl : hPartPlace k id_ (allocVal h (.vdict d)).2
      ((allocVal h (.vdict d)).1, s) with
  | mk st₂ r₂ =>
    obtain ⟨h₂, s₂⟩ := st₂
    have hWF₂ : SepWF h₂ s₂ :=
      sepWF_of_partPlace (sepPack_alloc hWF (.vdict d)) k id_ h₂ s₂ r₂ hpl
    rw [hpl] at hrun
    cases r₂ with
    | ok u =>
      simp only [] at hrun
      rw [show (pure (allocVal h (.vdict d)).2 : HM Nat) (h₂, s₂)
        = ((h₂, s₂), .ok (allocVal h (.vdict d)).2) from rfl] at hrun
      obtain ⟨h1, h2⟩ := Prod.mk.injEq .. ▸ hrun
      obtain ⟨rfl, rfl⟩ := Prod.mk.injEq .. ▸ h1
      exact hWF₂
    | error e =>
      simp only [] at hrun
      obtain ⟨h1, h2⟩ := Prod.mk.injEq .. ▸ hrun
      obtain ⟨rfl, rfl⟩ := Prod.mk.injEq .. ▸ h1
      exact hWF₂

/-- The client-user merge keeps both the store and the fresh record
separated. -/
theorem sepPack_clientUserMerge {h₁ : Heap} {s : HStore} {r : Nat}
    (hP : SepPack h₁ s r) :
    ∀ h₂ s₂ res, hClientUserMerge r (h₁, s) = ((h₂, s₂), res) →
      SepPack h₂ s₂ r := by
  intro h₂ s₂ res hrun
  unfold hClientUserMerge at hrun
  cases hgt : hget h₁ s.client_user with
  | none =>
    rw [show hget (h₁, s).1 (h₁, s).2.client_user = hget h₁ s.client_user
      from rfl, hgt] at hrun
    obtain ⟨h1, h2⟩ := Prod.mk.injEq .. ▸ hrun
    obtain ⟨rfl, rfl⟩ := Prod.mk.injEq .. ▸ h1
    exact hP
  | some o₁ =>
    rw [show hget (h₁, s).1 (h₁, s).2.client_user = hget h₁ s.client_user
      from rfl, hgt] at hrun
    cases hgr : hget h₁ r with
    | none =>
      rw [show hget (h₁, s).1 r = hget h₁ r from rfl, hgr] at hrun
      cases o₁ <;>
        · obtain ⟨h1, h2⟩ := Prod.mk.injEq .. ▸ hrun
          obtain ⟨rfl, rfl⟩ := Prod.mk.injEq .. ▸ h1
          exact hP
    | some o₂ =>
      rw [show hget (h₁, s).1 r = hget h₁ r from rfl, hgr] at hrun
      cases o₁ <;> cases o₂ <;>
      first
      | (obtain ⟨h1, h2⟩ := Prod.mk.injEq .. ▸ hrun
         obtain ⟨rfl, rfl⟩ := Prod.mk.injEq .. ▸ h1
         exact sepPack_update hP (client_user_mem_topsOf s) hgt hgr)
      | (obtain ⟨h1, h2⟩ := Prod.mk.injEq .. ▸ hrun
         obtain ⟨rfl, rfl⟩ := Prod.mk.injEq .. ▸ h1
         exact hP)

theorem sepPres_update_client_user_core (d : Dict) :
    SepPres (hupdate_client_user_core d) := by
  intro h s h' s' res hrun hWF
  unfold hupdate_client_user_core at hrun
  rw [hm_bind_apply, hmLiftE_apply] at hrun
  cases hfmt : User.format_obj_data d with
  | error e =>
    rw [hfmt] at hrun
    simp only [] at hrun
    obtain ⟨h1, h2⟩ := Prod.mk.injEq .. ▸ hrun
    obtain ⟨rfl, rfl⟩ := Prod.mk.injEq .. ▸ h1
    exact hWF
  | ok cu =>
    rw [hfmt] at hrun
    simp only [] at hrun
    rw [hm_bind_apply] at hrun
    rw [show hAllocDict cu (h, s)
      = (((allocVal h (.vdict cu)).1, s), .ok (allocVal h (.vdict cu)).2)
      from rfl] at hrun
    simp only [] at hrun
    rw [hm_bind_apply] at hrun
    cases hmg : hClientUserMerge (allocVal h (.vdict cu)).2
        ((allocVal h (.vdict cu)).1, s) with
    | mk st₂ r₂ =>
      obtain ⟨h₂, s₂⟩ := st₂
      have hP₂ : SepPack h₂ s₂ (allocVal h (.vdict cu)).2 :=
        sepPack_clientUserMerge (sepPack_alloc hWF (.vdict cu)) h₂ s₂ r₂ hmg
      rw [hmg] at hrun
      cases r₂ with
      | error e =>
        simp only [] at hrun
        obtain ⟨h1, h2⟩ := Prod.mk.injEq .. ▸ hrun
        obtain ⟨rfl, rfl⟩ := Prod.mk.injEq .. ▸ h1
        exact hP₂.1
      | ok u =>
        simp only [] at hrun
        rw [hm_bind_apply, hmLiftE_apply] at hrun
        cases hdid : pyIndex d "id" with
        | error e =>
          rw [hdid] at hrun
          simp only [] at hrun
          obtain ⟨h1, h2⟩ := Prod.mk.injEq .. ▸ hrun
          obtain ⟨rfl, rfl⟩ := Prod.mk.injEq .. ▸ h1
          exact hP₂.1
        | ok did =>
          rw [hdid] at hrun
          simp only [] at hrun
          rw [hm_bind_apply] at hrun
          cases hpl : hPartPlace .users did (allocVal h (.vdict cu)).2
              (h₂, s₂) with
          | mk st₃ r₃ =>
            obtain ⟨h₃, s₃⟩ := st₃
            have hWF₃ : SepWF h₃ s₃ :=
              sepWF_of_partPlace hP₂ .users did h₃ s₃ r₃ hpl
            rw [hpl] at hrun
            cases r₃ with
            | error e =>
              simp only [] at hrun
              obtain ⟨h1, h2⟩ := Prod.mk.injEq .. ▸ hrun
              obtain ⟨rfl, rfl⟩ := Prod.mk.injEq .. ▸ h1
              exact hWF₃
            | ok u2 =>
              simp only [] at hrun
              obtain ⟨h1, h2⟩ := Prod.mk.injEq .. ▸ hrun
              obtain ⟨rfl, rfl⟩ := Prod.mk.injEq .. ▸ h1
              exact hWF₃

end Hiven

namespace Hiven

theorem sepPres_user_core (d : Dict) : SepPres (hadd_or_update_user_core d) := by
  unfold hadd_or_update_user_core
  apply sepPres_bind sepPres_checkInit
  intro u
  apply sepPres_tryWrap
  apply sepPres_bind (sepPres_liftE _)
  intro id_
  apply sepPres_bind (sepPres_liftE _)
  intro data
  apply sepPres_bind sepPres_getClientIdVal
  intro cid
  dsimp only
  by_cases hc : id_ = cid
  · rw [if_pos hc]
    apply sepPres_bind (sepPres_update_client_user_core data)
    intro u2
    apply sepPres_bind (sepPres_pure ())
    intro u3
    exact sepPres_bind (sepPres_storeRecord _ _ _) (fun _ => sepPres_pure data)
  · rw [if_neg hc]
    apply sepPres_bind (sepPres_pure ())
    intro u3
    exact sepPres_bind (sepPres_storeRecord _ _ _) (fun _ => sepPres_pure data)

theorem sepPres_room_core (d : Dict) : SepPres (hadd_or_update_room_core d) := by
  unfold hadd_or_update_room_core
  apply sepPres_bind sepPres_checkInit
  intro u
  apply sepPres_tryWrap
  apply sepPres_bind (sepPres_liftE _)
  intro id_
  apply sepPres_bind (sepPres_liftE _)
  intro data
  exact sepPres_bind (sepPres_storeRecord _ _ _) (fun _ => sepPres_pure data)

theorem sepPres_entity_core (d : Dict) : SepPres (hadd_or_update_entity_core d) := by
  unfold hadd_or_update_entity_core
  apply sepPres_bind sepPres_checkInit
  intro u
  apply sepPres_tryWrap
  apply sepPres_bind (sepPres_liftE _)
  intro id_
  apply sepPres_bind (sepPres_liftE _)
  intro data
  exact sepPres_bind (sepPres_storeRecord _ _ _) (fun _ => sepPres_pure data)

theorem sepPres_private_room_core (d : Dict) :
    SepPres (hadd_or_update_private_room_core d) := by
  unfold hadd_or_update_private_room_core
  apply sepPres_bind sepPres_checkInit
  intro u
  apply sepPres_tryWrap
  apply sepPres_bind (sepPres_liftE _)
  intro id_
  apply sepPres_bind (sepPres_liftE _)
  intro tv
  cases pyInt tv with
  | none => exact sepPres_bind (sepPres_throw _) (fun _ => sepPres_pure d)
  | some n =>
    rcases n with m | m
    · rcases m with _ | (_ | (_ | m))
      · exact sepPres_bind (sepPres_throw _) (fun _ => sepPres_pure d)
      · apply sepPres_bind (sepPres_liftE _)
        intro x
        dsimp only
        apply sepPres_bind (sepPres_storeRecord _ _ _)
        intro x2
        apply sepPres_bind (sepPres_pure ())
        intro y
        dsimp only
        exact sepPres_pure d
      · apply sepPres_bind (sepPres_liftE _)
        intro x
        dsimp only
        apply sepPres_bind (sepPres_storeRecord _ _ _)
        intro x2
        apply sepPres_bind (sepPres_pure ())
        intro y
        dsimp only
        exact sepPres_pure d
      · exact sepPres_bind (sepPres_throw _) (fun _ => sepPres_pure d)
    · exact sepPres_bind (sepPres_throw _) (fun _ => sepPres_pure d)

theorem sepPres_relationship_core (d : Dict) :
    SepPres (hadd_or_update_relationship_core d) := by
  unfold hadd_or_update_relationship_core
  apply sepPres_bind sepPres_checkInit
  intro u
  apply sepPres_tryWrap
  apply sepPres_bind (sepPres_liftE _)
  intro id_
  dsimp only
  by_cases hc : truthy (aget d "user") = true
  · rw [if_pos hc]
    apply sepPres_bind (sepPres_liftE _)
    intro u2
    apply sepPres_bind (sepPres_user_core u2)
    intro u3
    apply sepPres_bind (sepPres_pure ())
    intro y
    dsimp only
    apply sepPres_bind (sepPres_liftE _)
    intro data
    exact sepPres_bind (sepPres_storeRecord _ _ _) (fun _ => sepPres_pure data)
  · rw [if_neg hc]
    apply sepPres_bind (sepPres_pure ())
    intro y
    dsimp only
    apply sepPres_bind (sepPres_liftE _)
    intro data
    exact sepPres_bind (sepPres_storeRecord _ _ _) (fun _ => sepPres_pure data)

theorem sepPres_rooms_loop (id_ : PVal) (rs : List PVal) :
    SepPres (hHouseRoomsLoop id_ rs) := by
  induction rs with
  | nil => exact sepPres_pure []
  | cons r rest ih =>
    show SepPres (hHouseRoomsLoop id_ (r :: rest))
    unfold hHouseRoomsLoop
    apply sepPres_bind (sepPres_liftE _)
    intro rd
    apply sepPres_bind (sepPres_liftE _)
    intro room
    apply sepPres_bind (sepPres_room_core room)
    intro u
    exact sepPres_bind ih (fun tail => sepPres_pure _)

theorem sepPres_members_loop (id_ : PVal) (ms : List PVal) :
    SepPres (hHouseMembersLoop id_ ms) := by
  induction ms with
  | nil => exact sepPres_pure []
  | cons m rest ih =>
    show SepPres (hHouseMembersLoop id_ (m :: rest))
    unfold hHouseMembersLoop
    apply sepPres_bind (sepPres_liftE _)
    intro md
    apply sepPres_bind (sepPres_liftE _)
    intro uv
    apply sepPres_bind (sepPres_liftE _)
    intro ud
    apply sepPres_bind (sepPres_liftE _)
    intro user
    apply sepPres_bind (sepPres_user_core user)
    intro u
    exact sepPres_bind ih (fun tail => sepPres_pure _)

theorem sepPres_entities_loop (id_ : PVal) (es : List PVal) :
    SepPres (hHouseEntitiesLoop id_ es) := by
  induction es with
  | nil => exact sepPres_pure []
  | cons e rest ih =>
    show SepPres (hHouseEntitiesLoop id_ (e :: rest))
    unfold hHouseEntitiesLoop
    apply sepPres_bind (sepPres_liftE _)
    intro ed
    apply sepPres_bind (sepPres_liftE _)
    intro entity
    apply sepPres_bind (sepPres_entity_core entity)
    intro u
    exact sepPres_bind ih (fun tail => sepPres_pure _)

theorem sepPres_house_core (d : Dict) : SepPres (hadd_or_update_house_core d) := by
  unfold hadd_or_update_house_core
  apply sepPres_bind sepPres_checkInit
  intro u
  apply sepPres_tryWrap
  apply sepPres_bind (sepPres_liftE _)
  intro id_
  apply sepPres_bind (sepPres_liftE _)
  intro roomsV
  apply sepPres_bind (sepPres_liftE _)
  intro rooms
  apply sepPres_bind (sepPres_rooms_loop id_ rooms)
  intro rooms2
  apply sepPres_bind (sepPres_liftE _)
  intro membersV
  apply sepPres_bind (sepPres_liftE _)
  intro members
  apply sepPres_bind (sepPres_members_loop id_ members)
  intro members2
  apply sepPres_bind (sepPres_liftE _)
  intro entsV
  apply sepPres_bind (sepPres_liftE _)
  intro ents
  apply sepPres_bind (sepPres_entities_loop id_ ents)
  intro ents2
  apply sepPres_bind (sepPres_liftE _)
  intro data2
  apply sepPres_bind sepPres_getClientIdE
  intro cid
  apply sepPres_bind (sepPres_liftE _)
  intro membersD
  apply sepPres_bind (sepPres_liftE _)
  intro cm
  exact sepPres_bind (sepPres_storeRecord _ _ _) (fun _ => sepPres_pure _)

theorem sepPres_private_rooms_loop (rs : List PVal) :
    SepPres (hPrivateRoomsLoop rs) := by
  induction rs with
  | nil => exact sepPres_pure ()
  | cons r rest ih =>
    show SepPres (hPrivateRoomsLoop (r :: rest))
    unfold hPrivateRoomsLoop
    apply sepPres_bind (sepPres_liftE _)
    intro rd
    exact sepPres_bind (sepPres_private_room_core rd) (fun _ => ih)

theorem sepPres_relationships_loop (rs : List PVal) :
    SepPres (hRelationshipsLoop rs) := by
  induction rs with
  | nil => exact sepPres_pure ()
  | cons r rest ih =>
    show SepPres (hRelationshipsLoop (r :: rest))
    unfold hRelationshipsLoop
    apply sepPres_bind (sepPres_liftE _)
    intro rd
    exact sepPres_bind (sepPres_relationship_core rd) (fun _ => ih)

theorem sepPres_primary_core (d : Dict) :
    SepPres (hupdate_primary_data_core d) := by
  unfold hupdate_primary_data_core
  apply sepPres_bind (sepPres_setSlot _ _)
  intro u1
  apply sepPres_bind (sepPres_setSlot _ _)
  intro u2
  apply sepPres_bind (sepPres_setSlot _ _)
  intro u3
  apply sepPres_bind (sepPres_setSlot _ _)
  intro u4
  apply sepPres_bind (sepPres_liftE _)
  intro uv
  apply sepPres_bind (sepPres_update_client_user_core uv)
  intro u5
  apply sepPres_bind (sepPres_liftE _)
  intro prv
  apply sepPres_bind (sepPres_private_rooms_loop prv)
  intro u6
  apply sepPres_bind
  · cases aget d "relationships" with
    | none => exact sepPres_throw _
    | some v =>
      cases v with
      | vdict rels => exact sepPres_relationships_loop _
      | vnull => exact sepPres_throw _
      | vbool b => exact sepPres_throw _
      | vint n => exact sepPres_throw _
      | vstr s2 => exact sepPres_throw _
      | vlist xs => exact sepPres_throw _
  · intro u7
    exact sepPres_pure ()

theorem sepPres_hupdate_client_user (q : Nat) : SepPres (hupdate_client_user q) :=
  sepPres_bind (sepPres_readDict q) sepPres_update_client_user_core

theorem sepPres_hadd_or_update_user (q : Nat) : SepPres (hadd_or_update_user q) :=
  sepPres_bind (sepPres_readDict q) sepPres_user_core

theorem sepPres_hadd_or_update_room (q : Nat) : SepPres (hadd_or_update_room q) :=
  sepPres_bind (sepPres_readDict q) sepPres_room_core

theorem sepPres_hadd_or_update_entity (q : Nat) :
    SepPres (hadd_or_update_entity q) :=
  sepPres_bind (sepPres_readDict q) sepPres_entity_core

theorem sepPres_hadd_or_update_private_room (q : Nat) :
    SepPres (hadd_or_update_private_room q) :=
  sepPres_bind (sepPres_readDict q) sepPres_private_room_core

theorem sepPres_hadd_or_update_relationship (q : Nat) :
    SepPres (hadd_or_update_relationship q) :=
  sepPres_bind (sepPres_readDict q) sepPres_relationship_core

theorem sepPres_hadd_or_update_house (q : Nat) :
    SepPres (hadd_or_update_house q) :=
  sepPres_bind (sepPres_readDict q) sepPres_house_core

theorem sepPres_hupdate_primary_data (q : Nat) :
    SepPres (hupdate_primary_data q) :=
  sepPres_bind (sepPres_readDict q) sepPres_primary_core

theorem sepPres_runOp (op : CacheOp) : SepPres (hRunOp op) := by
  cases op <;>
    · unfold hRunOp
      apply sepPres_bind (sepPres_allocVal _)
      intro q
      first
      | exact sepPres_bind (sepPres_hupdate_primary_data q)
          (fun _ => sepPres_pure ())
      | exact sepPres_bind (sepPres_hupdate_client_user q)
          (fun _ => sepPres_pure ())
      | exact sepPres_bind (sepPres_hadd_or_update_user q)
          (fun _ => sepPres_pure ())
      | exact sepPres_bind (sepPres_hadd_or_update_room q)
          (fun _ => sepPres_pure ())
      | exact sepPres_bind (sepPres_hadd_or_update_entity q)
          (fun _ => sepPres_pure ())
      | exact sepPres_bind (sepPres_hadd_or_update_private_room q)
          (fun _ => sepPres_pure ())
      | exact sepPres_bind (sepPres_hadd_or_update_relationship q)
          (fun _ => sepPres_pure ())
      | exact sepPres_bind (sepPres_hadd_or_update_house q)
          (fun _ => sepPres_pure ())

/-- The separation discipline is an invariant of every single cache
mutation, whether it returns or raises. -/
theorem sepWF_invariant (op : CacheOp) (h : Heap) (s : HStore)
    (hWF : SepWF h s) :
    SepWF (runCacheOp op (h, s)).1 (runCacheOp op (h, s)).2 := by
  have hrun : hRunOp op (h, s)
      = (((hRunOp op (h, s)).1.1, (hRunOp op (h, s)).1.2),
        (hRunOp op (h, s)).2) := rfl
  exact sepPres_runOp op h s _ _ _ hrun hWF

/-- The separation discipline is an invariant of every sequence of
cache mutations. -/
theorem sepWF_invariant_ops (ops : List CacheOp) :
    ∀ st : HSt, SepWF st.1 st.2 →
      SepWF (runCacheOps ops st).1 (runCacheOps ops st).2 := by
  induction ops with
  | nil => exact fun st hWF => hWF
  | cons op rest ih =>
    intro st hWF
    exact ih (runCacheOp op st) (sepWF_invariant op st.1 st.2 hWF)

end Hiven
